import Mathlib

/-!
# Tippecanoe core pipeline: spatial sort, drop policy, ingest partitioning,
# pool and node merges, choice of the first zoom, of maxzoom and of basezoom

A shallow embedding of the parts of `main.cpp` that the specification's
contract claims talk about, followed by the theorems that settle them.

Conventions of the embedding

* C integers are natural numbers or integers; where the source computes in
  64-bit unsigned arithmetic the reduction `% 2^64` is written out.
* Division of signed C integers truncates toward zero and is `Int.tdiv`.
* C `double` values are elements of a type `F` together with a record
  `DoubleOps F` of the operations the source applies to them.  General
  theorems hold for every such record, so also for IEEE-754 binary64;
  evaluations use the exact integer instance `intOps`, or the instance
  `fixedOps` of values held as multiples of `2^-51`.
* Files are lists (of bytes, of index records); a file position counter that
  the source keeps separately from the file is kept separately here too.
* Progress reporting (`progress`, `progress_max`, `progress_reported`) has no
  effect on any output stream and is left out.
* Calls to the operating system (`mkstemp`, `mmap`, `fstat`, `close`, thread
  creation) are taken to succeed; the branches that print an error and exit
  when one of them fails are left out.
-/

namespace Tippecanoe

/-! ## Data model -/

/-- The operations that `main.cpp` applies to values of type `double` in the
drop policy.  `expLogMul d k` stands for `std::exp(std::log(d) * k)`. -/
structure DoubleOps (F : Type) where
  zero : F
  one : F
  add : F → F → F
  sub : F → F → F
  lt : F → F → Bool
  le : F → F → Bool
  expLogMul : F → Int → F

/-- Exact arithmetic on integer-valued doubles: the instance used to evaluate
the model on concrete inputs.  `std::exp(std::log(d) * k)` is the power `d ^ k`
for a nonnegative integer `k`. -/
def intOps : DoubleOps Int where
  zero := 0
  one := 1
  add := fun a b => a + b
  sub := fun a b => a - b
  lt := fun a b => decide (a < b)
  le := fun a b => decide (a ≤ b)
  expLogMul := fun d k => d ^ k.toNat

/-- Modelled from the spec: record `struct index`, whose declaration is in a
header that is not among the sources; it is the IndexEntry of the data model,
one entry of an index file.  `end_` is the field `end`. -/
structure index where
  start : Nat
  end_ : Nat
  ix : Nat
  segment : Nat
  t : Nat
  seq : Nat
deriving DecidableEq, Repr

/-- Modelled from the spec: geometry kind Point, the constant `VT_POINT` of a
header that is not among the sources.  Only its being different from the
other two kinds matters. -/
def VT_POINT : Nat := 1

/-- Modelled from the spec: geometry kind Line, the constant `VT_LINE`. -/
def VT_LINE : Nat := 2

/-- Modelled from the spec: geometry kind Polygon, the constant `VT_POLYGON`. -/
def VT_POLYGON : Nat := 3

/-- Record `struct drop_state` of `main.cpp`. -/
structure drop_state (F : Type) where
  gap : F
  previndex : Nat
  interval : F
  seq : F

/-- The process-wide settings read by the functions below:
`additional[A_LINE_DROP]`, `additional[A_POLYGON_DROP]`,
`preserve_point_density_threshold`, `additional[A_PREFER_RADIX_SORT]`. -/
structure Settings where
  line_drop : Bool
  polygon_drop : Bool
  preserve_point_density_threshold : Nat
  prefer_radix_sort : Bool

/-! ## `indexcmp` -/

/-- Function `indexcmp` of `main.cpp`: compare by `ix`, then by `seq`. -/
def indexcmp (i1 i2 : index) : Int :=
  if i1.ix < i2.ix then -1
  else if i1.ix > i2.ix then 1
  else if i1.seq < i2.seq then -1
  else if i1.seq > i2.seq then 1
  else 0

/-! ## Drop policy: `prep_drop_states`, `calc_feature_minzoom` -/

/-- Body of the loop of `prep_drop_states` for one zoom `i`. -/
def prep_drop_state {F : Type} (ops : DoubleOps F) (basezoom : Int) (droprate : F)
    (i : Nat) : drop_state F :=
  { gap := ops.zero
    previndex := 0
    interval := if (i : Int) < basezoom then ops.expLogMul droprate (basezoom - i) else ops.zero
    seq := ops.zero }

/-- Function `prep_drop_states` of `main.cpp`: the loop `for i = 0 .. maxzoom`
over the array `ds`, run for `n` iterations (call it with `n = maxzoom + 1`). -/
def prep_drop_states_loop {F : Type} (ops : DoubleOps F) (basezoom : Int) (droprate : F) :
    Nat → (Nat → drop_state F) → (Nat → drop_state F)
  | 0, ds => ds
  | n + 1, ds =>
    Function.update (prep_drop_states_loop ops basezoom droprate n ds) n
      (prep_drop_state ops basezoom droprate n)

/-- Function `prep_drop_states` of `main.cpp`. -/
def prep_drop_states {F : Type} (ops : DoubleOps F) (ds : Nat → drop_state F)
    (maxzoom : Nat) (basezoom : Int) (droprate : F) : Nat → drop_state F :=
  prep_drop_states_loop ops basezoom droprate (maxzoom + 1) ds

/-- First loop of `calc_feature_minzoom`: `ds[i].seq++` for `i = n-1` down to `0`. -/
def incr_seqs {F : Type} (ops : DoubleOps F) : Nat → (Nat → drop_state F) → (Nat → drop_state F)
  | 0, ds => ds
  | n + 1, ds =>
    incr_seqs ops n (Function.update ds n { ds n with seq := ops.add (ds n).seq ops.one })

/-- Inner loops of `calc_feature_minzoom`: `ds[j].previndex = ix->ix` for
`j = from .. maxzoom`; `n` counts the remaining iterations. -/
def set_previndex {F : Type} (ixv : Nat) : Nat → Nat → (Nat → drop_state F) → (Nat → drop_state F)
  | 0, _, ds => ds
  | n + 1, j, ds =>
    set_previndex ixv n (j + 1) (Function.update ds j { ds j with previndex := ixv })

/-- Second loop of `calc_feature_minzoom`: walk `i = n-1` down to `0`; stop at
the first zoom whose counter is negative, otherwise subtract the interval.
Returns `feature_minzoom` and the drop states. -/
def walk_zooms {F : Type} (ops : DoubleOps F) (ixv maxzoom : Nat) :
    Nat → (Nat → drop_state F) → Nat × (Nat → drop_state F)
  | 0, ds => (0, ds)
  | i + 1, ds =>
    if ops.lt (ds i).seq ops.zero then
      (i + 1, set_previndex ixv (maxzoom - i) (i + 1) ds)
    else
      walk_zooms ops ixv maxzoom i
        (Function.update ds i { ds i with seq := ops.sub (ds i).seq (ds i).interval })

/-- Right-hand side of the density test of `calc_feature_minzoom`,
`((1LL << (32 - i)) / D) * ((1LL << (32 - i)) / D)`, computed in
`unsigned long long` because `D` is.  Zooms stay below 32, so the shift count
is in range. -/
def density_bound (i D : Nat) : Nat :=
  ((2 ^ (32 - i) / D) * (2 ^ (32 - i) / D)) % 2 ^ 64

/-- Left-hand side of the density test, `ix->ix - ds[i].previndex` in
`unsigned long long`. -/
def density_distance (ixv previndex : Nat) : Nat :=
  (ixv + (2 ^ 64 - previndex % 2 ^ 64)) % 2 ^ 64

/-- Third loop of `calc_feature_minzoom` (density preservation):
`for (i = 0; i < feature_minzoom && i < maxzoom; i++)`; `n` bounds the
remaining iterations. -/
def preserve_density {F : Type} (D ixv maxzoom : Nat) :
    Nat → Nat → Nat → (Nat → drop_state F) → Nat × (Nat → drop_state F)
  | 0, _, feature_minzoom, ds => (feature_minzoom, ds)
  | n + 1, i, feature_minzoom, ds =>
    if i < feature_minzoom ∧ i < maxzoom then
      if density_distance ixv (ds i).previndex > density_bound i D then
        (i, set_previndex ixv (maxzoom + 1 - i) i ds)
      else
        preserve_density D ixv maxzoom n (i + 1) feature_minzoom ds
    else (feature_minzoom, ds)

/-- Eligibility test of `calc_feature_minzoom`:
`gamma >= 0 && (t == VT_POINT || (line_drop && t == VT_LINE) || (polygon_drop && t == VT_POLYGON))`. -/
def eligible {F : Type} (ops : DoubleOps F) (cfg : Settings) (ix : index) (gamma : F) : Bool :=
  ops.le ops.zero gamma &&
    (ix.t == VT_POINT || (cfg.line_drop && ix.t == VT_LINE) ||
      (cfg.polygon_drop && ix.t == VT_POLYGON))

/-- Function `calc_feature_minzoom` of `main.cpp`.  Returns `feature_minzoom`
and the updated array `ds`. -/
def calc_feature_minzoom {F : Type} (ops : DoubleOps F) (cfg : Settings) (ix : index)
    (ds : Nat → drop_state F) (maxzoom : Nat) (gamma : F) : Nat × (Nat → drop_state F) :=
  if eligible ops cfg ix gamma then
    let ds1 := incr_seqs ops (maxzoom + 1) ds
    let w := walk_zooms ops ix.ix maxzoom (maxzoom + 1) ds1
    if cfg.preserve_point_density_threshold > 0 then
      preserve_density cfg.preserve_point_density_threshold ix.ix maxzoom maxzoom 0 w.1 w.2
    else w
  else (0, ds)

/-- The loop `for ip = 0 .. indices-1` that feeds the entries of an index, in
order, to `calc_feature_minzoom` with one running array `ds` (the minzoom
fix-up loop of `read_input`, and the order in which `merge` and `radix1` call
it); returns the `feature_minzoom` of every entry. -/
def feed_minzooms {F : Type} (ops : DoubleOps F) (cfg : Settings) (maxzoom : Nat) (gamma : F) :
    (Nat → drop_state F) → List index → List Nat
  | _, [] => []
  | ds, ix :: rest =>
    (calc_feature_minzoom ops cfg ix ds maxzoom gamma).1 ::
      feed_minzooms ops cfg maxzoom gamma (calc_feature_minzoom ops cfg ix ds maxzoom gamma).2 rest

/-- The facts about `double` arithmetic that keep a counter with interval `0`
from ever becoming negative: `0 < 0` is false, adding `1` to a value that is
not negative gives a value that is not negative, and subtracting `0` changes
nothing.  All three hold for IEEE-754 binary64 (also for NaN and infinities). -/
def CountsUp {F : Type} (ops : DoubleOps F) : Prop :=
  ops.lt ops.zero ops.zero = false ∧
  (∀ x, ops.lt x ops.zero = false → ops.lt (ops.add x ops.one) ops.zero = false) ∧
  (∀ x, ops.sub x ops.zero = x)

/-- Two arrays of drop states that agree on every counter `seq` and every
`interval` (they may differ in `previndex` and `gap`). -/
def SameCounters {F : Type} (ds ds' : Nat → drop_state F) : Prop :=
  ∀ z, (ds z).seq = (ds' z).seq ∧ (ds z).interval = (ds' z).interval

/-! ## Ingest partitioning: `do_read_parallel` -/

/-- The loop `while (segs[i] < len && map[segs[i]] != separator) segs[i]++` of
`do_read_parallel`, started at position `p`; the first argument bounds the
number of iterations (`len` is always enough).  `map` holds the `char` values
of the mapped input. -/
def advance_to_separator (map : List Int) (len : Nat) (separator : Int) : Nat → Nat → Nat
  | 0, p => p
  | n + 1, p =>
    if p < len ∧ map.getD p 0 ≠ separator then
      advance_to_separator map len separator n (p + 1)
    else p

/-- Entry `segs[i]` of the array computed at the start of `do_read_parallel`:
`segs[0] = 0`, `segs[CPUS] = len`, and for `0 < i < CPUS` the position
`len * i / CPUS` (a product of 64-bit unsigned values) moved forward to the
next separator. -/
def segs (map : List Int) (len CPUS : Nat) (separator : Int) (i : Nat) : Nat :=
  if i = CPUS then len
  else if i = 0 then 0
  else advance_to_separator map len separator len ((len * i % 2 ^ 64) / CPUS)

/-- Initial value of `layer_seq[i]` in `do_read_parallel`:
`segs[i] + initial_offset`. -/
def layer_seq (map : List Int) (len CPUS : Nat) (separator : Int) (initial_offset : Int)
    (i : Nat) : Int :=
  (segs map len CPUS separator i : Int) + initial_offset

/-- The byte range handed to worker `i` by `do_read_parallel`:
`json_begin_map(map + segs[i], segs[i + 1] - segs[i])`. -/
def worker_slice (map : List Int) (len CPUS : Nat) (separator : Int) (i : Nat) : List Int :=
  (map.drop (segs map len CPUS separator i)).take
    (segs map len CPUS separator (i + 1) - segs map len CPUS separator i)

/-- The slices of all `CPUS` workers of `do_read_parallel`, in worker order. -/
def worker_slices (map : List Int) (len CPUS : Nat) (separator : Int) : List (List Int) :=
  (List.range CPUS).map (worker_slice map len CPUS separator)

/-! ## Spatial sort: `insert`, `merge`, `run_sort`, `radix1`, `radix` -/

/-- Modelled from the spec: `sizeof(struct index)`, the fixed size of 32 bytes
of an index record. -/
def index_bytes : Nat := 32

/-- A geometry file and its index file, as `radix1` receives them through
`geomfds_in[i]` and `indexfds_in[i]`: the bytes of the one and the records of
the other. -/
structure file_pair where
  geom : List Nat
  index : List index

/-- One of the `splits` temporary outputs of `radix1`: the bytes written to
`geomfiles[i]`, the records written to `indexfiles[i]`, and the counter
`sub_geompos[i]`. -/
structure bucket where
  geom : List Nat
  index : List index
  sub_geompos : Nat

/-- What `radix1` and `merge` read but never change: the `double` operations,
the global settings, the global `CPUS` (at least 1), the page size reported by
`get_page_size()`, and the arguments `mem`, `maxzoom` and `gamma`. -/
structure sort_env (F : Type) where
  ops : DoubleOps F
  cfg : Settings
  CPUS : Nat
  page : Nat
  mem : Int
  maxzoom : Nat
  gamma : F

/-- What `radix1` and `merge` write: the output streams `geomfile` and
`indexfile`, the position `*geompos_out`, the counter `*availfiles`, and the
array `ds`. -/
structure sort_state (F : Type) where
  geomfile : List Nat
  indexfile : List index
  geompos : Nat
  availfiles : Int
  ds : Nat → drop_state F

/-- Modelled from the spec: `fwrite_check(ptr, size, nitems, stream, fpos, ..)`
of `serial.cpp`, which is not among the sources: append the bytes to the
stream and advance the position `*fpos` by their requested number `n`.
Returns the stream and the position. -/
def fwrite_check (bytes : List Nat) (n : Nat) (stream : List Nat) (fpos : Nat) :
    List Nat × Nat :=
  (stream ++ bytes, fpos + n)

/-- Modelled from the spec: `serialize_byte(stream, n, fpos, ..)` of
`serial.cpp`, which is not among the sources: append the one byte `n` to the
stream and advance the position `*fpos` by 1. -/
def serialize_byte (stream : List Nat) (n : Nat) (fpos : Nat) : List Nat × Nat :=
  (stream ++ [n % 256], fpos + 1)

/-- Body of the `while` loop of `merge` for the record `ix` at the head of the
pending list: the record is copied without its last byte
(`ix.end - ix.start - 1` bytes; every record is at least one byte long), then
the byte for `feature_minzoom` is appended, and the index entry is written
with the new `start` and `end`. -/
def merge_write {F : Type} (env : sort_env F) (geom_map : List Nat) (ix : index)
    (st : sort_state F) : sort_state F :=
  let pos := st.geompos
  let w := fwrite_check ((geom_map.drop ix.start).take (ix.end_ - ix.start - 1))
    (ix.end_ - ix.start - 1) st.geomfile st.geompos
  let fm := calc_feature_minzoom env.ops env.cfg ix st.ds env.maxzoom env.gamma
  let b := serialize_byte w.1 fm.1 w.2
  { geomfile := b.1
    indexfile := st.indexfile ++ [{ ix with start := pos, end_ := b.2 }]
    geompos := b.2
    availfiles := st.availfiles
    ds := fm.2 }

/-- Body of the loop of the pass-through branch of `radix1` (a bucket of one
record, or a bucket whose key bits are used up): `ix.end - ix.start` bytes are
copied, then the byte for `feature_minzoom` is appended, and the index entry
is written with the new `start` and `end`. -/
def pass_write {F : Type} (env : sort_env F) (geommap : List Nat) (st : sort_state F)
    (ix : index) : sort_state F :=
  let pos := st.geompos
  let w := fwrite_check ((geommap.drop ix.start).take (ix.end_ - ix.start))
    (ix.end_ - ix.start) st.geomfile st.geompos
  let fm := calc_feature_minzoom env.ops env.cfg ix st.ds env.maxzoom env.gamma
  let b := serialize_byte w.1 fm.1 w.2
  { geomfile := b.1
    indexfile := st.indexfile ++ [{ ix with start := pos, end_ := b.2 }]
    geompos := b.2
    availfiles := st.availfiles
    ds := fm.2 }

/-- The comparison `indexcmp(map + m->start, map + (*head)->start)` of two
pending runs, each standing for the records of `map` between its `start` and
its `end`.  Runs in the pending list are never empty. -/
def first_cmp : List index → List index → Int
  | a :: _, b :: _ => indexcmp a b
  | _, _ => 0

/-- Function `insert` of `main.cpp`: link the run `m` into the pending list
before the first run whose first record is not smaller. -/
def insert (m : List index) : List (List index) → List (List index)
  | [] => [m]
  | h :: rest => if first_cmp m h > 0 then h :: insert m rest else m :: h :: rest

/-- The `while (head != NULL)` loop of `merge`; the first argument bounds the
number of iterations (the number of pending records is enough). -/
def merge_loop {F : Type} (env : sort_env F) (geom_map : List Nat) :
    Nat → List (List index) → sort_state F → sort_state F
  | 0, _, st => st
  | _ + 1, [], st => st
  | n + 1, [] :: rest, st => merge_loop env geom_map n rest st
  | n + 1, (ix :: m) :: rest, st =>
    merge_loop env geom_map n (match m with | [] => rest | _ :: _ => insert m rest)
      (merge_write env geom_map ix st)

/-- Function `merge` of `main.cpp`: the non-empty runs are linked into the
pending list in the order of the array `merges`, then the loop writes the
smallest pending record until no run is left. -/
def merge {F : Type} (env : sort_env F) (merges : List (List index)) (geom_map : List Nat)
    (st : sort_state F) : sort_state F :=
  merge_loop env geom_map (merges.map List.length).sum
    (merges.foldl (fun head m => match m with | [] => head | _ :: _ => insert m head) [])
    st

/-- The chunk size `unit` of `radix1` before it is rounded to pages: the
share of one CPU of an index of `indexpos` bytes, rounded up to whole records,
at most 2 GB. -/
def sort_unit_capped (CPUS indexpos : Nat) : Nat :=
  if (indexpos / CPUS + index_bytes - 1) / index_bytes * index_bytes > 2 * 1024 * 1024 * 1024
  then 2 * 1024 * 1024 * 1024
  else (indexpos / CPUS + index_bytes - 1) / index_bytes * index_bytes

/-- The chunk size `unit` computed in `radix1` for an index of `indexpos`
bytes: `sort_unit_capped` rounded up to whole pages, at least one page. -/
def sort_unit (CPUS page indexpos : Nat) : Nat :=
  if (sort_unit_capped CPUS indexpos + page - 1) / page * page < page then page
  else (sort_unit_capped CPUS indexpos + page - 1) / page * page

/-- The library function `qsort` with the comparison `indexcmp`, as called by
`run_sort`: some sorting permutation (the order of records that compare equal
is not specified by C; insertion sort picks one). -/
def qsort (l : List index) : List index :=
  List.insertionSort (fun a b => indexcmp a b ≤ 0) l

/-- The array `merges` after all `run_sort` threads have finished: chunk `a`
of `unit` bytes of the bucket index, sorted by `qsort`, for
`a = 0 .. nmerges - 1`.  The page size is a multiple of the record size, so a
chunk holds `unit / sizeof(struct index)` whole records. -/
def sorted_runs (CPUS page : Nat) (idx : List index) : List (List index) :=
  (List.range ((idx.length * index_bytes + sort_unit CPUS page (idx.length * index_bytes)
      - 1) / sort_unit CPUS page (idx.length * index_bytes))).map
    (fun a => qsort
      ((idx.drop (a * (sort_unit CPUS page (idx.length * index_bytes) / index_bytes))).take
        (sort_unit CPUS page (idx.length * index_bytes) / index_bytes)))

/-- The value `log(splits) / log(2)` truncated to `int`, for `splits >= 1`: the
number of times `splits` can be halved before it drops below 2.  The first
argument bounds the recursion; 64 is enough for every `int`. -/
def ilog2 : Nat → Nat → Nat
  | 0, _ => 0
  | f + 1, n => if n ≥ 2 then ilog2 f (n / 2) + 1 else 0

/-- The bucket number `which = (ix.ix << prefix) >> (64 - splitbits)` of
`radix1`, in 64-bit unsigned arithmetic; `pfx` is the argument `prefix`. -/
def bucket_of (pfx splitbits ixv : Nat) : Nat :=
  ((ixv * 2 ^ pfx) % 2 ^ 64) / 2 ^ (64 - splitbits)

/-- Apply `f` to element `n` of a list (an array element update). -/
def modify_at {α : Type} (f : α → α) : Nat → List α → List α
  | _, [] => []
  | 0, a :: l => f a :: l
  | n + 1, a :: l => a :: modify_at f n l

/-- Body of the splitting loop of `radix1` for one index record `ix` of an
input whose geometry is `geommap`: copy the record to bucket `which` and
append the index entry with its new `start` and `end`. -/
def split_entry (geommap : List Nat) (pfx splitbits : Nat) (buckets : List bucket)
    (ix : index) : List bucket :=
  modify_at (fun b =>
    let pos := b.sub_geompos
    let w := fwrite_check ((geommap.drop ix.start).take (ix.end_ - ix.start))
      (ix.end_ - ix.start) b.geom b.sub_geompos
    { geom := w.1
      index := b.index ++ [{ ix with start := pos, end_ := w.2 }]
      sub_geompos := w.2 })
    (bucket_of pfx splitbits ix.ix) buckets

/-- The splitting loops of `radix1`: every record of every input, in order,
into the `splits` buckets. -/
def split_inputs (inputs : List file_pair) (pfx splitbits : Nat) : List bucket :=
  inputs.foldl (fun bs inp => inp.index.foldl (split_entry inp.geom pfx splitbits) bs)
    (List.replicate (2 ^ splitbits) ⟨[], [], 0⟩)

/-- Body of the last loop of `radix1` for one bucket.  A non-empty bucket is
sorted in memory and merged when index and geometry together are smaller than
`mem`; it is passed through when it holds one record or the key bits are used
up; otherwise `radix1` is called on it again (`recurse`), with
`prefix + splitbits` and `*availfiles / 4` splits.  Unless the recursive call
closed them, the two descriptors of the bucket are closed at the end. -/
def radix_bucket {F : Type} (env : sort_env F)
    (recurse : List file_pair → Nat → Int → sort_state F → Option (sort_state F))
    (pfx splitbits : Nat) (st : sort_state F) (b : bucket) : Option (sort_state F) :=
  if b.index.length * index_bytes > 0 then
    if ((b.index.length * index_bytes + b.geom.length : Nat) : Int) < env.mem then
      some { merge env (sorted_runs env.CPUS env.page b.index) b.geom st with
        availfiles := st.availfiles + 2 }
    else if b.index.length * index_bytes = index_bytes ∨ pfx + splitbits ≥ 64 then
      some { b.index.foldl (pass_write env b.geom) st with availfiles := st.availfiles + 2 }
    else
      recurse [⟨b.geom, b.index⟩] (pfx + splitbits) (Int.tdiv st.availfiles 4) st
  else some { st with availfiles := st.availfiles + 2 }

/-- Function `radix1` of `main.cpp`; `pfx` is the argument `prefix`.  The
first argument bounds the depth of the recursion (a call that recurses has
used at least one more key bit than its caller, so 65 levels are enough from
`prefix = 0`).  The result is `none` when that bound is reached, and where
C++ leaves the behaviour undefined: the logarithm of a non-positive `splits`
converted to `int`, and, as soon as there is a record to place, a shift of a
64-bit value by 64 or more bits (`splitbits = 0`, or `prefix >= 64`).  The
three counting loops over `*availfiles` (4 taken per split, 2 returned per
input, 2 returned per closed split stream) are applied at once. -/
def radix1 {F : Type} (env : sort_env F) :
    Nat → List file_pair → Nat → Int → sort_state F → Option (sort_state F)
  | 0, _, _, _, _ => none
  | fuel + 1, inputs, pfx, splits, st =>
    if splits < 1 then none
    else if (ilog2 64 splits.toNat = 0 ∨ 64 < ilog2 64 splits.toNat ∨ 64 ≤ pfx) ∧
        inputs.any (fun inp => !inp.index.isEmpty) then none
    else
      (split_inputs inputs pfx (ilog2 64 splits.toNat)).foldlM
        (radix_bucket env (radix1 env fuel) pfx (ilog2 64 splits.toNat))
        { st with availfiles := st.availfiles - 4 * (2 ^ ilog2 64 splits.toNat : Nat)
            + 2 * (inputs.length : Int) + 2 * (2 ^ ilog2 64 splits.toNat : Nat) }

/-- How `radix` ends: normally, with the streams it wrote; with the exit code
`EXIT_IMPOSSIBLE` after the message about miscounted file descriptors; or
without a defined result. -/
inductive radix_result (F : Type) where
  | done (st : sort_state F)
  | exit_impossible
  | undefined

/-- Function `radix` of `main.cpp`.  `readers` are the geometry and index
files of the readers, `st` holds the output streams and the position
`*geompos` (its `availfiles` and `ds` are overwritten), `memsize` and
`MAX_FILES` are the globals of that name, `page` is the page size and `ds0`
the uninitialised array `ds`. -/
def radix {F : Type} (ops : DoubleOps F) (cfg : Settings) (CPUS page memsize : Nat)
    (MAX_FILES : Int) (readers : List file_pair) (st : sort_state F) (maxzoom : Nat)
    (basezoom : Int) (droprate gamma : F) (ds0 : Nat → drop_state F) : radix_result F :=
  match radix1
      { ops := ops, cfg := cfg, CPUS := CPUS, page := page,
        mem := Int.tdiv (if cfg.prefer_radix_sort then 8192 else (memsize : Int)) 2,
        maxzoom := maxzoom, gamma := gamma }
      65 readers 0 (Int.tdiv (MAX_FILES - 2 * (readers.length : Int) - 3 - 4 - 3) 4)
      { st with availfiles := MAX_FILES - 2 * (readers.length : Int) - 3 - 4 - 3
                ds := prep_drop_states ops ds0 maxzoom basezoom droprate } with
  | none => radix_result.undefined
  | some st1 =>
    if st1.availfiles - 2 * (readers.length : Int) ≠
        MAX_FILES - 2 * (readers.length : Int) - 3 - 4 - 3 then radix_result.exit_impossible
    else radix_result.done st1

/-- The test of the minzoom fix-up loop of `read_input` that prints
"Mismatched index": true when some record does not start where the record
before it ends. -/
def mismatched_index : List index → Bool
  | a :: b :: rest => (b.start != a.end_) || mismatched_index (b :: rest)
  | _ => false

/-- The fields of an index record that identify the feature: `ix`, `seq`,
`t` and `segment` (the fields `start` and `end` are rewritten by the sort). -/
def index_key (e : index) : Nat × Nat × Nat × Nat := (e.ix, e.seq, e.t, e.segment)

/-- The bytes that the inputs of `radix1` can bring into one bucket: for every
index record its own size and the length `end - start` of its geometry. -/
def total_size (inputs : List file_pair) : Nat :=
  (inputs.map (fun inp => (inp.index.map (fun e => index_bytes + (e.end_ - e.start))).sum)).sum

/-- The streams are contiguous: no record of the index starts anywhere but
at the end of the record before it, every record has `start < end`, and the
last record ends at the current position of the geometry stream. -/
def Contiguous {F : Type} (st : sort_state F) : Prop :=
  mismatched_index st.indexfile = false ∧
  (∀ e ∈ st.indexfile, e.start < e.end_) ∧
  (∀ x ∈ st.indexfile.getLast?, x.end_ = st.geompos)

/-- The size that `fstat` reports for a bucket: the bytes of its index file
plus the bytes of its geometry file. -/
def bucket_size (b : bucket) : Nat := b.index.length * index_bytes + b.geom.length

/-- Sample environment for evaluating the sort: exact integer arithmetic, no
optional dropping, two CPUs, pages of 4096 bytes, `maxzoom = 2`, `gamma = 0`,
and the given memory budget `mem`. -/
def sample_env (mem : Int) : sort_env Int :=
  ⟨intOps, ⟨false, false, 0, false⟩, 2, 4096, mem, 2, 0⟩

/-- Sample initial state for evaluating the sort: empty output streams behind
the 24-byte header of the geometry file, the given number of available file
descriptors, and drop states prepared for `maxzoom = 2`, `basezoom = 2`,
`droprate = 2`. -/
def sample_state (availfiles : Int) : sort_state Int :=
  ⟨[], [], 24, availfiles, prep_drop_states intOps (fun _ => ⟨0, 0, 0, 0⟩) 2 2 2⟩

/-! ## Pool merge (`read_input`) -/

/-- Modelled from the spec: record `struct memfile` of `memfile.hpp`, which is
not among the sources, as far as the pool merge of `read_input` reads it.
`fp_open` says that `fp != NULL` (the pool has spilled to its file), `map` is
the buffer in memory, `file` holds the bytes behind the descriptor `fd`, and
`off` is the number of bytes written to the pool. -/
structure memfile where
  fp_open : Bool
  map : List Nat
  file : List Nat
  off : Nat

/-- What the pool merge of `read_input` writes: the stream `poolfile`, the
position `poolpos`, and the array `pool_off` (all zero at the start). -/
structure pool_state where
  poolfile : List Nat
  poolpos : Nat
  pool_off : Nat → Nat

/-- Body of the pool merge loop of `read_input` for reader `i`: a pool still
in memory is copied from `map` and counts `map.size()` bytes; a pool that has
spilled is copied from the first `off` bytes of its mapped file and counts
`off` bytes.  In both branches `pool_off[i]` is the position before the copy. -/
def merge_pool_step (st : pool_state) (i : Nat) (r : memfile) : pool_state :=
  if r.fp_open = false then
    { poolfile := st.poolfile ++ r.map
      pool_off := Function.update st.pool_off i st.poolpos
      poolpos := st.poolpos + r.map.length }
  else
    { poolfile := st.poolfile ++ r.file.take r.off
      pool_off := Function.update st.pool_off i st.poolpos
      poolpos := st.poolpos + r.off }

/-- The pool merge loop of `read_input`, `for (i = 0; i < CPUS; i++)`, over the
pools of the readers from reader `i` on. -/
def merge_pools : List memfile → Nat → pool_state → pool_state
  | [], _, st => st
  | r :: rest, i, st => merge_pools rest (i + 1) (merge_pool_step st i r)

/-- The bytes of a reader's string pool, as the merge reads them: the buffer
`map` while the pool is in memory, the first `off` bytes of its file once it
has spilled (the file is taken to hold the whole pool from then on). -/
def pool_bytes (r : memfile) : List Nat :=
  if r.fp_open = false then r.map else r.file.take r.off

/-- A spilled pool has all its `off` bytes in its file, and `off` is positive
(so that `mmap` accepts the length). -/
def memfile_ok (r : memfile) : Prop :=
  r.fp_open = true → 0 < r.off ∧ r.off ≤ r.file.length

instance (r : memfile) : Decidable (memfile_ok r) := by
  unfold memfile_ok
  infer_instance

/-- Three sample pools: one in memory, one spilled to its file (whose buffer
`map` is stale), one in memory. -/
def sample_pools : List memfile :=
  [⟨false, [1, 2], [], 2⟩, ⟨true, [7], [3, 4, 5], 3⟩, ⟨false, [6], [], 1⟩]

/-! ## Shared vertices and shared nodes (`read_input`) -/

/-- Modelled from the spec: a `Point`, the coordinate pair of a `draw` of
`geometry.hpp`, which is not among the sources. -/
structure point where
  x : Int
  y : Int
  deriving DecidableEq, Repr

/-- Modelled from the spec: `Vertex {mid, p1, p2}`, the record `struct vertex`
of `serial.hpp`, which is not among the sources: a vertex `mid` together with
its two neighbours. -/
structure vertex where
  mid : point
  p1 : point
  p2 : point
  deriving DecidableEq, Repr

/-- The initial value of `prev` in the vertex scan of `read_input`:
`vertex prev(draw(VT_MOVETO, 0, 0), draw(VT_MOVETO, 0, 0), draw(VT_MOVETO, 0, 0))`. -/
def vertex_placeholder : vertex := ⟨⟨0, 0⟩, ⟨0, 0⟩, ⟨0, 0⟩⟩

/-- The vertex scan of `read_input` over the sorted vertex stream, started with
the previous vertex `prev`: the list of `n.index` values written to
`readers[0].nodefile`.  `encode_vertex` (of a header that is not among the
sources) is a parameter; `(unsigned) x` is the residue modulo `2^32`. -/
def vertex_scan (geometry_scale : Nat) (encode_vertex : Nat → Nat → Nat) :
    vertex → List vertex → List Nat
  | _, [] => []
  | prev, v :: rest =>
    if v.mid = prev.mid ∧ (v.p1 ≠ prev.p1 ∨ v.p2 ≠ prev.p2) then
      encode_vertex ((v.mid.x * 2 ^ geometry_scale) % 2 ^ 32).toNat
          ((v.mid.y * 2 ^ geometry_scale) % 2 ^ 32).toNat ::
        vertex_scan geometry_scale encode_vertex v rest
    else
      vertex_scan geometry_scale encode_vertex v rest

/-- The constant `ULONG_MAX` of a 64-bit `unsigned long`. -/
def ULONG_MAX : Nat := 2 ^ 64 - 1

/-- The size in bytes of `shared_nodes_bloom` after
`shared_nodes_bloom.resize(34567891)`. -/
def bloom_bytes : Nat := 34567891

/-- State of the node scan of `read_input`: the `index` values written to
`shared_nodes`, the bytes of `shared_nodes_bloom` (by position), and the node
`written`. -/
structure node_scan_state where
  shared_nodes : List Nat
  bloom : Nat → Nat
  written : Nat

/-- The four Bloom lines of the node scan: `bloom_ix = index % (size * 8)`,
`bloom_mask = 1 << (bloom_ix & 7)`, `bloom_ix >>= 3`,
`shared_nodes_bloom[bloom_ix] |= bloom_mask`, on bytes. -/
def bloom_set (bloom : Nat → Nat) (size idx : Nat) : Nat → Nat :=
  let bloom_ix := idx % (size * 8)
  let bloom_mask := (1 <<< (bloom_ix &&& 7)) % 256
  Function.update bloom (bloom_ix >>> 3) ((bloom (bloom_ix >>> 3) ||| bloom_mask) % 256)

/-- Body of the `while (fread(&here ...))` loop of the node scan.  Modelled
from the spec: `nodecmp`, which is not among the sources, compares the `index`
fields, so `nodecmp(&here, &written) != 0` is `here.index != written.index`. -/
def node_scan_step (size : Nat) (st : node_scan_state) (here : Nat) : node_scan_state :=
  if here ≠ st.written then
    { shared_nodes := st.shared_nodes ++ [here]
      bloom := bloom_set st.bloom size here
      written := here }
  else st

/-- The node scan of `read_input` over the sorted node stream `node_out`, with
a Bloom table of `size` zero bytes and `written.index = ULONG_MAX`. -/
def node_scan (size : Nat) (nodes : List Nat) : node_scan_state :=
  nodes.foldl (node_scan_step size) ⟨[], fun _ => 0, ULONG_MAX⟩

/-- Modelled from the spec: `fqsort(node_readers, sizeof(node), nodecmp, ...)`,
which is not among the sources, sorts the concatenation of the readers' node
files by `index`. -/
def fqsort_nodes (nodefiles : List (List Nat)) : List Nat :=
  (nodefiles.flatten).insertionSort (fun a b => a ≤ b)

/-- The node files after the vertex scan: the new nodes are appended to
`readers[0].nodefile`. -/
def write_nodes (nodefiles : List (List Nat)) (nodes : List Nat) : List (List Nat) :=
  match nodefiles with
  | [] => []
  | f :: rest => (f ++ nodes) :: rest

/-- The vertex scan, node sort and node scan of `read_input` in sequence, from
the sorted vertex stream and the readers' node files to `shared_nodes` and
its Bloom table. -/
def shared_nodes_of (geometry_scale : Nat) (encode_vertex : Nat → Nat → Nat)
    (nodefiles : List (List Nat)) (vertices : List vertex) : node_scan_state :=
  node_scan bloom_bytes (fqsort_nodes (write_nodes nodefiles
    (vertex_scan geometry_scale encode_vertex vertex_placeholder vertices)))

/-- Modelled from the spec: the membership test of the Bloom table (`keyed by
key % bits`), which lives in the tiler and is not among the sources, with
`bits` the number of bits the test takes the table to have: bit `key % bits`
of the table, that is bit `(key % bits) & 7` of byte `(key % bits) >> 3`. -/
def bloom_contains (bloom : Nat → Nat) (bits key : Nat) : Bool :=
  Nat.testBit (bloom ((key % bits) >>> 3)) ((key % bits) &&& 7)

/-! ## `choose_first_zoom` -/

/-- The array `long long file_bbox[4]`: `b0`, `b1` are the smallest x and y,
`b2`, `b3` the largest x and y. -/
structure bbox where
  b0 : Int
  b1 : Int
  b2 : Int
  b3 : Int
  deriving DecidableEq, Repr

/-- The initial box of `main`: `long long file_bbox[4] = {UINT_MAX, UINT_MAX, 0, 0}`. -/
def initial_bbox : bbox := ⟨2 ^ 32 - 1, 2 ^ 32 - 1, 0, 0⟩

/-- Body of the first loop of `choose_first_zoom` for one reader, on
`file_bbox` (the boxes `file_bbox1` and `file_bbox2`, which the rest of the
function does not read, are left out). -/
def merge_bbox (file_bbox r : bbox) : bbox :=
  { b0 := if r.b0 < file_bbox.b0 then r.b0 else file_bbox.b0
    b1 := if r.b1 < file_bbox.b1 then r.b1 else file_bbox.b1
    b2 := if r.b2 > file_bbox.b2 then r.b2 else file_bbox.b2
    b3 := if r.b3 > file_bbox.b3 then r.b3 else file_bbox.b3 }

/-- The four `if` statements of `choose_first_zoom` after the merge, in the
order of the source. -/
def clamp_bbox (b : bbox) : bbox :=
  let c1 : bbox := if b.b0 < 0 then ⟨0, b.b1, 2 ^ 32 - 1, b.b3⟩ else b
  let c2 : bbox := if c1.b2 > 2 ^ 32 - 1 then ⟨0, c1.b1, 2 ^ 32 - 1, c1.b3⟩ else c1
  let c3 : bbox := if c2.b1 < 0 then ⟨c2.b0, 0, c2.b2, c2.b3⟩ else c2
  if c3.b3 > 2 ^ 32 - 1 then ⟨c3.b0, c3.b1, c3.b2, 2 ^ 32 - 1⟩ else c3

/-- The value `(v - buffer * shift / 256) / shift` with `shift = 1LL << (32 - z)`,
in the truncating division of C. -/
def tile_low (v buffer : Int) (z : Nat) : Int :=
  Int.tdiv (v - Int.tdiv (buffer * 2 ^ (32 - z)) 256) (2 ^ (32 - z))

/-- The value `(v + buffer * shift / 256) / shift` with `shift = 1LL << (32 - z)`,
in the truncating division of C. -/
def tile_high (v buffer : Int) (z : Nat) : Int :=
  Int.tdiv (v + Int.tdiv (buffer * 2 ^ (32 - z)) 256) (2 ^ (32 - z))

/-- The test `left == right && top == bottom` of `choose_first_zoom` at zoom `z`. -/
def single_tile (b : bbox) (buffer : Int) (z : Nat) : Prop :=
  tile_low b.b0 buffer z = tile_high b.b2 buffer z ∧
  tile_low b.b1 buffer z = tile_high b.b3 buffer z

instance (b : bbox) (buffer : Int) (z : Nat) : Decidable (single_tile b buffer z) := by
  unfold single_tile
  infer_instance

/-- The zoom loop of `choose_first_zoom`, `for (z = minzoom; z >= 0; z--)`, with
`n` zooms left to try (the next one is `z = n - 1`); `out` holds the
`unsigned` values `*iz`, `*ix`, `*iy`, and the conversion of `left` and `top`
to `unsigned` is the residue modulo `2^32`. -/
def first_zoom_loop (b : bbox) (buffer : Int) : Nat → Nat × Nat × Nat → Nat × Nat × Nat
  | 0, out => out
  | z + 1, out =>
    if single_tile b buffer z then
      (z, (tile_low b.b0 buffer z % 2 ^ 32).toNat, (tile_low b.b1 buffer z % 2 ^ 32).toNat)
    else first_zoom_loop b buffer z out

/-- The function `choose_first_zoom`: the new `file_bbox` and the new values of
`*iz`, `*ix`, `*iy`.  `readers` holds the `file_bbox` of each reader. -/
def choose_first_zoom (file_bbox : bbox) (readers : List bbox) (out : Nat × Nat × Nat)
    (minzoom buffer : Int) : bbox × (Nat × Nat × Nat) :=
  let b := clamp_bbox (readers.foldl merge_bbox file_bbox)
  (b, first_zoom_loop b buffer (minzoom + 1).toNat out)

/-! ## Guessing maxzoom and basezoom, and the exit code (`read_input`) -/

/-- The counter `count` of the spacing loop of `read_input`
(`for (ip = 1; ip < indices; ip++)`): the number of adjacent pairs of the
sorted index with different `ix`. -/
def spacing_count : List Nat → Nat
  | a :: b :: rest => (if b ≠ a then 1 else 0) + spacing_count (b :: rest)
  | _ => 0

/-- How the first part of the maxzoom guess ends: the run exits with
`EXIT_NODATA`, or goes on with a `maxzoom` and a `droprate`. -/
inductive maxzoom_guess (F : Type) where
  | exit_nodata : maxzoom_guess F
  | guessed (maxzoom : Int) (droprate : F) : maxzoom_guess F
  deriving DecidableEq, Repr

/-- The branches of `read_input` after the spacing loop, up to the clamps.
`spacing` is the pair (`maxzoom`, `droprate`) that the branch `count > 0`
computes in double arithmetic from the spacing statistics, and `mz` the value
that the branch `dist_count != 0` computes; both are parameters. -/
def guess_maxzoom_start {F : Type} (ops : DoubleOps F) (count dist_count : Nat)
    (minimum_maxzoom maxzoom : Int) (droprate : F) (spacing : Int × F) (mz : Int) :
    maxzoom_guess F :=
  if count = 0 ∧ dist_count = 0 ∧ minimum_maxzoom = 0 then
    maxzoom_guess.exit_nodata
  else
    let g : Int × F :=
      if count = 0 ∧ dist_count = 0 then
        (minimum_maxzoom, if ops.lt droprate ops.zero then ops.one else droprate)
      else if count > 0 then spacing
      else (maxzoom, droprate)
    let m : Int := if dist_count ≠ 0 then (if mz > g.1 ∨ count ≤ 0 then mz else g.1) else g.1
    maxzoom_guess.guessed m g.2

/-- The tile-count loop of `read_input`, `for (i = 1; i <= maxzoom; i++)`, with
`n` iterations left and `exceeds i` standing for the test
`total_tile_count > 2 * 1024 * 1024` at zoom `i` (double arithmetic on
`area_sum`, a parameter). -/
def limit_tile_count (exceeds : Nat → Bool) (maxzoom : Int) : Nat → Nat → Int
  | 0, _ => maxzoom
  | n + 1, i => if exceeds i then (i : Int) - 1 else limit_tile_count exceeds maxzoom n (i + 1)

/-- The rest of the maxzoom guess of `read_input`: the three clamps, the
tile-count limit, and the two raises to `minimum_maxzoom` and to `minzoom`, in
the order of the source. -/
def guess_maxzoom_finish (exceeds : Nat → Bool)
    (maxzoom full_detail low_detail minimum_maxzoom minzoom : Int) : Int :=
  let m1 : Int := if maxzoom < 0 then 0 else maxzoom
  let m2 : Int := if m1 > 32 - full_detail then 32 - full_detail else m1
  let m3 : Int := if m2 > 33 - low_detail then 33 - low_detail else m2
  let m4 : Int := limit_tile_count exceeds m3 m3.toNat 1
  let m5 : Int := if m4 < minimum_maxzoom then minimum_maxzoom else m4
  if m5 < minzoom then minzoom else m5

/-- The block `if (guess_maxzoom) { ... }` of `read_input`, as far as `maxzoom`
and `droprate` go. -/
def guess_maxzoom {F : Type} (ops : DoubleOps F) (count dist_count : Nat)
    (minimum_maxzoom maxzoom : Int) (droprate : F) (spacing : Int × F) (mz : Int)
    (exceeds : Nat → Bool) (full_detail low_detail minzoom : Int) : maxzoom_guess F :=
  match guess_maxzoom_start ops count dist_count minimum_maxzoom maxzoom droprate spacing mz with
  | maxzoom_guess.exit_nodata => maxzoom_guess.exit_nodata
  | maxzoom_guess.guessed m d =>
    maxzoom_guess.guessed
      (guess_maxzoom_finish exceeds m full_detail low_detail minimum_maxzoom minzoom) d

/-- The loop `for (z = MAX_ZOOM; z >= 0; z--) if (max[z].count < max_features)
basezoom = z;` of `read_input`, with `n` zooms left (the next one is
`z = n - 1`); `max_count z` is `max[z].count`. -/
def basezoom_loop (max_count : Nat → Int) (max_features : Int) : Nat → Int → Int
  | 0, basezoom => basezoom
  | z + 1, basezoom =>
    basezoom_loop max_count max_features z
      (if max_count z < max_features then (z : Int) else basezoom)

/-- The operations of `double` arithmetic, beside those of `DoubleOps`, that
`read_input` uses where it works out a base zoom "from the other direction":
the conversion of an integer to `double`, `/`, `*`, `log`, `exp`,
`std::round`, `ceil` followed by the conversion to `int`, and the literals
`2.5` and `100000.0`. -/
structure ZoomOps (F : Type) where
  ofInt : Int → F
  div : F → F → F
  mul : F → F → F
  log : F → F
  exp : F → F
  round : F → F
  ceil : F → Int
  c2_5 : F
  c100000 : F

/-- Function `round_droprate` of `main.cpp`:
`std::round(r * 100000.0) / 100000.0`. -/
def round_droprate {F : Type} (zops : ZoomOps F) (r : F) : F :=
  zops.div (zops.round (zops.mul r zops.c100000)) zops.c100000

/-- The drop rate that the branch "from the other direction" of `read_input`
works with: the given one unless `droprate < 0`, then `2.5` if `maxzoom == 0`
and otherwise
`round_droprate(exp(log((double) max[0].count / max[maxzoom].count) / (maxzoom)))`. -/
def other_direction_droprate {F : Type} (ops : DoubleOps F) (zops : ZoomOps F)
    (max_count : Nat → Int) (maxzoom : Int) (droprate : F) : F :=
  if ops.lt droprate ops.zero then
    if maxzoom = 0 then zops.c2_5
    else
      round_droprate zops
        (zops.exp (zops.div
          (zops.log (zops.div (zops.ofInt (max_count 0)) (zops.ofInt (max_count maxzoom.toNat))))
          (zops.ofInt maxzoom)))
  else droprate

/-- The loop `for (z = 0; z <= maxzoom; z++)` of the branch "from the other
direction" of `read_input`, with `n` zooms left, the next one being `z`:
`zoomdiff = log((double) max[z].count / max_features) / log(droprate)`, and
`if (zoomdiff + z > basezoom) basezoom = ceil(zoomdiff + z)`. -/
def other_direction_loop {F : Type} (ops : DoubleOps F) (zops : ZoomOps F)
    (max_count : Nat → Int) (max_features : Int) (droprate : F) : Nat → Nat → Int → Int
  | 0, _, basezoom => basezoom
  | n + 1, z, basezoom =>
    other_direction_loop ops zops max_count max_features droprate n (z + 1)
      (if ops.lt (zops.ofInt basezoom)
          (ops.add (zops.div (zops.log (zops.div (zops.ofInt (max_count z))
            (zops.ofInt max_features))) (zops.log droprate)) (zops.ofInt z))
        then zops.ceil
          (ops.add (zops.div (zops.log (zops.div (zops.ofInt (max_count z))
            (zops.ofInt max_features))) (zops.log droprate)) (zops.ofInt z))
        else basezoom)

/-- The choice of `basezoom` in `read_input` when `basezoom < 0`: the loop
over the zooms from `MAX_ZOOM` down, the cap `if (obasezoom < 0 && basezoom >
maxzoom && prevent[P_BASEZOOM_ABOVE_MAXZOOM]) basezoom = maxzoom`, and the
branch `if (obasezoom < 0 && basezoom > maxzoom)`, which works out the base
zoom "from the other direction".  The result is the `basezoom` that
`read_input` goes on with.  The constant `MAX_ZOOM`, of a header that is not
among the sources, is a parameter. -/
def choose_basezoom {F : Type} (ops : DoubleOps F) (zops : ZoomOps F) (MAX_ZOOM : Nat)
    (max_count : Nat → Int) (max_features : Int) (basezoom maxzoom : Int)
    (prevent_above : Bool) (droprate : F) : Int :=
  let b : Int :=
    if basezoom < 0 then basezoom_loop max_count max_features (MAX_ZOOM + 1) MAX_ZOOM
    else basezoom
  let b2 : Int := if basezoom < 0 ∧ b > maxzoom ∧ prevent_above = true then maxzoom else b
  if basezoom < 0 ∧ b2 > maxzoom then
    other_direction_loop ops zops max_count max_features
      (other_direction_droprate ops zops max_count maxzoom droprate) (maxzoom + 1).toNat 0 0
  else b2

/-- Modelled from the spec: the exit codes of `errors.hpp`, which is not among
the sources, by name. -/
inductive exit_code where
  | EXIT_SUCCESS
  | EXIT_IMPOSSIBLE
  | EXIT_INCOMPLETE
  | EXIT_NODATA
  deriving DecidableEq, Repr

/-- How `read_input` ends after the tiler has run: it goes on to return `ret`
with the `maxzoom` it reports, or it calls `exit`. -/
inductive run_end where
  | returns (ret : exit_code) (maxzoom : Int)
  | exits (code : exit_code)
  deriving DecidableEq, Repr

/-- The test of `read_input` on `written`, the value `traverse_zooms` returns;
`ret` is the value the variable has before (`EXIT_SUCCESS`, or
`EXIT_IMPOSSIBLE` from the sort). -/
def check_written (ret : exit_code) (maxzoom minzoom written : Int) : run_end :=
  if maxzoom ≠ written then
    if written > minzoom then run_end.returns exit_code.EXIT_INCOMPLETE written
    else run_end.exits exit_code.EXIT_NODATA
  else run_end.returns ret maxzoom

/-! ## GeoJSON features: `serialize_geojson_feature` (`geojson.cpp`) -/

/-- Modelled from the spec: the tagged-value model of a JSON tree, the record
`json_object` of `jsonpull.h`, which is not among the sources.  A number is
kept as the text that `milo::dtoa_milo` prints for it. -/
inductive json_object where
  | null : json_object
  | bool (b : Bool) : json_object
  | number (text : String) : json_object
  | string (s : String) : json_object
  | array (a : List json_object) : json_object
  | hash (members : List (String × json_object)) : json_object

/-- Modelled from the spec: field lookup by key, `json_hash_get` of
`jsonpull.c`, which is not among the sources: `NULL` for a null pointer and
for anything but an object, otherwise the value of the first member with the
key, `NULL` if there is none. -/
def json_hash_get (o : Option json_object) (key : String) : Option json_object :=
  match o with
  | some (json_object.hash members) =>
    (members.find? (fun m => m.1 == key)).map (fun m => m.2)
  | _ => none

/-- Modelled from the spec: the record `serial_feature` of `serial.hpp`, which
is not among the sources, with the fields that `serialize_geojson_feature`
fills in.  `D` is the type `drawvec`, `V` the type `serial_val`. -/
structure serial_feature (D V : Type) where
  layer : Int
  segment : Nat
  t : Int
  has_id : Bool
  id : Nat
  tippecanoe_minzoom : Int
  tippecanoe_maxzoom : Int
  geometry : D
  feature_minzoom : Nat
  seq : Int
  full_keys : List String
  full_values : List V

/-- What `serialize_geojson_feature` calls and reads without defining it: the
tables `geometry_names` and `mb_geometry` (`GEOM_TYPES` is the length of the
first), `integer_zoom`, `stringify_value`, `parse_coordinates` and
`serialize_feature`, and the block of the function that computes `has_id` and
`id_value` from `id` (written `feature_id`; besides these two values it only
prints warnings). -/
structure geojson_env (D V : Type) where
  geometry_names : List String
  mb_geometry : Nat → Int
  integer_zoom : String → Int
  feature_id : Option json_object → Bool × Nat
  stringify_value : json_object → V
  parse_coordinates : Nat → json_object → D
  serialize_feature : serial_feature D V → String → Int

/-- What a call of `serialize_geojson_feature` does: the value it returns and
the calls of `serialize_feature` it makes (feature and layer name), in order. -/
structure geojson_result (D V : Type) where
  ret : Int
  calls : List (serial_feature D V × String)

/-- The block of `serialize_geojson_feature` that reads the `tippecanoe`
object: `minzoom`, `maxzoom` (both `-1` unless a number is given) and the
layer name. -/
def tippecanoe_fields {D V : Type} (env : geojson_env D V) (tippecanoe : Option json_object)
    (layername : String) : Int × Int × String :=
  match tippecanoe with
  | none => (-1, -1, layername)
  | some tp =>
    ((match json_hash_get (some tp) "minzoom" with
      | some (json_object.number text) => env.integer_zoom text
      | _ => -1),
     (match json_hash_get (some tp) "maxzoom" with
      | some (json_object.number text) => env.integer_zoom text
      | _ => -1),
     (match json_hash_get (some tp) "layer" with
      | some (json_object.string ln) => ln
      | _ => layername))

/-- The loop of `serialize_geojson_feature` over the properties: key and
stringified value of every member (a key of the model is always a string). -/
def feature_properties {D V : Type} (env : geojson_env D V) (properties : Option json_object) :
    List String × List V :=
  match properties with
  | some (json_object.hash members) =>
    (members.map (fun m => m.1), members.map (fun m => env.stringify_value m.2))
  | _ => ([], [])

/-- Function `serialize_geojson_feature` of `geojson.cpp`.  `segment` is
`sst->segment` and `seq` is `*(sst->layer_seq)`; the messages on `stderr` are
left out. -/
def serialize_geojson_feature {D V : Type} (env : geojson_env D V) (segment : Nat) (seq : Int)
    (geometry properties id : Option json_object) (layer : Int)
    (tippecanoe : Option json_object) (layername : String) : geojson_result D V :=
  match json_hash_get geometry "type" with
  | none => ⟨0, []⟩
  | some (json_object.string type_name) =>
    match json_hash_get geometry "coordinates" with
    | some (json_object.array coords) =>
      if env.geometry_names.indexOf type_name ≥ env.geometry_names.length then ⟨0, []⟩
      else
        let tp := tippecanoe_fields env tippecanoe layername
        let fid := env.feature_id id
        let props := feature_properties env properties
        let sf : serial_feature D V :=
          { layer := layer
            segment := segment
            t := env.mb_geometry (env.geometry_names.indexOf type_name)
            has_id := fid.1
            id := fid.2
            tippecanoe_minzoom := tp.1
            tippecanoe_maxzoom := tp.2.1
            geometry := env.parse_coordinates (env.geometry_names.indexOf type_name)
              (json_object.array coords)
            feature_minzoom := 0
            seq := seq
            full_keys := props.1
            full_values := props.2 }
        ⟨env.serialize_feature sf tp.2.2, [(sf, tp.2.2)]⟩
    | _ => ⟨0, []⟩
  | some _ => ⟨0, []⟩

/-- The condition of the specification under which a geometry is serialized:
it has a member `type` that is a string and one of the enumerated geometry
names, and a member `coordinates` that is an array. -/
def geometry_accepted (geometry_names : List String) (geometry : Option json_object) : Bool :=
  match json_hash_get geometry "type", json_hash_get geometry "coordinates" with
  | some (json_object.string type_name), some (json_object.array _) =>
    decide (type_name ∈ geometry_names)
  | _, _ => false

/-- A sample of the helpers for evaluating `serialize_geojson_feature`: the
six geometry names of GeoJSON, a geometry kept as the number of its top-level
coordinates, values kept as nothing, and a `serialize_feature` that returns 1. -/
def sample_geojson_env : geojson_env Nat Unit where
  geometry_names :=
    ["Point", "MultiPoint", "LineString", "MultiLineString", "Polygon", "MultiPolygon"]
  mb_geometry := fun t => ((t / 2 + 1 : Nat) : Int)
  integer_zoom := fun text => ((text.toNat?.getD 0 : Nat) : Int)
  feature_id := fun _ => (false, 0)
  stringify_value := fun _ => ()
  parse_coordinates := fun _ c => match c with
    | json_object.array a => a.length
    | _ => 0
  serialize_feature := fun _ _ => 1

/-! ## Opening a text source (`streamfdopen`, `read_input`) -/

/-- Record `struct source` of `main.cpp`; a `std::string` is the list of its
characters. -/
structure source where
  layer : List Char
  file : List Char
  description : List Char
  format : List Char

/-- How `streamfdopen` opens a descriptor: through `gzdopen` or through
`fdopen`. -/
inductive stream_kind where
  | gz
  | fp
  deriving DecidableEq, Repr

/-- Function `streamfdopen` of `main.cpp`, as far as the choice between
`gzdopen` and `fdopen` goes. -/
def streamfdopen (fname : List Char) : stream_kind :=
  if fname.length > 3 ∧ fname.drop (fname.length - 3) = ['.', 'g', 'z'] then stream_kind.gz
  else stream_kind.fp

/-- The identifier that `read_input` finds for a layer name in `layermap`:
`layermap.insert` does not replace an entry, so the name keeps the number `l`
of the first source that has it. -/
def layer_id (sources : List source) (name : List Char) : Nat :=
  sources.findIdx (fun s => s.layer = name)

/-- The name that `read_input` passes to `streamfdopen` for source number
`source`: `sources[layer].file`, with `layer` the identifier of the layer of
that source. -/
def stream_name (sources : List source) (src : Nat) : Option (List Char) :=
  match sources.get? src with
  | none => none
  | some s => (sources.get? (layer_id sources s.layer)).map (fun l => l.file)

/-- How `read_input` opens the text source number `source` when it reads it
through a stream. -/
def open_text_source (sources : List source) (src : Nat) : Option stream_kind :=
  (stream_name sources src).map streamfdopen

/-! ## Gamma at ingest (`main`) -/

/-- The statement of `main` that forces `gamma` to 0:
`if ((basezoom < 0 || droprate < 0) && (gamma < 0)) gamma = 0;`.  The result
is the `gamma` that is passed to `read_input`. -/
def ingest_gamma {F : Type} (ops : DoubleOps F) (basezoom : Int) (droprate gamma : F) : F :=
  if (basezoom < 0 ∨ ops.lt droprate ops.zero = true) ∧ ops.lt gamma ops.zero = true
  then ops.zero else gamma

/-! ## Ingest statistics (`read_input`) -/

/-- The running statistics `dist_sum`, `dist_count` and `area_sum` of
`read_input`, or those of one worker (`dist_sums[i]`, `dist_counts[i]`,
`area_sums[i]`). -/
structure ingest_stats (F : Type) where
  dist_sum : F
  dist_count : Nat
  area_sum : F

/-- The branches of the source loop of `read_input`: flat-geobuf, geobuf, CSV,
and text read in parallel by `do_read_parallel`. -/
inductive source_format where
  | fgb
  | geobuf
  | csv
  | text
  deriving DecidableEq, Repr

/-- What the branch of `read_input` for a source of the given format does to
the running statistics once the workers have finished, `workers` being the
statistics of the workers in order: the loop `for (i = 0; i < CPUS; i++)` of
the flat-geobuf branch (`area_sum = area_sums[i]`), of the geobuf branch and
of `do_read_parallel` (`+=` throughout); the CSV branch has no such loop. -/
def collect_stats {F : Type} (ops : DoubleOps F) (fmt : source_format) (st : ingest_stats F)
    (workers : List (ingest_stats F)) : ingest_stats F :=
  match fmt with
  | source_format.fgb =>
    workers.foldl (fun acc w =>
      ⟨ops.add acc.dist_sum w.dist_sum, acc.dist_count + w.dist_count, w.area_sum⟩) st
  | source_format.geobuf =>
    workers.foldl (fun acc w =>
      ⟨ops.add acc.dist_sum w.dist_sum, acc.dist_count + w.dist_count,
        ops.add acc.area_sum w.area_sum⟩) st
  | source_format.csv => st
  | source_format.text =>
    workers.foldl (fun acc w =>
      ⟨ops.add acc.dist_sum w.dist_sum, acc.dist_count + w.dist_count,
        ops.add acc.area_sum w.area_sum⟩) st

/-! ## Order of the merge -/

/-- Non-decreasing lexicographic order of `(ix, seq)`: the order in which
`indexcmp` does not put `b` before `a`. -/
def key_le (a b : index) : Prop :=
  a.ix < b.ix ∨ (a.ix = b.ix ∧ a.seq ≤ b.seq)

instance (a b : index) : Decidable (key_le a b) := by
  unfold key_le
  infer_instance

/-- The pending list of `merge` is in order at two of its runs: the first
record of the one is not after the first record of the other. -/
def heads_le (r1 r2 : List index) : Prop :=
  ∀ a ∈ r1.head?, ∀ b ∈ r2.head?, key_le a b

/-- The state of the loop of `merge` that makes its output ordered: every
pending run is non-empty and ordered, the pending list is ordered by the
first records of its runs, the output is ordered, and no pending record comes
before a record of the output. -/
def MergeOrdered (head : List (List index)) (out : List index) : Prop :=
  (∀ r ∈ head, r ≠ [] ∧ r.Pairwise key_le) ∧
  head.Pairwise heads_le ∧
  out.Pairwise key_le ∧
  (∀ x ∈ out, ∀ r ∈ head, ∀ y ∈ r, key_le x y)

/-! ## Double arithmetic on representable results -/

/-- The numbers `m / 2^k` with `|m| < 2^53` and `k <= 1074`.  Every one of
them is a finite value of IEEE-754 binary64, and every finite binary64 value
below `2^53` in magnitude is one of them. -/
def Dyadic53 (q : ℚ) : Prop :=
  ∃ (m : Int) (k : Nat), |m| < 2 ^ 53 ∧ k ≤ 1074 ∧ q = (m : ℚ) / 2 ^ k

/-- The facts about `double` arithmetic that the counter of
`calc_feature_minzoom` at the zoom below `basezoom` depends on; `fin` says
that a value is finite (no NaN, no infinity) and `val` gives the number a
finite value stands for.  Zero and one are finite and stand for 0 and 1; a sum
or a difference of finite values whose exact result is a `Dyadic53` number is
finite and stands for that exact result; `<` on finite values is the order of
the numbers; every finite value below `2^53` in magnitude stands for a
`Dyadic53` number.  All of these hold for IEEE-754 binary64, in every
rounding mode: an operation whose exact result is representable returns it. -/
def RoundsExactly {F : Type} (ops : DoubleOps F) (fin : F → Prop) (val : F → ℚ) : Prop :=
  (fin ops.zero ∧ val ops.zero = 0) ∧
  (fin ops.one ∧ val ops.one = 1) ∧
  (∀ a b, fin a → fin b → Dyadic53 (val a + val b) →
    fin (ops.add a b) ∧ val (ops.add a b) = val a + val b) ∧
  (∀ a b, fin a → fin b → Dyadic53 (val a - val b) →
    fin (ops.sub a b) ∧ val (ops.sub a b) = val a - val b) ∧
  (∀ a b, fin a → fin b → (ops.lt a b = true ↔ val a < val b)) ∧
  (∀ a, fin a → |val a| < 2 ^ 53 → Dyadic53 (val a))

/-- Binary64 values that are whole multiples of `2^-51`, each held as that
multiple (so `one` is `2^51`), with exact sums and differences: this is what
IEEE-754 arithmetic computes as long as every result is a whole number below
`2^53` or a multiple of `2^-51` below 4 in magnitude.  The value of
`std::exp(std::log(d) * k)`, a result of the C library, is the argument
`explog`. -/
def fixedOps (explog : Int → Int → Int) : DoubleOps Int where
  zero := 0
  one := 2 ^ 51
  add := fun a b => a + b
  sub := fun a b => a - b
  lt := fun a b => decide (a < b)
  le := fun a b => decide (a ≤ b)
  expLogMul := explog

/-! ## Drop-denser mode (`read_input`) -/

/-- Whether `radix` has ended normally, with its output written. -/
def radix_done {F : Type} (r : radix_result F) : Bool :=
  match r with
  | radix_result.done _ => true
  | _ => false

/-! # Theorems -/

/-! ## Drop policy -/

theorem incr_seqs_apply {F : Type} (ops : DoubleOps F) (n : Nat) (ds : Nat → drop_state F)
    (z : Nat) :
    incr_seqs ops n ds z =
      if z < n then { ds z with seq := ops.add (ds z).seq ops.one } else ds z := by
  induction n generalizing ds with
  | zero => simp [incr_seqs]
  | succ n ih =>
    rw [incr_seqs, ih]
    by_cases h : z < n
    · have h1 : z ≠ n := by omega
      have h2 : z < n + 1 := by omega
      simp [h, h2, Function.update_noteq h1]
    · by_cases h2 : z = n
      · subst h2; simp
      · have h3 : ¬ z < n + 1 := by omega
        simp [h, h3, Function.update_noteq h2]

theorem set_previndex_apply {F : Type} (ixv n j : Nat) (ds : Nat → drop_state F) (z : Nat) :
    set_previndex ixv n j ds z =
      if j ≤ z ∧ z < j + n then { ds z with previndex := ixv } else ds z := by
  induction n generalizing ds j with
  | zero =>
    have h : ¬ (j ≤ z ∧ z < j) := by omega
    simp [set_previndex, h]
  | succ n ih =>
    rw [set_previndex, ih]
    by_cases h : j + 1 ≤ z ∧ z < j + 1 + n
    · have h1 : z ≠ j := by omega
      have h2 : j ≤ z ∧ z < j + (n + 1) := by omega
      simp [h, h2, Function.update_noteq h1]
    · by_cases h2 : z = j
      · subst h2
        have h3 : z ≤ z ∧ z < z + (n + 1) := by omega
        simp [h, h3]
      · have h3 : ¬ (j ≤ z ∧ z < j + (n + 1)) := by omega
        simp [h, h3, Function.update_noteq h2]

theorem set_previndex_seq {F : Type} (ixv n j : Nat) (ds : Nat → drop_state F) (z : Nat) :
    (set_previndex ixv n j ds z).seq = (ds z).seq ∧
      (set_previndex ixv n j ds z).interval = (ds z).interval := by
  rw [set_previndex_apply]
  split <;> simp

theorem walk_zooms_spec {F : Type} (ops : DoubleOps F) (ixv maxzoom n : Nat)
    (ds : Nat → drop_state F) :
    (walk_zooms ops ixv maxzoom n ds).1 ≤ n ∧
    (∀ z, (walk_zooms ops ixv maxzoom n ds).1 ≤ z → z < n →
      ops.lt (ds z).seq ops.zero = false) ∧
    (0 < (walk_zooms ops ixv maxzoom n ds).1 →
      ops.lt (ds ((walk_zooms ops ixv maxzoom n ds).1 - 1)).seq ops.zero = true) ∧
    (∀ z, ((walk_zooms ops ixv maxzoom n ds).2 z).seq =
      if (walk_zooms ops ixv maxzoom n ds).1 ≤ z ∧ z < n
      then ops.sub (ds z).seq (ds z).interval else (ds z).seq) ∧
    (∀ z, ((walk_zooms ops ixv maxzoom n ds).2 z).interval = (ds z).interval) := by
  induction n generalizing ds with
  | zero => simp [walk_zooms]
  | succ i ih =>
    rw [walk_zooms]
    by_cases hneg : ops.lt (ds i).seq ops.zero = true
    · simp only [hneg, if_true]
      refine ⟨le_refl _, ?_, ?_, ?_, ?_⟩
      · intro z h1 h2; omega
      · intro _; simpa using hneg
      · intro z
        have h : ¬ (i + 1 ≤ z ∧ z < i + 1) := by omega
        rw [if_neg h]
        exact (set_previndex_seq ixv _ _ ds z).1
      · intro z
        exact (set_previndex_seq ixv _ _ ds z).2
    · have hneg2 : ops.lt (ds i).seq ops.zero = false := by simpa using hneg
      obtain ⟨ds1, hds1⟩ : ∃ d : Nat → drop_state F,
          d = Function.update ds i { ds i with seq := ops.sub (ds i).seq (ds i).interval } :=
        ⟨_, rfl⟩
      have hw : (if ops.lt (ds i).seq ops.zero = true then
            (i + 1, set_previndex ixv (maxzoom - i) (i + 1) ds)
          else walk_zooms ops ixv maxzoom i
            (Function.update ds i { ds i with seq := ops.sub (ds i).seq (ds i).interval })) =
          walk_zooms ops ixv maxzoom i ds1 := by
        rw [hds1, hneg2]; simp
      rw [hw]
      have hother : ∀ z, z ≠ i → ds1 z = ds z := by
        intro z hz; rw [hds1, Function.update_noteq hz]
      have hsame : ds1 i = { ds i with seq := ops.sub (ds i).seq (ds i).interval } := by
        rw [hds1, Function.update_same]
      obtain ⟨h1, h2, h3, h4, h5⟩ := ih ds1
      refine ⟨by omega, ?_, ?_, ?_, ?_⟩
      · intro z hz1 hz2
        by_cases hzi : z = i
        · subst hzi; exact hneg2
        · have := h2 z hz1 (by omega)
          rwa [hother z hzi] at this
      · intro hpos
        have := h3 hpos
        rwa [hother _ (by omega)] at this
      · intro z
        rw [h4 z]
        by_cases hzi : z = i
        · subst hzi
          have ha : ¬ ((walk_zooms ops ixv maxzoom z ds1).1 ≤ z ∧ z < z) := by omega
          have hb : (walk_zooms ops ixv maxzoom z ds1).1 ≤ z ∧ z < z + 1 := by omega
          rw [if_neg ha, if_pos hb, hsame]
        · rw [hother z hzi]
          by_cases hc : (walk_zooms ops ixv maxzoom i ds1).1 ≤ z ∧ z < i
          · have hd : (walk_zooms ops ixv maxzoom i ds1).1 ≤ z ∧ z < i + 1 := by omega
            rw [if_pos hc, if_pos hd]
          · have hd : ¬ ((walk_zooms ops ixv maxzoom i ds1).1 ≤ z ∧ z < i + 1) := by omega
            rw [if_neg hc, if_neg hd]
      · intro z
        rw [h5 z]
        by_cases hzi : z = i
        · subst hzi; rw [hsame]
        · rw [hother z hzi]

theorem preserve_density_spec {F : Type} (D ixv maxzoom n i fm : Nat)
    (ds : Nat → drop_state F) :
    (preserve_density D ixv maxzoom n i fm ds).1 ≤ fm ∧
    (∀ z, ((preserve_density D ixv maxzoom n i fm ds).2 z).seq = (ds z).seq ∧
      ((preserve_density D ixv maxzoom n i fm ds).2 z).interval = (ds z).interval) := by
  induction n generalizing i with
  | zero => simp [preserve_density]
  | succ n ih =>
    rw [preserve_density]
    by_cases h : i < fm ∧ i < maxzoom
    · rw [if_pos h]
      by_cases h2 : density_distance ixv (ds i).previndex > density_bound i D
      · rw [if_pos h2]
        exact ⟨by simp; omega, fun z => set_previndex_seq ixv _ _ ds z⟩
      · rw [if_neg h2]
        exact ih (i + 1)
    · rw [if_neg h]
      simp

theorem prep_drop_states_loop_apply {F : Type} (ops : DoubleOps F) (basezoom : Int)
    (droprate : F) (n : Nat) (ds : Nat → drop_state F) (z : Nat) :
    prep_drop_states_loop ops basezoom droprate n ds z =
      if z < n then prep_drop_state ops basezoom droprate z else ds z := by
  induction n with
  | zero => simp [prep_drop_states_loop]
  | succ n ih =>
    rw [prep_drop_states_loop]
    by_cases hz : z = n
    · subst hz; simp
    · rw [Function.update_noteq hz, ih]
      by_cases h : z < n
      · have h2 : z < n + 1 := by omega
        rw [if_pos h, if_pos h2]
      · have h2 : ¬ z < n + 1 := by omega
        rw [if_neg h, if_neg h2]

theorem calc_feature_minzoom_le {F : Type} (ops : DoubleOps F) (cfg : Settings) (ix : index)
    (ds : Nat → drop_state F) (maxzoom : Nat) (gamma : F) :
    (calc_feature_minzoom ops cfg ix ds maxzoom gamma).1 ≤ maxzoom + 1 := by
  unfold calc_feature_minzoom
  by_cases he : eligible ops cfg ix gamma = true
  · rw [if_pos he]
    have hw := (walk_zooms_spec ops ix.ix maxzoom (maxzoom + 1)
      (incr_seqs ops (maxzoom + 1) ds)).1
    by_cases hD : cfg.preserve_point_density_threshold > 0
    · simp only [hD, if_true]
      have hp := (preserve_density_spec cfg.preserve_point_density_threshold ix.ix maxzoom
        maxzoom 0 (walk_zooms ops ix.ix maxzoom (maxzoom + 1) (incr_seqs ops (maxzoom + 1) ds)).1
        (walk_zooms ops ix.ix maxzoom (maxzoom + 1) (incr_seqs ops (maxzoom + 1) ds)).2).1
      omega
    · simp only [hD, if_false]
      exact hw
  · rw [if_neg he]
    simp

theorem calc_feature_minzoom_top {F : Type} (ops : DoubleOps F) (hops : CountsUp ops)
    (cfg : Settings) (ix : index) (ds : Nat → drop_state F) (maxzoom : Nat) (gamma : F)
    (hseq : ops.lt (ds maxzoom).seq ops.zero = false)
    (hint : (ds maxzoom).interval = ops.zero) :
    (calc_feature_minzoom ops cfg ix ds maxzoom gamma).1 ≤ maxzoom ∧
    ops.lt ((calc_feature_minzoom ops cfg ix ds maxzoom gamma).2 maxzoom).seq ops.zero = false ∧
    ((calc_feature_minzoom ops cfg ix ds maxzoom gamma).2 maxzoom).interval = ops.zero := by
  obtain ⟨_, hinc, hsub⟩ := hops
  unfold calc_feature_minzoom
  by_cases he : eligible ops cfg ix gamma = true
  · rw [if_pos he]
    dsimp only
    set ds1 := incr_seqs ops (maxzoom + 1) ds with hds1
    set w := walk_zooms ops ix.ix maxzoom (maxzoom + 1) ds1 with hw
    have h1seq : (ds1 maxzoom).seq = ops.add (ds maxzoom).seq ops.one := by
      rw [hds1, incr_seqs_apply, if_pos (Nat.lt_succ_self _)]
    have h1int : (ds1 maxzoom).interval = ops.zero := by
      rw [hds1, incr_seqs_apply, if_pos (Nat.lt_succ_self _)]; exact hint
    have h1neg : ops.lt (ds1 maxzoom).seq ops.zero = false := by
      rw [h1seq]; exact hinc _ hseq
    obtain ⟨hw1, _, hw3, hw4, hw5⟩ := walk_zooms_spec ops ix.ix maxzoom (maxzoom + 1) ds1
    rw [← hw] at hw1 hw3 hw4 hw5
    have hwle : w.1 ≤ maxzoom := by
      by_contra hc
      have heq : w.1 - 1 = maxzoom := by omega
      have := hw3 (by omega)
      rw [heq, h1neg] at this
      exact Bool.false_ne_true this
    have hwseq : ops.lt (w.2 maxzoom).seq ops.zero = false := by
      rw [hw4 maxzoom, if_pos ⟨hwle, Nat.lt_succ_self _⟩, h1int, hsub]
      exact h1neg
    have hwint : (w.2 maxzoom).interval = ops.zero := by
      rw [hw5 maxzoom]; exact h1int
    by_cases hD : cfg.preserve_point_density_threshold > 0
    · simp only [hD, if_true]
      obtain ⟨hp1, hp2⟩ := preserve_density_spec cfg.preserve_point_density_threshold ix.ix
        maxzoom maxzoom 0 w.1 w.2
      refine ⟨by omega, ?_, ?_⟩
      · rw [(hp2 maxzoom).1]; exact hwseq
      · rw [(hp2 maxzoom).2]; exact hwint
    · simp only [hD, if_false]
      exact ⟨hwle, hwseq, hwint⟩
  · rw [if_neg he]
    exact ⟨Nat.zero_le _, hseq, hint⟩

theorem feed_minzooms_le {F : Type} (ops : DoubleOps F) (cfg : Settings) (maxzoom : Nat)
    (gamma : F) (entries : List index) (ds : Nat → drop_state F) :
    ∀ m ∈ feed_minzooms ops cfg maxzoom gamma ds entries, m ≤ maxzoom + 1 := by
  induction entries generalizing ds with
  | nil => simp [feed_minzooms]
  | cons ix rest ih =>
    intro m hm
    rw [feed_minzooms, List.mem_cons] at hm
    rcases hm with h | h
    · rw [h]; exact calc_feature_minzoom_le ops cfg ix ds maxzoom gamma
    · exact ih _ m h

theorem feed_minzooms_top {F : Type} (ops : DoubleOps F) (hops : CountsUp ops)
    (cfg : Settings) (maxzoom : Nat) (gamma : F) (entries : List index)
    (ds : Nat → drop_state F)
    (hseq : ops.lt (ds maxzoom).seq ops.zero = false)
    (hint : (ds maxzoom).interval = ops.zero) :
    ∀ m ∈ feed_minzooms ops cfg maxzoom gamma ds entries, m ≤ maxzoom := by
  induction entries generalizing ds with
  | nil => simp [feed_minzooms]
  | cons ix rest ih =>
    intro m hm
    obtain ⟨h1, h2, h3⟩ := calc_feature_minzoom_top ops hops cfg ix ds maxzoom gamma hseq hint
    rw [feed_minzooms, List.mem_cons] at hm
    rcases hm with h | h
    · rw [h]; exact h1
    · exact ih _ h2 h3 m h

theorem walk_zooms_congr {F : Type} (ops : DoubleOps F) (ixv maxzoom n : Nat)
    (ds ds' : Nat → drop_state F) (h : SameCounters ds ds') :
    (walk_zooms ops ixv maxzoom n ds).1 = (walk_zooms ops ixv maxzoom n ds').1 ∧
    SameCounters (walk_zooms ops ixv maxzoom n ds).2 (walk_zooms ops ixv maxzoom n ds').2 := by
  obtain ⟨a1, a2, a3, a4, a5⟩ := walk_zooms_spec ops ixv maxzoom n ds
  obtain ⟨b1, b2, b3, b4, b5⟩ := walk_zooms_spec ops ixv maxzoom n ds'
  have heq : (walk_zooms ops ixv maxzoom n ds).1 = (walk_zooms ops ixv maxzoom n ds').1 := by
    rcases Nat.lt_trichotomy (walk_zooms ops ixv maxzoom n ds).1
      (walk_zooms ops ixv maxzoom n ds').1 with hlt | heq | hgt
    · exfalso
      have h1 := b3 (by omega)
      have h2 := a2 ((walk_zooms ops ixv maxzoom n ds').1 - 1) (by omega) (by omega)
      rw [(h _).1, h1] at h2
      exact Bool.noConfusion h2
    · exact heq
    · exfalso
      have h1 := a3 (by omega)
      have h2 := b2 ((walk_zooms ops ixv maxzoom n ds).1 - 1) (by omega) (by omega)
      rw [← (h _).1, h1] at h2
      exact Bool.noConfusion h2
  refine ⟨heq, fun z => ⟨?_, ?_⟩⟩
  · rw [a4 z, b4 z, heq, (h z).1, (h z).2]
  · rw [a5 z, b5 z, (h z).2]

theorem incr_seqs_congr {F : Type} (ops : DoubleOps F) (n : Nat)
    (ds ds' : Nat → drop_state F) (h : SameCounters ds ds') :
    SameCounters (incr_seqs ops n ds) (incr_seqs ops n ds') := by
  intro z
  rw [incr_seqs_apply, incr_seqs_apply]
  by_cases hz : z < n
  · rw [if_pos hz, if_pos hz]
    exact ⟨by rw [(h z).1], (h z).2⟩
  · rw [if_neg hz, if_neg hz]
    exact h z

theorem calc_feature_minzoom_density_le {F : Type} (ops : DoubleOps F) (cfg : Settings)
    (ix : index) (ds ds' : Nat → drop_state F) (maxzoom : Nat) (gamma : F)
    (h : SameCounters ds ds') :
    (calc_feature_minzoom ops cfg ix ds maxzoom gamma).1 ≤
      (calc_feature_minzoom ops { cfg with preserve_point_density_threshold := 0 } ix ds'
        maxzoom gamma).1 ∧
    SameCounters (calc_feature_minzoom ops cfg ix ds maxzoom gamma).2
      (calc_feature_minzoom ops { cfg with preserve_point_density_threshold := 0 } ix ds'
        maxzoom gamma).2 := by
  have helig : eligible ops { cfg with preserve_point_density_threshold := 0 } ix gamma =
      eligible ops cfg ix gamma := rfl
  unfold calc_feature_minzoom
  rw [helig]
  by_cases he : eligible ops cfg ix gamma = true
  · rw [if_pos he, if_pos he]
    dsimp only
    obtain ⟨hw1, hw2⟩ := walk_zooms_congr ops ix.ix maxzoom (maxzoom + 1) _ _
      (incr_seqs_congr ops (maxzoom + 1) ds ds' h)
    have h0 : ¬ (0 > 0) := by omega
    rw [if_neg h0]
    by_cases hD : cfg.preserve_point_density_threshold > 0
    · rw [if_pos hD]
      obtain ⟨hp1, hp2⟩ := preserve_density_spec cfg.preserve_point_density_threshold ix.ix
        maxzoom maxzoom 0
        (walk_zooms ops ix.ix maxzoom (maxzoom + 1) (incr_seqs ops (maxzoom + 1) ds)).1
        (walk_zooms ops ix.ix maxzoom (maxzoom + 1) (incr_seqs ops (maxzoom + 1) ds)).2
      refine ⟨by omega, fun z => ⟨?_, ?_⟩⟩
      · rw [(hp2 z).1]; exact (hw2 z).1
      · rw [(hp2 z).2]; exact (hw2 z).2
    · rw [if_neg hD]
      exact ⟨by omega, hw2⟩
  · rw [if_neg he, if_neg he]
    exact ⟨le_refl _, h⟩

theorem feed_minzooms_density_le {F : Type} (ops : DoubleOps F) (cfg : Settings)
    (maxzoom : Nat) (gamma : F) (entries : List index) (ds ds' : Nat → drop_state F)
    (h : SameCounters ds ds') :
    List.Forall₂ (fun a b => a ≤ b) (feed_minzooms ops cfg maxzoom gamma ds entries)
      (feed_minzooms ops { cfg with preserve_point_density_threshold := 0 } maxzoom gamma ds'
        entries) := by
  induction entries generalizing ds ds' with
  | nil => simp [feed_minzooms]
  | cons ix rest ih =>
    obtain ⟨h1, h2⟩ := calc_feature_minzoom_density_le ops cfg ix ds ds' maxzoom gamma h
    rw [feed_minzooms, feed_minzooms]
    exact List.Forall₂.cons h1 (ih _ _ h2)

theorem countP_le_of_forall2_le (z : Nat) (l1 l2 : List Nat)
    (h : List.Forall₂ (fun a b => a ≤ b) l1 l2) :
    List.countP (fun m => decide (m ≤ z)) l2 ≤ List.countP (fun m => decide (m ≤ z)) l1 := by
  induction l1 generalizing l2 with
  | nil =>
    cases h
    simp
  | cons a l1 ih =>
    cases h with
    | cons hab hrest =>
      rename_i b l2
      have := ih l2 hrest
      rw [List.countP_cons, List.countP_cons]
      by_cases hb : b ≤ z
      · have ha : a ≤ z := le_trans hab hb
        simp only [hb, ha, decide_True, if_true]
        omega
      · simp only [hb, decide_False, Bool.false_eq_true, if_false]
        split <;> omega

theorem countsUp_intOps : CountsUp intOps := by
  refine ⟨by decide, ?_, ?_⟩
  · intro x hx
    simp only [intOps, decide_eq_false_iff_not, not_lt] at hx ⊢
    omega
  · intro x
    simp [intOps]

/-- C5 as stated does not hold: with `maxzoom = 0`, `basezoom = 1` and
`droprate = 2` the third point fed to `calc_feature_minzoom` is given
`feature_minzoom = 1`, which is greater than `maxzoom`. -/
theorem feature_minzoom_above_maxzoom :
    feed_minzooms intOps ⟨false, false, 0, false⟩ 0 0
        (prep_drop_states intOps (fun _ => ⟨0, 0, 0, 0⟩) 0 1 2)
        [⟨0, 1, 10, 0, 1, 0⟩, ⟨1, 2, 20, 0, 1, 1⟩, ⟨2, 3, 30, 0, 1, 2⟩] = [0, 0, 1] ∧
    ¬ (∀ m ∈ feed_minzooms intOps ⟨false, false, 0, false⟩ 0 0
        (prep_drop_states intOps (fun _ => ⟨0, 0, 0, 0⟩) 0 1 2)
        [⟨0, 1, 10, 0, 1, 0⟩, ⟨1, 2, 20, 0, 1, 1⟩, ⟨2, 3, 30, 0, 1, 2⟩], m ≤ 0) := by
  decide

/-- C5 (amended): for every `maxzoom`, `droprate`, drop state initialised by
`prep_drop_states` and every sequence of index entries fed to
`calc_feature_minzoom`, each returned `feature_minzoom` lies in `[0, maxzoom]`
when `basezoom <= maxzoom` (for any `double` arithmetic satisfying `CountsUp`),
and in `[0, maxzoom + 1]` for every `basezoom`. -/
theorem feature_minzoom_range {F : Type} (ops : DoubleOps F) (cfg : Settings) (maxzoom : Nat)
    (basezoom : Int) (droprate gamma : F) (ds0 : Nat → drop_state F) (entries : List index) :
    (basezoom ≤ maxzoom → CountsUp ops →
      ∀ m ∈ feed_minzooms ops cfg maxzoom gamma
        (prep_drop_states ops ds0 maxzoom basezoom droprate) entries, m ≤ maxzoom) ∧
    (∀ m ∈ feed_minzooms ops cfg maxzoom gamma
        (prep_drop_states ops ds0 maxzoom basezoom droprate) entries, m ≤ maxzoom + 1) := by
  refine ⟨fun hb hops => ?_, feed_minzooms_le ops cfg maxzoom gamma entries _⟩
  have hprep : prep_drop_states ops ds0 maxzoom basezoom droprate maxzoom =
      prep_drop_state ops basezoom droprate maxzoom := by
    unfold prep_drop_states
    rw [prep_drop_states_loop_apply, if_pos (Nat.lt_succ_self _)]
  apply feed_minzooms_top ops hops
  · rw [hprep]; exact hops.1
  · rw [hprep]
    have : ¬ ((maxzoom : Int) < basezoom) := by omega
    simp [prep_drop_state, this]

/-- Witness for C5 (amended): `maxzoom = 2`, `basezoom = 1`, `droprate = 2`,
three points. -/
theorem feature_minzoom_range_witness :
    (1 : Int) ≤ ((2 : Nat) : Int) ∧ CountsUp intOps ∧
    ∀ m ∈ feed_minzooms intOps ⟨false, false, 0, false⟩ 2 0
        (prep_drop_states intOps (fun _ => ⟨0, 0, 0, 0⟩) 2 1 2)
        [⟨0, 1, 10, 0, 1, 0⟩, ⟨1, 2, 20, 0, 1, 1⟩, ⟨2, 3, 30, 0, 1, 2⟩], m ≤ 2 :=
  ⟨by decide, countsUp_intOps,
    (feature_minzoom_range intOps ⟨false, false, 0, false⟩ 2 1 2 0 (fun _ => ⟨0, 0, 0, 0⟩)
      [⟨0, 1, 10, 0, 1, 0⟩, ⟨1, 2, 20, 0, 1, 1⟩, ⟨2, 3, 30, 0, 1, 2⟩]).1 (by decide)
      countsUp_intOps⟩

/-- C7 fails on the code at `preserve_point_density_threshold = 1`: the squared
bound of zoom 0, `(2^32 / 1)^2 = 2^64`, is computed in 64-bit unsigned
arithmetic and wraps to `0`.  With `maxzoom = 1`, `basezoom = 1`,
`droprate = 2` the third of three points gets `feature_minzoom = 1` from the
walk, and with the threshold set to `1` it is forced down to `0` although its
key, `30`, is nowhere near `2^64` away from anything.  Moreover `previndex[0]`
is still `0` when the third point arrives, although the first two points
(keys `10` and `20`) were retained at zoom 0. -/
theorem density_bound_wraps :
    density_bound 0 1 = 0 ∧ (2 ^ 32 / 1) * (2 ^ 32 / 1) = 2 ^ 64 ∧
    feed_minzooms intOps ⟨false, false, 0, false⟩ 1 0
        (prep_drop_states intOps (fun _ => ⟨0, 0, 0, 0⟩) 1 1 2)
        [⟨0, 1, 10, 0, 1, 0⟩, ⟨1, 2, 20, 0, 1, 1⟩, ⟨2, 3, 30, 0, 1, 2⟩] = [0, 0, 1] ∧
    feed_minzooms intOps ⟨false, false, 1, false⟩ 1 0
        (prep_drop_states intOps (fun _ => ⟨0, 0, 0, 0⟩) 1 1 2)
        [⟨0, 1, 10, 0, 1, 0⟩, ⟨1, 2, 20, 0, 1, 1⟩, ⟨2, 3, 30, 0, 1, 2⟩] = [0, 0, 0] ∧
    ((calc_feature_minzoom intOps ⟨false, false, 1, false⟩ ⟨1, 2, 20, 0, 1, 1⟩
        (calc_feature_minzoom intOps ⟨false, false, 1, false⟩ ⟨0, 1, 10, 0, 1, 0⟩
          (prep_drop_states intOps (fun _ => ⟨0, 0, 0, 0⟩) 1 1 2) 1 0).2 1 0).2 0).previndex
      = 0 := by
  decide

/-- C8: enabling density preservation never removes a feature from a zoom.
For every sequence of index entries processed from the same initial drop
states, the `feature_minzoom` returned for each entry with a threshold set is
at most the one returned for the same entry with the threshold `0`, and so for
every zoom `z` the number of entries retained at `z` (`feature_minzoom <= z`)
does not decrease. -/
theorem density_preservation_monotone {F : Type} (ops : DoubleOps F) (cfg : Settings)
    (maxzoom : Nat) (gamma : F) (ds : Nat → drop_state F) (entries : List index) :
    List.Forall₂ (fun a b => a ≤ b) (feed_minzooms ops cfg maxzoom gamma ds entries)
      (feed_minzooms ops { cfg with preserve_point_density_threshold := 0 } maxzoom gamma ds
        entries) ∧
    ∀ z, List.countP (fun m => decide (m ≤ z))
        (feed_minzooms ops { cfg with preserve_point_density_threshold := 0 } maxzoom gamma ds
          entries) ≤
      List.countP (fun m => decide (m ≤ z)) (feed_minzooms ops cfg maxzoom gamma ds entries) := by
  have h := feed_minzooms_density_le ops cfg maxzoom gamma entries ds ds (fun _ => ⟨rfl, rfl⟩)
  exact ⟨h, fun z => countP_le_of_forall2_le z _ _ h⟩

/-- C9 as stated does not hold: with `maxzoom = 0` and `basezoom = 0` the
interval of zoom 0, which is not below `basezoom`, is `0`, not `1.0`. -/
theorem prep_drop_states_interval_not_one :
    (prep_drop_states intOps (fun _ => ⟨0, 0, 0, 0⟩) 0 0 2 0).interval = intOps.zero ∧
    ¬ ((prep_drop_states intOps (fun _ => ⟨0, 0, 0, 0⟩) 0 0 2 0).interval = intOps.one) := by
  decide

/-- C9 (amended): `prep_drop_states` initialises, for every zoom `z` in
`[0, maxzoom]`, `seq[z] = 0`, `previndex[z] = 0`, `gap[z] = 0`, and
`interval[z] = exp(log(droprate) * (basezoom - z))` when `z < basezoom`,
`interval[z] = 0` when `z >= basezoom`. -/
theorem prep_drop_states_spec {F : Type} (ops : DoubleOps F) (ds : Nat → drop_state F)
    (maxzoom : Nat) (basezoom : Int) (droprate : F) (z : Nat) (hz : z ≤ maxzoom) :
    (prep_drop_states ops ds maxzoom basezoom droprate z).seq = ops.zero ∧
    (prep_drop_states ops ds maxzoom basezoom droprate z).previndex = 0 ∧
    (prep_drop_states ops ds maxzoom basezoom droprate z).gap = ops.zero ∧
    ((z : Int) < basezoom →
      (prep_drop_states ops ds maxzoom basezoom droprate z).interval =
        ops.expLogMul droprate (basezoom - z)) ∧
    (basezoom ≤ (z : Int) →
      (prep_drop_states ops ds maxzoom basezoom droprate z).interval = ops.zero) := by
  have hprep : prep_drop_states ops ds maxzoom basezoom droprate z =
      prep_drop_state ops basezoom droprate z := by
    unfold prep_drop_states
    rw [prep_drop_states_loop_apply, if_pos (by omega)]
  rw [hprep]
  refine ⟨rfl, rfl, rfl, ?_, ?_⟩
  · intro h; simp [prep_drop_state, h]
  · intro h
    have : ¬ ((z : Int) < basezoom) := by omega
    simp [prep_drop_state, this]

/-- Witness for C9 (amended): zoom 1 of `maxzoom = 3`, `basezoom = 2`,
`droprate = 2` has interval `2 ^ 1`. -/
theorem prep_drop_states_spec_witness :
    (1 : Nat) ≤ 3 ∧
    (prep_drop_states intOps (fun _ => ⟨0, 0, 0, 0⟩) 3 2 2 1).interval = 2 :=
  ⟨by decide,
    ((prep_drop_states_spec intOps (fun _ => ⟨0, 0, 0, 0⟩) 3 2 2 1 (by decide)).2.2.2.1
      (by decide)).trans (by decide)⟩

/-! ## Ingest partitioning -/

theorem advance_to_separator_spec (map : List Int) (len : Nat) (separator : Int) (n p : Nat)
    (hn : len ≤ p + n) :
    p ≤ advance_to_separator map len separator n p ∧
    (advance_to_separator map len separator n p < len →
      map.getD (advance_to_separator map len separator n p) 0 = separator) ∧
    (∀ q, p ≤ q → q < advance_to_separator map len separator n p →
      q < len ∧ map.getD q 0 ≠ separator) ∧
    (p ≤ len → advance_to_separator map len separator n p ≤ len) := by
  induction n generalizing p with
  | zero =>
    simp only [advance_to_separator]
    refine ⟨le_refl _, fun h => ?_, fun q h1 h2 => ?_, fun h => h⟩
    · omega
    · omega
  | succ n ih =>
    rw [advance_to_separator]
    by_cases hc : p < len ∧ map.getD p 0 ≠ separator
    · rw [if_pos hc]
      obtain ⟨h1, h2, h3, h4⟩ := ih (p + 1) (by omega)
      refine ⟨by omega, h2, fun q hq1 hq2 => ?_, fun _ => h4 (by omega)⟩
      by_cases hqp : q = p
      · subst hqp; exact hc
      · exact h3 q (by omega) hq2
    · rw [if_neg hc]
      refine ⟨le_refl _, fun h => ?_, fun q h1 h2 => ?_, fun h => h⟩
      · by_contra hne
        exact hc ⟨h, hne⟩
      · omega

theorem advance_to_separator_mono (map : List Int) (len : Nat) (separator : Int) (p q : Nat)
    (hpq : p ≤ q) :
    advance_to_separator map len separator len p ≤
      advance_to_separator map len separator len q := by
  obtain ⟨_, _, a3, _⟩ := advance_to_separator_spec map len separator len p (Nat.le_add_left _ _)
  obtain ⟨b1, b2, _, _⟩ := advance_to_separator_spec map len separator len q (Nat.le_add_left _ _)
  by_contra hc
  have hlt : advance_to_separator map len separator len q <
      advance_to_separator map len separator len p := by omega
  obtain ⟨h1, h2⟩ := a3 _ (by omega) hlt
  exact h2 (b2 h1)

theorem segs_start_le (len CPUS i : Nat) (hi : i ≤ CPUS) :
    len * i / CPUS ≤ len := by
  apply Nat.div_le_of_le_mul
  rw [Nat.mul_comm CPUS len]
  exact Nat.mul_le_mul_left len hi

theorem segs_interior (map : List Int) (CPUS : Nat) (separator : Int) (i : Nat)
    (h1 : 0 < i) (h2 : i < CPUS) (hlen : map.length * CPUS < 2 ^ 64) :
    segs map map.length CPUS separator i =
      advance_to_separator map map.length separator map.length (map.length * i / CPUS) := by
  unfold segs
  rw [if_neg (by omega), if_neg (by omega)]
  have : map.length * i < 2 ^ 64 := by
    have : map.length * i ≤ map.length * CPUS := Nat.mul_le_mul_left _ (by omega)
    omega
  rw [Nat.mod_eq_of_lt this]

theorem segs_le_len (map : List Int) (CPUS : Nat) (separator : Int) (i : Nat)
    (hC : 0 < CPUS) (hi : i ≤ CPUS) (hlen : map.length * CPUS < 2 ^ 64) :
    segs map map.length CPUS separator i ≤ map.length := by
  by_cases h0 : i = 0
  · subst h0
    unfold segs
    rw [if_neg (by omega), if_pos rfl]
    exact Nat.zero_le _
  · by_cases hN : i = CPUS
    · subst hN
      unfold segs
      rw [if_pos rfl]
    · rw [segs_interior map CPUS separator i (by omega) (by omega) hlen]
      exact (advance_to_separator_spec map map.length separator map.length
        (map.length * i / CPUS) (Nat.le_add_left _ _)).2.2.2 (segs_start_le _ _ _ hi)

theorem segs_mono_step (map : List Int) (CPUS : Nat) (separator : Int) (i : Nat)
    (hC : 0 < CPUS) (hi : i < CPUS) (hlen : map.length * CPUS < 2 ^ 64) :
    segs map map.length CPUS separator i ≤ segs map map.length CPUS separator (i + 1) := by
  by_cases h0 : i = 0
  · subst h0
    have : segs map map.length CPUS separator 0 = 0 := by
      unfold segs
      rw [if_neg (by omega), if_pos rfl]
    rw [this]
    exact Nat.zero_le _
  · by_cases hN : i + 1 = CPUS
    · have : segs map map.length CPUS separator (i + 1) = map.length := by
        unfold segs
        rw [if_pos hN]
      rw [this]
      exact segs_le_len map CPUS separator i hC (by omega) hlen
    · rw [segs_interior map CPUS separator i (by omega) hi hlen,
        segs_interior map CPUS separator (i + 1) (by omega) (by omega) hlen]
      apply advance_to_separator_mono
      exact Nat.div_le_div_right (Nat.mul_le_mul_left _ (by omega))

theorem segs_mono (map : List Int) (CPUS : Nat) (separator : Int)
    (hC : 0 < CPUS) (hlen : map.length * CPUS < 2 ^ 64) (i j : Nat) (hij : i ≤ j)
    (hj : j ≤ CPUS) :
    segs map map.length CPUS separator i ≤ segs map map.length CPUS separator j := by
  induction j with
  | zero =>
    have : i = 0 := by omega
    subst this
    exact le_refl _
  | succ j ih =>
    by_cases h : i = j + 1
    · subst h; exact le_refl _
    · exact le_trans (ih (by omega) (by omega))
        (segs_mono_step map CPUS separator j hC (by omega) hlen)

theorem slices_flatten_take {α : Type} (map : List α) (f : Nat → Nat) (n : Nat)
    (h0 : f 0 = 0) (hmono : ∀ i, i < n → f i ≤ f (i + 1)) :
    ((List.range n).map (fun i => (map.drop (f i)).take (f (i + 1) - f i))).flatten =
      map.take (f n) := by
  induction n with
  | zero => simp [h0]
  | succ n ih =>
    rw [List.range_succ, List.map_append, List.flatten_append,
      ih (fun i hi => hmono i (by omega))]
    have h := hmono n (by omega)
    have : f (n + 1) = f n + (f (n + 1) - f n) := by omega
    conv_rhs => rw [this, List.take_add]
    simp

theorem unique_slice_of_mono (f : Nat → Nat) (n len p : Nat) (h0 : f 0 = 0) (hn : f n = len)
    (hmono : ∀ i j, i ≤ j → j ≤ n → f i ≤ f j) (hp : p < len) :
    ∃! i, i < n ∧ f i ≤ p ∧ p < f (i + 1) := by
  have hnpos : 0 < n := by
    rcases Nat.eq_zero_or_pos n with h | h
    · subst h; omega
    · exact h
  have hex : ∃ k, p < f (k + 1) := ⟨n - 1, by
    have : n - 1 + 1 = n := by omega
    rw [this, hn]; exact hp⟩
  have hfind := Nat.find_spec hex
  have hle : Nat.find hex ≤ n - 1 := Nat.find_min' hex (by
    have : n - 1 + 1 = n := by omega
    rw [this, hn]; exact hp)
  have hlow : f (Nat.find hex) ≤ p := by
    rcases Nat.eq_zero_or_pos (Nat.find hex) with h | h
    · rw [h, h0]; exact Nat.zero_le _
    · have := Nat.find_min hex (show Nat.find hex - 1 < Nat.find hex by omega)
      have h2 : Nat.find hex - 1 + 1 = Nat.find hex := by omega
      rw [h2] at this
      omega
  refine ⟨Nat.find hex, ⟨by omega, hlow, hfind⟩, ?_⟩
  rintro j ⟨hj1, hj2, hj3⟩
  rcases Nat.lt_trichotomy j (Nat.find hex) with h | h | h
  · have := hmono (j + 1) (Nat.find hex) (by omega) (by omega)
    omega
  · exact h
  · have := hmono (Nat.find hex + 1) j (by omega) (by omega)
    omega

/-- C10: in `do_read_parallel`, for an input `map` of length `len` (with
`len * CPUS` representable in 64 bits), every separator and every
`CPUS >= 1`: `0 = segs[0] <= segs[1] <= ... <= segs[CPUS] = len`; each
interior `segs[i]` is the smallest position `>= len * i / CPUS` that holds the
separator, or `len` if there is none; the slices `[segs[i], segs[i+1])` handed
to the workers are disjoint and cover the input exactly once (every position
lies in exactly one slice, and the slices concatenated give the input); every
slice after the first starts at a separator; worker `i` starts counting at
`segs[i] + initial_offset`, and these initial counters are non-decreasing. -/
theorem do_read_parallel_partition (map : List Int) (CPUS : Nat) (separator : Int)
    (initial_offset : Int) (hC : 1 ≤ CPUS) (hlen : map.length * CPUS < 2 ^ 64) :
    segs map map.length CPUS separator 0 = 0 ∧
    segs map map.length CPUS separator CPUS = map.length ∧
    (∀ i, i < CPUS →
      segs map map.length CPUS separator i ≤ segs map map.length CPUS separator (i + 1)) ∧
    (∀ i, 0 < i → i < CPUS →
      map.length * i / CPUS ≤ segs map map.length CPUS separator i ∧
      segs map map.length CPUS separator i ≤ map.length ∧
      (segs map map.length CPUS separator i < map.length →
        map.getD (segs map map.length CPUS separator i) 0 = separator) ∧
      (∀ p, map.length * i / CPUS ≤ p → p < segs map map.length CPUS separator i →
        map.getD p 0 ≠ separator)) ∧
    (∀ p, p < map.length →
      ∃! i, i < CPUS ∧ segs map map.length CPUS separator i ≤ p ∧
        p < segs map map.length CPUS separator (i + 1)) ∧
    (worker_slices map map.length CPUS separator).flatten = map ∧
    (∀ i, layer_seq map map.length CPUS separator initial_offset i =
      (segs map map.length CPUS separator i : Int) + initial_offset) ∧
    (∀ i j, i ≤ j → j < CPUS →
      layer_seq map map.length CPUS separator initial_offset i ≤
        layer_seq map map.length CPUS separator initial_offset j) := by
  have h0 : segs map map.length CPUS separator 0 = 0 := by
    unfold segs
    rw [if_neg (by omega), if_pos rfl]
  have hN : segs map map.length CPUS separator CPUS = map.length := by
    unfold segs
    rw [if_pos rfl]
  have hmono := segs_mono map CPUS separator hC hlen
  refine ⟨h0, hN, fun i hi => segs_mono_step map CPUS separator i hC hi hlen, ?_, ?_, ?_,
    fun i => rfl, ?_⟩
  · intro i hi1 hi2
    rw [segs_interior map CPUS separator i hi1 hi2 hlen]
    obtain ⟨a1, a2, a3, a4⟩ := advance_to_separator_spec map map.length separator map.length
      (map.length * i / CPUS) (Nat.le_add_left _ _)
    exact ⟨a1, a4 (segs_start_le _ _ _ (by omega)), a2, fun p hp1 hp2 => (a3 p hp1 hp2).2⟩
  · intro p hp
    exact unique_slice_of_mono _ CPUS map.length p h0 hN hmono hp
  · unfold worker_slices
    have := slices_flatten_take map (segs map map.length CPUS separator) CPUS h0
      (fun i hi => segs_mono_step map CPUS separator i hC hi hlen)
    rw [hN, List.take_length] at this
    exact this
  · intro i j hij hj
    unfold layer_seq
    have := hmono i j hij (by omega)
    omega

/-- Witness for C10: the five bytes `1 10 2 10 3` split between two workers at
the newline in position 3. -/
theorem do_read_parallel_partition_witness :
    1 ≤ 2 ∧ ([1, 10, 2, 10, 3] : List Int).length * 2 < 2 ^ 64 ∧
    segs [1, 10, 2, 10, 3] 5 2 10 1 = 3 ∧
    worker_slices [1, 10, 2, 10, 3] 5 2 10 = [[1, 10, 2], [10, 3]] ∧
    (worker_slices [1, 10, 2, 10, 3] ([1, 10, 2, 10, 3] : List Int).length 2 10).flatten =
      [1, 10, 2, 10, 3] :=
  ⟨by decide, by decide, by decide, by decide,
    (do_read_parallel_partition [1, 10, 2, 10, 3] 2 10 100 (by decide) (by decide)).2.2.2.2.2.1⟩

/-! ## Spatial sort: nothing is lost -/

theorem merge_write_keys {F : Type} (env : sort_env F) (geom_map : List Nat) (ix : index)
    (st : sort_state F) :
    (merge_write env geom_map ix st).indexfile.map index_key =
      st.indexfile.map index_key ++ [index_key ix] := by
  simp [merge_write, index_key]

theorem pass_write_keys {F : Type} (env : sort_env F) (geommap : List Nat) (l : List index)
    (st : sort_state F) :
    (l.foldl (pass_write env geommap) st).indexfile.map index_key =
      st.indexfile.map index_key ++ l.map index_key := by
  induction l generalizing st with
  | nil => simp
  | cons ix rest ih =>
    rw [List.foldl_cons, ih]
    simp [pass_write, index_key]

theorem insert_flatten_perm (m : List index) (rest : List (List index)) :
    List.Perm (insert m rest).flatten (m ++ rest.flatten) := by
  induction rest with
  | nil => simp [insert]
  | cons h rest ih =>
    rw [insert]
    split
    · rw [List.flatten_cons, List.flatten_cons]
      refine (List.Perm.append_left h ih).trans ?_
      rw [← List.append_assoc, ← List.append_assoc]
      exact List.Perm.append_right _ List.perm_append_comm
    · rw [List.flatten_cons]

theorem mem_insert_run (m r : List index) (rest : List (List index))
    (h : r ∈ insert m rest) : r = m ∨ r ∈ rest := by
  induction rest with
  | nil =>
    simp only [insert, List.mem_singleton] at h
    exact Or.inl h
  | cons a rest ih =>
    rw [insert] at h
    split at h
    · rcases List.mem_cons.mp h with h1 | h1
      · exact Or.inr (h1 ▸ List.mem_cons_self _ _)
      · rcases ih h1 with h2 | h2
        · exact Or.inl h2
        · exact Or.inr (List.mem_cons_of_mem _ h2)
    · rcases List.mem_cons.mp h with h1 | h1
      · exact Or.inl h1
      · exact Or.inr h1

theorem merge_loop_keys {F : Type} (env : sort_env F) (geom_map : List Nat) (n : Nat)
    (head : List (List index)) (st : sort_state F) (hn : head.flatten.length ≤ n)
    (hne : ∀ r ∈ head, r ≠ []) :
    List.Perm ((merge_loop env geom_map n head st).indexfile.map index_key)
      (st.indexfile.map index_key ++ head.flatten.map index_key) := by
  induction n generalizing head st with
  | zero =>
    have : head.flatten = [] := List.eq_nil_of_length_eq_zero (by omega)
    rw [this]
    cases head <;> simp [merge_loop]
  | succ n ih =>
    match head with
    | [] => simp [merge_loop]
    | [] :: rest => exact absurd rfl (hne [] (List.mem_cons_self _ _))
    | (ix :: m) :: rest =>
      simp only [merge_loop]
      have hperm : List.Perm (match m with | [] => rest | _ :: _ => insert m rest).flatten
          (m ++ rest.flatten) := by
        cases m with
        | nil => simp
        | cons a m => exact insert_flatten_perm _ _
      have hlen : (match m with | [] => rest | _ :: _ => insert m rest).flatten.length ≤ n := by
        rw [hperm.length_eq]
        simp only [List.flatten_cons, List.length_append, List.length_cons] at hn
        rw [List.length_append]
        omega
      have hne2 : ∀ r ∈ (match m with | [] => rest | _ :: _ => insert m rest), r ≠ [] := by
        intro r hr
        cases m with
        | nil => exact hne r (List.mem_cons_of_mem _ hr)
        | cons a m =>
          rcases mem_insert_run _ _ _ hr with h1 | h1
          · rw [h1]; exact List.cons_ne_nil _ _
          · exact hne r (List.mem_cons_of_mem _ h1)
      refine (ih _ _ hlen hne2).trans ?_
      rw [merge_write_keys, List.flatten_cons, List.cons_append, List.map_cons,
        List.append_assoc, List.singleton_append]
      exact List.Perm.append_left _ (List.Perm.cons _ (hperm.map index_key))

theorem merge_head_perm (merges head : List (List index)) :
    List.Perm
      (merges.foldl (fun head m => match m with | [] => head | _ :: _ => insert m head)
        head).flatten
      (head.flatten ++ merges.flatten) := by
  induction merges generalizing head with
  | nil => simp
  | cons m rest ih =>
    rw [List.foldl_cons]
    refine (ih _).trans ?_
    rw [List.flatten_cons, ← List.append_assoc]
    apply List.Perm.append_right
    cases m with
    | nil => simp
    | cons a m => exact (insert_flatten_perm _ _).trans List.perm_append_comm

theorem merge_head_nonempty (merges head : List (List index)) (h : ∀ r ∈ head, r ≠ []) :
    ∀ r ∈ merges.foldl (fun head m => match m with | [] => head | _ :: _ => insert m head)
      head, r ≠ [] := by
  induction merges generalizing head with
  | nil => simpa using h
  | cons m rest ih =>
    rw [List.foldl_cons]
    apply ih
    intro r hr
    cases m with
    | nil => exact h r hr
    | cons a m =>
      rcases mem_insert_run _ _ _ hr with h1 | h1
      · rw [h1]; exact List.cons_ne_nil _ _
      · exact h r h1

theorem merge_keys {F : Type} (env : sort_env F) (merges : List (List index))
    (geom_map : List Nat) (st : sort_state F) :
    List.Perm ((merge env merges geom_map st).indexfile.map index_key)
      (st.indexfile.map index_key ++ merges.flatten.map index_key) := by
  unfold merge
  have hp := merge_head_perm merges []
  rw [List.flatten_nil, List.nil_append] at hp
  refine (merge_loop_keys env geom_map _ _ st ?_ ?_).trans ?_
  · rw [hp.length_eq, List.length_flatten]
  · exact merge_head_nonempty merges [] (by simp)
  · exact List.Perm.append_left _ (hp.map index_key)

theorem ceil_mul_ge (a b : Nat) (hb : 0 < b) : a ≤ (a + b - 1) / b * b := by
  have h1 := Nat.div_add_mod (a + b - 1) b
  have h2 := Nat.mod_lt (a + b - 1) hb
  rw [Nat.mul_comm] at h1
  omega

theorem sort_unit_spec (CPUS page indexpos : Nat) (hpage : 0 < page)
    (hdiv : index_bytes ∣ page) :
    0 < sort_unit CPUS page indexpos ∧ index_bytes ∣ sort_unit CPUS page indexpos := by
  unfold sort_unit
  by_cases h : (sort_unit_capped CPUS indexpos + page - 1) / page * page < page
  · rw [if_pos h]
    exact ⟨hpage, hdiv⟩
  · rw [if_neg h]
    exact ⟨by omega, Dvd.dvd.mul_left hdiv _⟩

theorem flatten_map_perm {α β : Type} (l : List α) (f g : α → List β)
    (h : ∀ a, List.Perm (f a) (g a)) :
    List.Perm (l.map f).flatten (l.map g).flatten := by
  induction l with
  | nil => simp
  | cons a l ih =>
    rw [List.map_cons, List.map_cons, List.flatten_cons, List.flatten_cons]
    exact List.Perm.append (h a) ih

theorem sorted_runs_perm (CPUS page : Nat) (idx : List index) (hpage : 0 < page)
    (hdiv : index_bytes ∣ page) :
    List.Perm (sorted_runs CPUS page idx).flatten idx := by
  obtain ⟨hpos, k, hk⟩ := sort_unit_spec CPUS page (idx.length * index_bytes) hpage hdiv
  unfold sorted_runs
  rw [hk] at hpos ⊢
  have hib : index_bytes = 32 := rfl
  have hkdiv : index_bytes * k / index_bytes = k := by
    rw [hib]; omega
  rw [hkdiv]
  have hkpos : 0 < k := by
    rcases Nat.eq_zero_or_pos k with h | h
    · rw [h] at hpos; simp at hpos
    · exact h
  refine (flatten_map_perm _ _ (fun a => (idx.drop (a * k)).take k)
    (fun a => List.perm_insertionSort _ _)).trans ?_
  have hfun : (fun a => (idx.drop (a * k)).take k) =
      (fun i => (idx.drop ((fun j => j * k) i)).take ((fun j => j * k) (i + 1) -
        (fun j => j * k) i)) := by
    funext i
    have : (i + 1) * k - i * k = k := by
      rw [Nat.succ_mul]; omega
    simp only [this]
  rw [hfun, slices_flatten_take idx (fun j => j * k) _ (by simp)
    (fun i _ => Nat.mul_le_mul_right k (Nat.le_succ i))]
  rw [List.take_of_length_le]
  have h1 := ceil_mul_ge (idx.length * index_bytes) (index_bytes * k) hpos
  show idx.length ≤ (idx.length * index_bytes + index_bytes * k - 1) / (index_bytes * k) * k
  have h2 : (idx.length * index_bytes + index_bytes * k - 1) / (index_bytes * k) *
      (index_bytes * k) =
      (idx.length * index_bytes + index_bytes * k - 1) / (index_bytes * k) * k * index_bytes := by
    rw [Nat.mul_assoc, Nat.mul_comm k index_bytes]
  rw [h2, hib] at h1
  rw [hib]
  omega

theorem modify_at_length {α : Type} (f : α → α) (n : Nat) (l : List α) :
    (modify_at f n l).length = l.length := by
  induction l generalizing n with
  | nil => cases n <;> rfl
  | cons a l ih =>
    cases n with
    | zero => rfl
    | succ n => simp [modify_at, ih]

theorem modify_at_flatMap_perm {α β : Type} (f : α → α) (g : α → List β) (k : β)
    (hf : ∀ a, g (f a) = g a ++ [k]) (n : Nat) (l : List α) (hn : n < l.length) :
    List.Perm ((modify_at f n l).flatMap g) (l.flatMap g ++ [k]) := by
  induction l generalizing n with
  | nil => simp at hn
  | cons a l ih =>
    cases n with
    | zero =>
      simp only [modify_at, List.flatMap_cons, hf]
      rw [List.append_assoc, List.append_assoc]
      exact List.Perm.append_left _ List.perm_append_comm
    | succ n =>
      simp only [modify_at, List.flatMap_cons]
      rw [List.append_assoc]
      exact List.Perm.append_left _ (ih n (by simpa using hn))

theorem bucket_of_lt (pfx splitbits ixv : Nat) (h1 : 1 ≤ splitbits) (h2 : splitbits ≤ 64) :
    bucket_of pfx splitbits ixv < 2 ^ splitbits := by
  unfold bucket_of
  rw [Nat.div_lt_iff_lt_mul (Nat.pos_pow_of_pos _ (by decide))]
  have : 2 ^ splitbits * 2 ^ (64 - splitbits) = 2 ^ 64 := by
    rw [← Nat.pow_add]
    congr 1
    omega
  rw [this]
  exact Nat.mod_lt _ (by decide)

theorem split_entry_keys (geommap : List Nat) (pfx splitbits : Nat) (buckets : List bucket)
    (ix : index) (h : bucket_of pfx splitbits ix.ix < buckets.length) :
    List.Perm ((split_entry geommap pfx splitbits buckets ix).flatMap
        (fun b => b.index.map index_key))
      (buckets.flatMap (fun b => b.index.map index_key) ++ [index_key ix]) ∧
    (split_entry geommap pfx splitbits buckets ix).length = buckets.length := by
  unfold split_entry
  refine ⟨modify_at_flatMap_perm _ _ _ ?_ _ _ h, modify_at_length _ _ _⟩
  intro b
  simp [index_key]

theorem split_entries_keys (geommap : List Nat) (pfx splitbits : Nat) (entries : List index)
    (buckets : List bucket) (h1 : 1 ≤ splitbits) (h2 : splitbits ≤ 64)
    (hlen : buckets.length = 2 ^ splitbits) :
    List.Perm ((entries.foldl (split_entry geommap pfx splitbits) buckets).flatMap
        (fun b => b.index.map index_key))
      (buckets.flatMap (fun b => b.index.map index_key) ++ entries.map index_key) ∧
    (entries.foldl (split_entry geommap pfx splitbits) buckets).length = 2 ^ splitbits := by
  induction entries generalizing buckets with
  | nil => simpa using hlen
  | cons ix rest ih =>
    rw [List.foldl_cons]
    obtain ⟨p1, p2⟩ := split_entry_keys geommap pfx splitbits buckets ix
      (by rw [hlen]; exact bucket_of_lt pfx splitbits ix.ix h1 h2)
    obtain ⟨q1, q2⟩ := ih _ (p2.trans hlen)
    refine ⟨q1.trans ?_, q2⟩
    rw [List.map_cons, ← List.singleton_append (l := List.map index_key rest),
      ← List.append_assoc]
    exact List.Perm.append_right _ p1

theorem flatMap_replicate_nil {α β : Type} (n : Nat) (b : α) (g : α → List β) (h : g b = []) :
    (List.replicate n b).flatMap g = [] := by
  induction n with
  | zero => rfl
  | succ n ih => rw [List.replicate_succ, List.flatMap_cons, h, ih]; rfl

theorem split_inputs_fold_keys (inputs : List file_pair) (pfx splitbits : Nat)
    (buckets : List bucket) (hlen : buckets.length = 2 ^ splitbits)
    (h : ∀ inp ∈ inputs, (1 ≤ splitbits ∧ splitbits ≤ 64) ∨ inp.index = []) :
    List.Perm
      ((inputs.foldl (fun bs inp => inp.index.foldl (split_entry inp.geom pfx splitbits) bs)
        buckets).flatMap (fun b => b.index.map index_key))
      (buckets.flatMap (fun b => b.index.map index_key) ++
        inputs.flatMap (fun inp => inp.index.map index_key)) ∧
    (inputs.foldl (fun bs inp => inp.index.foldl (split_entry inp.geom pfx splitbits) bs)
        buckets).length = 2 ^ splitbits := by
  induction inputs generalizing buckets with
  | nil => simpa using hlen
  | cons inp rest ih =>
    rw [List.foldl_cons]
    have hstep : List.Perm
        ((inp.index.foldl (split_entry inp.geom pfx splitbits) buckets).flatMap
          (fun b => b.index.map index_key))
        (buckets.flatMap (fun b => b.index.map index_key) ++ inp.index.map index_key) ∧
        (inp.index.foldl (split_entry inp.geom pfx splitbits) buckets).length =
          2 ^ splitbits := by
      rcases h inp (List.mem_cons_self _ _) with ⟨h1, h2⟩ | h0
      · exact split_entries_keys inp.geom pfx splitbits inp.index buckets h1 h2 hlen
      · rw [h0]; simpa using hlen
    obtain ⟨q1, q2⟩ := ih _ hstep.2 (fun i hi => h i (List.mem_cons_of_mem _ hi))
    refine ⟨q1.trans ?_, q2⟩
    rw [List.flatMap_cons, ← List.append_assoc]
    exact List.Perm.append_right _ hstep.1

theorem split_inputs_keys (inputs : List file_pair) (pfx splitbits : Nat)
    (h : ∀ inp ∈ inputs, (1 ≤ splitbits ∧ splitbits ≤ 64) ∨ inp.index = []) :
    List.Perm ((split_inputs inputs pfx splitbits).flatMap (fun b => b.index.map index_key))
      (inputs.flatMap (fun inp => inp.index.map index_key)) := by
  unfold split_inputs
  have := (split_inputs_fold_keys inputs pfx splitbits
    (List.replicate (2 ^ splitbits) ⟨[], [], 0⟩) (List.length_replicate _ _) h).1
  rw [flatMap_replicate_nil _ _ _ rfl, List.nil_append] at this
  exact this

theorem radix_bucket_keys {F : Type} (env : sort_env F) (hpage : 0 < env.page)
    (hdiv : index_bytes ∣ env.page)
    (recurse : List file_pair → Nat → Int → sort_state F → Option (sort_state F))
    (hrec : ∀ inputs pfx splits st st', recurse inputs pfx splits st = some st' →
      List.Perm (st'.indexfile.map index_key)
        (st.indexfile.map index_key ++ inputs.flatMap (fun inp => inp.index.map index_key)))
    (pfx splitbits : Nat) (st st' : sort_state F) (b : bucket)
    (h : radix_bucket env recurse pfx splitbits st b = some st') :
    List.Perm (st'.indexfile.map index_key)
      (st.indexfile.map index_key ++ b.index.map index_key) := by
  unfold radix_bucket at h
  split at h
  · split at h
    · injection h with h
      rw [← h]
      exact (merge_keys env _ b.geom st).trans
        (List.Perm.append_left _ ((sorted_runs_perm env.CPUS env.page b.index hpage hdiv).map _))
    · split at h
      · injection h with h
        rw [← h]
        show List.Perm ((b.index.foldl (pass_write env b.geom) st).indexfile.map index_key) _
        rw [pass_write_keys]
      · have := hrec _ _ _ _ _ h
        simpa using this
  · rename_i hempty
    injection h with h
    rw [← h]
    have : b.index = [] := by
      cases hb : b.index with
      | nil => rfl
      | cons a l =>
        rw [hb] at hempty
        simp [index_bytes] at hempty
    rw [this]
    simp

theorem radix_buckets_keys {F : Type} (env : sort_env F) (hpage : 0 < env.page)
    (hdiv : index_bytes ∣ env.page)
    (recurse : List file_pair → Nat → Int → sort_state F → Option (sort_state F))
    (hrec : ∀ inputs pfx splits st st', recurse inputs pfx splits st = some st' →
      List.Perm (st'.indexfile.map index_key)
        (st.indexfile.map index_key ++ inputs.flatMap (fun inp => inp.index.map index_key)))
    (pfx splitbits : Nat) (buckets : List bucket) (st st' : sort_state F)
    (h : buckets.foldlM (radix_bucket env recurse pfx splitbits) st = some st') :
    List.Perm (st'.indexfile.map index_key)
      (st.indexfile.map index_key ++ buckets.flatMap (fun b => b.index.map index_key)) := by
  induction buckets generalizing st with
  | nil =>
    simp only [List.foldlM_nil] at h
    injection h with h
    rw [h]; simp
  | cons b rest ih =>
    rw [List.foldlM_cons] at h
    cases hb : radix_bucket env recurse pfx splitbits st b with
    | none => rw [hb] at h; simp at h
    | some st1 =>
      rw [hb] at h
      have h1 := radix_bucket_keys env hpage hdiv recurse hrec pfx splitbits st st1 b hb
      have h2 := ih st1 h
      refine h2.trans ?_
      rw [List.flatMap_cons, ← List.append_assoc]
      exact List.Perm.append_right _ h1

theorem radix1_keys {F : Type} (env : sort_env F) (hpage : 0 < env.page)
    (hdiv : index_bytes ∣ env.page) (fuel : Nat) :
    ∀ (inputs : List file_pair) (pfx : Nat) (splits : Int) (st st' : sort_state F),
      radix1 env fuel inputs pfx splits st = some st' →
      List.Perm (st'.indexfile.map index_key)
        (st.indexfile.map index_key ++ inputs.flatMap (fun inp => inp.index.map index_key)) := by
  induction fuel with
  | zero =>
    intro inputs pfx splits st st' h
    simp [radix1] at h
  | succ fuel ih =>
    intro inputs pfx splits st st' h
    rw [radix1] at h
    split at h
    · simp at h
    · split at h
      · simp at h
      · rename_i hshift
        have hvalid : ∀ inp ∈ inputs,
            (1 ≤ ilog2 64 splits.toNat ∧ ilog2 64 splits.toNat ≤ 64) ∨ inp.index = [] := by
          intro inp hinp
          by_cases hbits : 1 ≤ ilog2 64 splits.toNat ∧ ilog2 64 splits.toNat ≤ 64
          · exact Or.inl hbits
          · right
            by_contra hne
            apply hshift
            refine ⟨by omega, ?_⟩
            rw [List.any_eq_true]
            refine ⟨inp, hinp, ?_⟩
            cases hi : inp.index with
            | nil => exact absurd hi hne
            | cons a l => rfl
        have := radix_buckets_keys env hpage hdiv (radix1 env fuel) ih pfx _ _ _ _ h
        exact this.trans (List.Perm.append_left _ (split_inputs_keys inputs pfx _ hvalid))

/-! ## Spatial sort: the output is contiguous -/

theorem mismatched_index_append (l : List index) (e : index) (pos : Nat)
    (h1 : mismatched_index l = false) (h2 : ∀ x ∈ l.getLast?, x.end_ = pos)
    (he : e.start = pos) : mismatched_index (l ++ [e]) = false := by
  induction l with
  | nil => rfl
  | cons a l ih =>
    cases l with
    | nil =>
      have ha : a.end_ = pos := h2 a (by simp)
      simp [mismatched_index, he, ha]
    | cons b l =>
      simp only [mismatched_index, Bool.or_eq_false_iff] at h1
      have hrec := ih h1.2 (fun x hx => h2 x (by simpa using hx))
      simp only [List.cons_append, mismatched_index, Bool.or_eq_false_iff]
      exact ⟨h1.1, by simpa using hrec⟩

theorem mismatched_index_false_get (l : List index) (h : mismatched_index l = false) :
    ∀ (i : Nat) (a b : index), l[i]? = some a → l[i + 1]? = some b → b.start = a.end_ := by
  induction l with
  | nil => intro i a b ha; simp at ha
  | cons x l ih =>
    cases l with
    | nil => intro i a b _ hb; simp at hb
    | cons y l =>
      simp only [mismatched_index, Bool.or_eq_false_iff] at h
      intro i a b ha hb
      cases i with
      | zero =>
        simp only [List.getElem?_cons_zero, Option.some.injEq] at ha
        simp only [Nat.zero_add, List.getElem?_cons_succ, List.getElem?_cons_zero,
          Option.some.injEq] at hb
        rw [← ha, ← hb]
        simpa using h.1
      | succ i =>
        simp only [List.getElem?_cons_succ] at ha hb
        exact ih h.2 i a b ha (by simpa using hb)

theorem contiguous_append {F : Type} (st st' : sort_state F) (e : index) (h : Contiguous st)
    (hi : st'.indexfile = st.indexfile ++ [e]) (hs : e.start = st.geompos)
    (hlt : e.start < e.end_) (hp : st'.geompos = e.end_) : Contiguous st' := by
  obtain ⟨h1, h2, h3⟩ := h
  refine ⟨?_, ?_, ?_⟩
  · rw [hi]
    exact mismatched_index_append _ _ _ h1 h3 hs
  · intro x hx
    rw [hi, List.mem_append, List.mem_singleton] at hx
    rcases hx with hx | hx
    · exact h2 x hx
    · rw [hx]; exact hlt
  · intro x hx
    rw [hi, List.getLast?_concat] at hx
    simp only [Option.mem_def, Option.some.injEq] at hx
    rw [← hx, hp]

theorem merge_write_contiguous {F : Type} (env : sort_env F) (geom_map : List Nat)
    (ix : index) (st : sort_state F) (h : Contiguous st) :
    Contiguous (merge_write env geom_map ix st) :=
  contiguous_append st _
    ({ ix with start := st.geompos, end_ := st.geompos + (ix.end_ - ix.start - 1) + 1 } : index)
    h rfl rfl
    (by show st.geompos < st.geompos + (ix.end_ - ix.start - 1) + 1; omega) rfl

theorem pass_write_contiguous {F : Type} (env : sort_env F) (geommap : List Nat)
    (ix : index) (st : sort_state F) (h : Contiguous st) :
    Contiguous (pass_write env geommap st ix) :=
  contiguous_append st _
    ({ ix with start := st.geompos, end_ := st.geompos + (ix.end_ - ix.start) + 1 } : index)
    h rfl rfl
    (by show st.geompos < st.geompos + (ix.end_ - ix.start) + 1; omega) rfl

theorem merge_loop_contiguous {F : Type} (env : sort_env F) (geom_map : List Nat) (n : Nat)
    (head : List (List index)) (st : sort_state F) (h : Contiguous st) :
    Contiguous (merge_loop env geom_map n head st) := by
  induction n generalizing head st with
  | zero => simpa [merge_loop] using h
  | succ n ih =>
    match head with
    | [] => simpa [merge_loop] using h
    | [] :: rest =>
      simp only [merge_loop]
      exact ih rest st h
    | (ix :: m) :: rest =>
      simp only [merge_loop]
      exact ih _ _ (merge_write_contiguous env geom_map ix st h)

theorem pass_fold_contiguous {F : Type} (env : sort_env F) (geommap : List Nat)
    (l : List index) (st : sort_state F) (h : Contiguous st) :
    Contiguous (l.foldl (pass_write env geommap) st) := by
  induction l generalizing st with
  | nil => exact h
  | cons ix rest ih =>
    rw [List.foldl_cons]
    exact ih _ (pass_write_contiguous env geommap ix st h)

theorem contiguous_availfiles {F : Type} (st : sort_state F) (a : Int) (h : Contiguous st) :
    Contiguous { st with availfiles := a } := h

theorem radix_bucket_contiguous {F : Type} (env : sort_env F)
    (recurse : List file_pair → Nat → Int → sort_state F → Option (sort_state F))
    (hrec : ∀ inputs pfx splits st st', recurse inputs pfx splits st = some st' →
      Contiguous st → Contiguous st')
    (pfx splitbits : Nat) (st st' : sort_state F) (b : bucket)
    (h : radix_bucket env recurse pfx splitbits st b = some st') (hc : Contiguous st) :
    Contiguous st' := by
  unfold radix_bucket at h
  split at h
  · split at h
    · injection h with h
      rw [← h]
      exact contiguous_availfiles _ _ (merge_loop_contiguous env b.geom _ _ st hc)
    · split at h
      · injection h with h
        rw [← h]
        exact contiguous_availfiles _ _ (pass_fold_contiguous env b.geom b.index st hc)
      · exact hrec _ _ _ _ _ h hc
  · injection h with h
    rw [← h]
    exact contiguous_availfiles _ _ hc

theorem radix_buckets_contiguous {F : Type} (env : sort_env F)
    (recurse : List file_pair → Nat → Int → sort_state F → Option (sort_state F))
    (hrec : ∀ inputs pfx splits st st', recurse inputs pfx splits st = some st' →
      Contiguous st → Contiguous st')
    (pfx splitbits : Nat) (buckets : List bucket) (st st' : sort_state F)
    (h : buckets.foldlM (radix_bucket env recurse pfx splitbits) st = some st')
    (hc : Contiguous st) : Contiguous st' := by
  induction buckets generalizing st with
  | nil =>
    simp only [List.foldlM_nil] at h
    injection h with h
    rw [← h]; exact hc
  | cons b rest ih =>
    rw [List.foldlM_cons] at h
    cases hb : radix_bucket env recurse pfx splitbits st b with
    | none => rw [hb] at h; simp at h
    | some st1 =>
      rw [hb] at h
      exact ih st1 h (radix_bucket_contiguous env recurse hrec pfx splitbits st st1 b hb hc)

theorem radix1_contiguous {F : Type} (env : sort_env F) (fuel : Nat) :
    ∀ (inputs : List file_pair) (pfx : Nat) (splits : Int) (st st' : sort_state F),
      radix1 env fuel inputs pfx splits st = some st' → Contiguous st → Contiguous st' := by
  induction fuel with
  | zero =>
    intro inputs pfx splits st st' h
    simp [radix1] at h
  | succ fuel ih =>
    intro inputs pfx splits st st' h hc
    rw [radix1] at h
    split at h
    · simp at h
    · split at h
      · simp at h
      · exact radix_buckets_contiguous env (radix1 env fuel) ih pfx _ _ _ _ h
          (contiguous_availfiles st _ hc)

/-! ## Spatial sort: data that fits in memory is sorted without recursion -/

theorem ilog2_le (f n : Nat) : ilog2 f n ≤ f := by
  induction f generalizing n with
  | zero => simp [ilog2]
  | succ f ih =>
    rw [ilog2]
    split
    · have := ih (n / 2); omega
    · omega

theorem ilog2_pos (f n : Nat) (hn : 2 ≤ n) : 1 ≤ ilog2 (f + 1) n := by
  rw [ilog2, if_pos hn]
  omega

theorem sum_map_modify_at_le {α : Type} (f : α → α) (g : α → Nat) (c : Nat)
    (hf : ∀ a, g (f a) ≤ g a + c) (n : Nat) (l : List α) :
    ((modify_at f n l).map g).sum ≤ (l.map g).sum + c := by
  induction l generalizing n with
  | nil => cases n <;> simp [modify_at]
  | cons a l ih =>
    cases n with
    | zero =>
      simp only [modify_at, List.map_cons, List.sum_cons]
      have := hf a
      omega
    | succ n =>
      simp only [modify_at, List.map_cons, List.sum_cons]
      have := ih n
      omega

theorem le_sum_map_of_mem {α : Type} (g : α → Nat) (l : List α) (a : α) (h : a ∈ l) :
    g a ≤ (l.map g).sum := by
  induction l with
  | nil => simp at h
  | cons b l ih =>
    rw [List.map_cons, List.sum_cons]
    rcases List.mem_cons.mp h with h1 | h1
    · rw [h1]; omega
    · have := ih h1; omega

theorem split_entry_size (geommap : List Nat) (pfx splitbits : Nat) (buckets : List bucket)
    (ix : index) :
    ((split_entry geommap pfx splitbits buckets ix).map bucket_size).sum ≤
      (buckets.map bucket_size).sum + (index_bytes + (ix.end_ - ix.start)) := by
  unfold split_entry
  apply sum_map_modify_at_le
  intro b
  simp only [bucket_size, fwrite_check, List.length_append, List.length_take,
    List.length_drop, List.length_singleton]
  have hib : index_bytes = 32 := rfl
  rw [hib]
  omega

theorem split_entries_size (geommap : List Nat) (pfx splitbits : Nat) (entries : List index)
    (buckets : List bucket) :
    ((entries.foldl (split_entry geommap pfx splitbits) buckets).map bucket_size).sum ≤
      (buckets.map bucket_size).sum +
        (entries.map (fun e => index_bytes + (e.end_ - e.start))).sum := by
  induction entries generalizing buckets with
  | nil => simp
  | cons ix rest ih =>
    rw [List.foldl_cons, List.map_cons, List.sum_cons]
    have h1 := ih (split_entry geommap pfx splitbits buckets ix)
    have h2 := split_entry_size geommap pfx splitbits buckets ix
    omega

theorem split_inputs_fold_size (inputs : List file_pair) (pfx splitbits : Nat)
    (buckets : List bucket) :
    ((inputs.foldl (fun bs inp => inp.index.foldl (split_entry inp.geom pfx splitbits) bs)
        buckets).map bucket_size).sum ≤
      (buckets.map bucket_size).sum + total_size inputs := by
  induction inputs generalizing buckets with
  | nil => simp [total_size]
  | cons inp rest ih =>
    rw [List.foldl_cons]
    have h1 := ih (inp.index.foldl (split_entry inp.geom pfx splitbits) buckets)
    have h2 := split_entries_size inp.geom pfx splitbits inp.index buckets
    have h3 : total_size (inp :: rest) =
        (inp.index.map (fun e => index_bytes + (e.end_ - e.start))).sum + total_size rest := by
      simp [total_size]
    omega

theorem split_inputs_size (inputs : List file_pair) (pfx splitbits : Nat) (b : bucket)
    (hb : b ∈ split_inputs inputs pfx splitbits) : bucket_size b ≤ total_size inputs := by
  have h1 := le_sum_map_of_mem bucket_size _ b hb
  have h2 := split_inputs_fold_size inputs pfx splitbits
    (List.replicate (2 ^ splitbits) ⟨[], [], 0⟩)
  have h3 : ((List.replicate (2 ^ splitbits) (⟨[], [], 0⟩ : bucket)).map bucket_size).sum = 0 := by
    rw [List.map_replicate]
    simp [bucket_size]
  unfold split_inputs at h1
  omega

theorem radix_buckets_fit {F : Type} (env : sort_env F)
    (recurse : List file_pair → Nat → Int → sort_state F → Option (sort_state F))
    (pfx splitbits : Nat) (buckets : List bucket) (st : sort_state F)
    (h : ∀ b ∈ buckets, (bucket_size b : Int) < env.mem) :
    ∃ st', buckets.foldlM (radix_bucket env recurse pfx splitbits) st = some st' := by
  induction buckets generalizing st with
  | nil => exact ⟨st, rfl⟩
  | cons b rest ih =>
    rw [List.foldlM_cons]
    have hb := h b (List.mem_cons_self _ _)
    have hsome : ∃ st1, radix_bucket env recurse pfx splitbits st b = some st1 := by
      unfold radix_bucket
      split
      · rw [if_pos (by simpa [bucket_size] using hb)]
        exact ⟨_, rfl⟩
      · exact ⟨_, rfl⟩
    obtain ⟨st1, h1⟩ := hsome
    rw [h1]
    exact ih st1 (fun b hb => h b (List.mem_cons_of_mem _ hb))

theorem radix1_fits {F : Type} (env : sort_env F) (fuel : Nat) (inputs : List file_pair)
    (pfx : Nat) (splits : Int) (st : sort_state F) (hsplits : 2 ≤ splits) (hpfx : pfx < 64)
    (hfit : (total_size inputs : Int) < env.mem) :
    ∃ st', radix1 env (fuel + 1) inputs pfx splits st = some st' := by
  rw [radix1]
  rw [if_neg (by omega)]
  have h1 : 1 ≤ ilog2 64 splits.toNat := ilog2_pos 63 _ (by omega)
  have h2 : ilog2 64 splits.toNat ≤ 64 := ilog2_le 64 _
  rw [if_neg (by
    intro hc
    rcases hc.1 with h | h | h <;> omega)]
  apply radix_buckets_fit
  intro b hb
  have := split_inputs_size inputs pfx _ b hb
  omega

/-! ## Claims about the spatial sort -/

set_option maxRecDepth 100000 in
/-- C1 fails on the code in the pass-through branch.  Two readers each hold
one record with the same key `ix = 1311768467463790320`; the first reader's
record has `seq = 10`, the second reader's `seq = 3`.  Their bucket (64 bytes
of index, 4 of geometry) is never smaller than `mem = 64`, so `radix1` calls
itself until the key bits are used up and then copies the bucket in arrival
order: the output has `seq = 10` before `seq = 3` under the same `ix`.  With
`mem = 128` the same input goes through `qsort` and `merge` and comes out
ordered. -/
theorem radix1_pass_through_unordered :
    (radix1 (sample_env 64) 65
        [⟨[7, 0], [⟨0, 2, 1311768467463790320, 0, 1, 10⟩]⟩,
         ⟨[9, 0], [⟨0, 2, 1311768467463790320, 1, 1, 3⟩]⟩]
        0 371 (sample_state 1486)).map (fun s => s.indexfile.map (fun e => (e.ix, e.seq))) =
      some [(1311768467463790320, 10), (1311768467463790320, 3)] ∧
    (radix1 (sample_env 128) 65
        [⟨[7, 0], [⟨0, 2, 1311768467463790320, 0, 1, 10⟩]⟩,
         ⟨[9, 0], [⟨0, 2, 1311768467463790320, 1, 1, 3⟩]⟩]
        0 371 (sample_state 1486)).map (fun s => s.indexfile.map (fun e => (e.ix, e.seq))) =
      some [(1311768467463790320, 3), (1311768467463790320, 10)] := by
  decide

/-- C2: `radix1` loses and invents nothing.  Whenever it returns, the
`(ix, seq, t, segment)` values of the index entries it wrote are a permutation
of those of all entries of all input index files, so as many entries were
written as were read; and it does return whenever there are at least two
splits and the input is smaller than the memory budget.  (The page size is
positive and a multiple of the record size.) -/
theorem radix1_preserves_entries {F : Type} (env : sort_env F) (hpage : 0 < env.page)
    (hdiv : index_bytes ∣ env.page) (fuel : Nat) (inputs : List file_pair) (pfx : Nat)
    (splits : Int) (st : sort_state F) :
    (∀ st', radix1 env fuel inputs pfx splits st = some st' →
      List.Perm (st'.indexfile.map index_key)
        (st.indexfile.map index_key ++ (inputs.flatMap (fun inp => inp.index)).map index_key) ∧
      st'.indexfile.length =
        st.indexfile.length + (inputs.flatMap (fun inp => inp.index)).length) ∧
    (2 ≤ splits → pfx < 64 → (total_size inputs : Int) < env.mem →
      ∃ st', radix1 env (fuel + 1) inputs pfx splits st = some st') := by
  refine ⟨fun st' h => ?_, fun h1 h2 h3 => radix1_fits env fuel inputs pfx splits st h1 h2 h3⟩
  have hp := radix1_keys env hpage hdiv fuel inputs pfx splits st st' h
  rw [← List.map_flatMap] at hp
  refine ⟨hp, ?_⟩
  have := hp.length_eq
  simpa using this

set_option maxRecDepth 100000 in
/-- Witness for C2: two readers whose records share one key and do not fit in
memory, so that `radix1` recurses and ends in the pass-through branch; both
records are written. -/
theorem radix1_preserves_entries_witness :
    0 < (sample_env 64).page ∧ index_bytes ∣ (sample_env 64).page ∧
    ∃ st', radix1 (sample_env 64) 65
        [⟨[7, 0], [⟨0, 2, 1311768467463790320, 0, 1, 10⟩]⟩,
         ⟨[9, 0], [⟨0, 2, 1311768467463790320, 1, 1, 3⟩]⟩]
        0 371 (sample_state 1486) = some st' ∧
      st'.indexfile.length = 2 := by
  refine ⟨by decide, by decide, ?_⟩
  have hsome : (radix1 (sample_env 64) 65
        [⟨[7, 0], [⟨0, 2, 1311768467463790320, 0, 1, 10⟩]⟩,
         ⟨[9, 0], [⟨0, 2, 1311768467463790320, 1, 1, 3⟩]⟩]
        0 371 (sample_state 1486)).isSome = true := by decide
  obtain ⟨st', hst'⟩ := Option.isSome_iff_exists.mp hsome
  exact ⟨st', hst',
    ((radix1_preserves_entries (sample_env 64) (by decide) (by decide) 65 _ 0 371
      (sample_state 1486)).1 st' hst').2⟩

set_option maxRecDepth 100000 in
/-- C3 fails on the code in the pass-through branch.  One record of three
bytes `7 8 0` (the last byte is the place of `feature_minzoom`) that is alone
in its bucket and not smaller than `mem = 32` is copied whole and the byte for
`feature_minzoom` is appended after it: the output record `7 8 0 0` occupies
`[24, 28)`, four bytes instead of three.  With `mem = 64` the same record goes
through `merge`, which copies all but the last byte: the output record
`7 8 0` occupies `[24, 27)`. -/
theorem radix1_pass_through_longer :
    (radix1 (sample_env 32) 65 [⟨[7, 8, 0], [⟨0, 3, 1311768467463790320, 0, 1, 0⟩]⟩]
        0 371 (sample_state 1486)).map
        (fun s => (s.geomfile, s.indexfile.map (fun e => (e.start, e.end_)))) =
      some ([7, 8, 0, 0], [(24, 28)]) ∧
    (radix1 (sample_env 64) 65 [⟨[7, 8, 0], [⟨0, 3, 1311768467463790320, 0, 1, 0⟩]⟩]
        0 371 (sample_state 1486)).map
        (fun s => (s.geomfile, s.indexfile.map (fun e => (e.start, e.end_)))) =
      some ([7, 8, 0], [(24, 27)]) := by
  decide

/-- C4: after `radix1` (started on contiguous output streams, for instance on
an empty index) the output index is contiguous over the rewritten geometry
stream: no record triggers the "Mismatched index" test, for every `i > 0`
`output[i].start = output[i-1].end`, and every entry has `start < end`; and
`radix1` does return whenever there are at least two splits and the input is
smaller than the memory budget. -/
theorem radix1_output_contiguous {F : Type} (env : sort_env F) (fuel : Nat)
    (inputs : List file_pair) (pfx : Nat) (splits : Int) (st : sort_state F)
    (hst : Contiguous st) :
    (∀ st', radix1 env fuel inputs pfx splits st = some st' →
      mismatched_index st'.indexfile = false ∧
      (∀ (i : Nat) (a b : index), st'.indexfile[i]? = some a →
        st'.indexfile[i + 1]? = some b → b.start = a.end_) ∧
      (∀ e ∈ st'.indexfile, e.start < e.end_)) ∧
    (2 ≤ splits → pfx < 64 → (total_size inputs : Int) < env.mem →
      ∃ st', radix1 env (fuel + 1) inputs pfx splits st = some st') := by
  refine ⟨fun st' h => ?_, fun h1 h2 h3 => radix1_fits env fuel inputs pfx splits st h1 h2 h3⟩
  obtain ⟨c1, c2, _⟩ := radix1_contiguous env fuel inputs pfx splits st st' h hst
  exact ⟨c1, mismatched_index_false_get _ c1, c2⟩

set_option maxRecDepth 100000 in
/-- Witness for C4: three records from two readers, sorted in memory; the
output index is `[24, 27)`, `[27, 29)`, `[29, 31)`. -/
theorem radix1_output_contiguous_witness :
    Contiguous (sample_state 1486) ∧
    ∃ st', radix1 (sample_env 4096) 65
        [⟨[7, 0, 8, 8, 0], [⟨0, 2, 50, 0, 1, 0⟩, ⟨2, 5, 20, 0, 1, 1⟩]⟩,
         ⟨[9, 0], [⟨0, 2, 30, 1, 1, 7⟩]⟩]
        0 371 (sample_state 1486) = some st' ∧
      mismatched_index st'.indexfile = false ∧
      st'.indexfile.map (fun e => (e.start, e.end_)) = [(24, 27), (27, 29), (29, 31)] := by
  have hc : Contiguous (sample_state 1486) := ⟨rfl, by simp [sample_state], by simp [sample_state]⟩
  refine ⟨hc, ?_⟩
  have hsome : (radix1 (sample_env 4096) 65
        [⟨[7, 0, 8, 8, 0], [⟨0, 2, 50, 0, 1, 0⟩, ⟨2, 5, 20, 0, 1, 1⟩]⟩,
         ⟨[9, 0], [⟨0, 2, 30, 1, 1, 7⟩]⟩]
        0 371 (sample_state 1486)).map (fun s => s.indexfile.map (fun e => (e.start, e.end_))) =
      some [(24, 27), (27, 29), (29, 31)] := by decide
  obtain ⟨st', hst', hmap⟩ := Option.map_eq_some'.mp hsome
  exact ⟨st', hst',
    ((radix1_output_contiguous (sample_env 4096) 65 _ 0 371 (sample_state 1486) hc).1 st'
      hst').1, hmap⟩

/-! ## Pool merge -/

theorem pool_bytes_length (r : memfile) (h : memfile_ok r) :
    (pool_bytes r).length = if r.fp_open = false then r.map.length else r.off := by
  unfold pool_bytes
  by_cases hf : r.fp_open = false
  · rw [if_pos hf, if_pos hf]
  · rw [if_neg hf, if_neg hf, List.length_take]
    have := (h (by simpa using hf)).2
    omega

theorem merge_pool_step_spec (st : pool_state) (i : Nat) (r : memfile) (h : memfile_ok r) :
    (merge_pool_step st i r).poolfile = st.poolfile ++ pool_bytes r ∧
    (merge_pool_step st i r).poolpos = st.poolpos + (pool_bytes r).length ∧
    (merge_pool_step st i r).pool_off = Function.update st.pool_off i st.poolpos := by
  have hl := pool_bytes_length r h
  by_cases hf : r.fp_open = false
  · rw [if_pos hf] at hl
    refine ⟨?_, ?_, ?_⟩
    · rw [merge_pool_step, if_pos hf, pool_bytes, if_pos hf]
    · rw [hl, merge_pool_step, if_pos hf]
    · rw [merge_pool_step, if_pos hf]
  · rw [if_neg hf] at hl
    refine ⟨?_, ?_, ?_⟩
    · rw [merge_pool_step, if_neg hf, pool_bytes, if_neg hf]
    · rw [hl, merge_pool_step, if_neg hf]
    · rw [merge_pool_step, if_neg hf]

theorem merge_pools_spec (readers : List memfile) (i : Nat) (st : pool_state)
    (h : ∀ r ∈ readers, memfile_ok r) :
    (merge_pools readers i st).poolfile = st.poolfile ++ (readers.map pool_bytes).flatten ∧
    (merge_pools readers i st).poolpos =
      st.poolpos + ((readers.map pool_bytes).flatten).length ∧
    (∀ j, j < i → (merge_pools readers i st).pool_off j = st.pool_off j) ∧
    (∀ k, k < readers.length → (merge_pools readers i st).pool_off (i + k) =
      st.poolpos + (((readers.take k).map pool_bytes).flatten).length) := by
  induction readers generalizing i st with
  | nil =>
    refine ⟨by simp [merge_pools], by simp [merge_pools], fun j _ => rfl, fun k hk => ?_⟩
    simp at hk
  | cons r rest ih =>
    obtain ⟨s1, s2, s3⟩ := merge_pool_step_spec st i r (h r (List.mem_cons_self _ _))
    obtain ⟨h1, h2, h3, h4⟩ := ih (i + 1) (merge_pool_step st i r)
      (fun x hx => h x (List.mem_cons_of_mem _ hx))
    rw [merge_pools]
    refine ⟨?_, ?_, ?_, ?_⟩
    · rw [h1, s1, List.map_cons, List.flatten_cons, List.append_assoc]
    · rw [h2, s2, List.map_cons, List.flatten_cons, List.length_append]
      omega
    · intro j hj
      rw [h3 j (by omega), s3, Function.update_noteq (by omega)]
    · intro k hk
      cases k with
      | zero =>
        show (merge_pools rest (i + 1) (merge_pool_step st i r)).pool_off i = _
        rw [h3 i (by omega), s3, Function.update_same]
        simp
      | succ k =>
        have := h4 k (by simpa using hk)
        rw [show i + (k + 1) = i + 1 + k by omega, this, s2, List.take_succ_cons,
          List.map_cons, List.flatten_cons, List.length_append]
        omega

theorem flatten_getElem?_of_take {α : Type} (L : List (List α)) (i k : Nat) (r : List α)
    (hi : L[i]? = some r) (hk : k < r.length) :
    L.flatten[((L.take i).flatten).length + k]? = r[k]? := by
  induction L generalizing i with
  | nil => simp at hi
  | cons a L ih =>
    cases i with
    | zero =>
      simp only [List.getElem?_cons_zero, Option.some.injEq] at hi
      subst hi
      simp only [List.take_zero, List.flatten_nil, List.length_nil, Nat.zero_add,
        List.flatten_cons]
      rw [List.getElem?_append_left hk]
    | succ i =>
      simp only [List.getElem?_cons_succ] at hi
      rw [List.take_succ_cons, List.flatten_cons, List.flatten_cons, List.length_append,
        Nat.add_assoc, List.getElem?_append_right (by omega)]
      rw [show a.length + ((List.take i L).flatten.length + k) - a.length =
        (List.take i L).flatten.length + k by omega]
      exact ih i hi

/-- C11: the pool merge of `read_input` produces base offsets that are the
prefix sums of the pool sizes in worker order (`pool_off[0] = 0`,
`pool_off[i+1] = pool_off[i] + size(pool i)`), and the merged pool is the
concatenation of the worker pools, so `merged[pool_off[i] + k] = pool_i[k]`
for every worker `i` and every `k < size(pool i)`, whether a pool is still in
memory or has spilled to its file. -/
theorem pool_merge_offsets (readers : List memfile) (h : ∀ r ∈ readers, memfile_ok r) :
    (merge_pools readers 0 ⟨[], 0, fun _ => 0⟩).poolfile = (readers.map pool_bytes).flatten ∧
    (merge_pools readers 0 ⟨[], 0, fun _ => 0⟩).poolpos =
      (merge_pools readers 0 ⟨[], 0, fun _ => 0⟩).poolfile.length ∧
    (merge_pools readers 0 ⟨[], 0, fun _ => 0⟩).pool_off 0 = 0 ∧
    (∀ i r, readers[i]? = some r → i + 1 < readers.length →
      (merge_pools readers 0 ⟨[], 0, fun _ => 0⟩).pool_off (i + 1) =
        (merge_pools readers 0 ⟨[], 0, fun _ => 0⟩).pool_off i + (pool_bytes r).length) ∧
    (∀ i, i < readers.length →
      (merge_pools readers 0 ⟨[], 0, fun _ => 0⟩).pool_off i =
        (((readers.take i).map pool_bytes).flatten).length) ∧
    (∀ i r k, readers[i]? = some r → k < (pool_bytes r).length →
      (merge_pools readers 0 ⟨[], 0, fun _ => 0⟩).poolfile[
        (merge_pools readers 0 ⟨[], 0, fun _ => 0⟩).pool_off i + k]? = (pool_bytes r)[k]?) := by
  obtain ⟨h1, h2, _, h4⟩ := merge_pools_spec readers 0 ⟨[], 0, fun _ => 0⟩ h
  simp only [List.nil_append, Nat.zero_add] at h1 h2 h4
  have hoff : ∀ i, i < readers.length →
      (merge_pools readers 0 ⟨[], 0, fun _ => 0⟩).pool_off i =
        (((readers.take i).map pool_bytes).flatten).length := h4
  refine ⟨h1, by rw [h2, h1], ?_, ?_, hoff, ?_⟩
  · cases readers with
    | nil => rfl
    | cons r rest => rw [hoff 0 (by simp)]; simp
  · intro i r hi hnext
    have hlt : i < readers.length := by omega
    rw [hoff i hlt, hoff (i + 1) hnext]
    have hget : readers[i] = r := by
      rw [List.getElem?_eq_getElem hlt] at hi
      exact Option.some.inj hi
    rw [List.take_succ, List.getElem?_eq_getElem hlt, hget]
    simp
  · intro i r k hi hk
    have hlt : i < readers.length := by
      rcases Nat.lt_or_ge i readers.length with hlt | hge
      · exact hlt
      · rw [List.getElem?_eq_none hge] at hi
        exact absurd hi (by simp)
    rw [hoff i hlt, h1]
    have hi2 : (readers.map pool_bytes)[i]? = some (pool_bytes r) := by
      rw [List.getElem?_map, hi]; rfl
    have := flatten_getElem?_of_take (readers.map pool_bytes) i k (pool_bytes r) hi2 hk
    rw [← List.map_take] at this
    exact this

theorem pool_merge_offsets_witness :
    (∀ r ∈ sample_pools, memfile_ok r) ∧
    (merge_pools sample_pools 0 ⟨[], 0, fun _ => 0⟩).poolfile = [1, 2, 3, 4, 5, 6] ∧
    (merge_pools sample_pools 0 ⟨[], 0, fun _ => 0⟩).pool_off 1 = 2 ∧
    (merge_pools sample_pools 0 ⟨[], 0, fun _ => 0⟩).pool_off 2 = 5 :=
  ⟨by decide,
    (pool_merge_offsets sample_pools (by decide)).1.trans (by decide),
    ((pool_merge_offsets sample_pools (by decide)).2.2.2.2.1 1 (by decide)).trans (by decide),
    ((pool_merge_offsets sample_pools (by decide)).2.2.2.2.1 2 (by decide)).trans (by decide)⟩

/-! ## Shared vertices and shared nodes -/

/-- C12: the vertex scan of `read_input` emits a node for the first vertex of
the stream when its `mid` is the point (0, 0) of the placeholder `prev` and a
neighbour differs from (0, 0): a stream of one vertex, which has no two
adjacent vertices, yields one node (for every `geometry_scale` and every
`encode_vertex`), and that node reaches `shared_nodes`. -/
theorem vertex_scan_placeholder_node :
    (∀ (geometry_scale : Nat) (encode_vertex : Nat → Nat → Nat),
      vertex_scan geometry_scale encode_vertex vertex_placeholder
        [⟨⟨0, 0⟩, ⟨1, 1⟩, ⟨2, 2⟩⟩] = [encode_vertex 0 0]) ∧
    (shared_nodes_of 0 (fun x y => x * 2 ^ 32 + y) [[]]
      [⟨⟨0, 0⟩, ⟨1, 1⟩, ⟨2, 2⟩⟩]).shared_nodes = [0] := by
  refine ⟨fun geometry_scale encode_vertex => ?_, by decide⟩
  simp [vertex_scan, vertex_placeholder]

/-- C13: the node scan of `read_input` drops the largest index: a sorted input
holding only `ULONG_MAX` (once or twice) leaves `shared_nodes` empty, because
`written.index` starts as `ULONG_MAX`; after a smaller index the same value is
written. -/
theorem node_scan_drops_ulong_max :
    (node_scan bloom_bytes [ULONG_MAX]).shared_nodes = [] ∧
    (node_scan bloom_bytes [ULONG_MAX, ULONG_MAX]).shared_nodes = [] ∧
    (node_scan bloom_bytes [5, ULONG_MAX]).shared_nodes = [5, ULONG_MAX] := by
  decide

theorem bloom_set_keeps (bloom : Nat → Nat) (size idx i j : Nat)
    (h : (bloom i).testBit j = true) (hj : j < 8) :
    (bloom_set bloom size idx i).testBit j = true := by
  unfold bloom_set
  by_cases hi : i = (idx % (size * 8)) >>> 3
  · subst hi
    rw [Function.update_same, show (256 : Nat) = 2 ^ 8 from rfl, Nat.testBit_mod_two_pow,
      Nat.testBit_or, h]
    simp [hj]
  · rw [Function.update_noteq hi]
    exact h

theorem bloom_set_sets (bloom : Nat → Nat) (size idx : Nat) :
    (bloom_set bloom size idx ((idx % (size * 8)) >>> 3)).testBit
      ((idx % (size * 8)) &&& 7) = true := by
  unfold bloom_set
  have hj : (idx % (size * 8)) &&& 7 < 8 := Nat.lt_succ_of_le Nat.and_le_right
  rw [Function.update_same, show (256 : Nat) = 2 ^ 8 from rfl, Nat.testBit_mod_two_pow,
    Nat.testBit_or, Nat.testBit_mod_two_pow, Nat.one_shiftLeft, Nat.testBit_two_pow_self]
  simp [hj]

theorem node_scan_foldl_bloom (size : Nat) (nodes : List Nat) (st : node_scan_state)
    (hst : ∀ k ∈ st.shared_nodes, bloom_contains st.bloom (size * 8) k = true) :
    ∀ k ∈ (nodes.foldl (node_scan_step size) st).shared_nodes,
      bloom_contains (nodes.foldl (node_scan_step size) st).bloom (size * 8) k = true := by
  induction nodes generalizing st with
  | nil => exact hst
  | cons here rest ih =>
    rw [List.foldl_cons]
    apply ih
    unfold node_scan_step
    by_cases hw : here ≠ st.written
    · rw [if_pos hw]
      intro k hk
      rcases List.mem_append.mp hk with hk | hk
      · exact bloom_set_keeps _ _ _ _ _ (hst k hk) (Nat.lt_succ_of_le Nat.and_le_right)
      · rw [List.mem_singleton.mp hk]
        exact bloom_set_sets _ _ _
    · rw [if_neg hw]
      exact hst

/-- C14 (as stated): with the table taken to have 34,567,891 bits, the key
34567891, which the node scan writes to `shared_nodes`, is reported absent:
the scan sets bit `key % (34567891 * 8)`, the test looks at bit
`key % 34567891 = 0`. -/
theorem bloom_false_negative_with_byte_count :
    34567891 ∈ (node_scan bloom_bytes [34567891]).shared_nodes ∧
    bloom_contains (node_scan bloom_bytes [34567891]).bloom 34567891 34567891 = false := by
  decide

/-- C14 (amended): the Bloom table has no false negatives when its
34,567,891 bytes are taken as 34,567,891 * 8 bits: after the node scan of any
input, for every node written to `shared_nodes` the bit `key % (34567891 * 8)`
is set, so the membership test with that rule reports it present. -/
theorem bloom_no_false_negatives (nodes : List Nat) (k : Nat) :
    k ∈ (node_scan bloom_bytes nodes).shared_nodes →
    bloom_contains (node_scan bloom_bytes nodes).bloom (34567891 * 8) k = true := by
  intro hk
  exact node_scan_foldl_bloom bloom_bytes nodes ⟨[], fun _ => 0, ULONG_MAX⟩
    (fun k hk => absurd hk (List.not_mem_nil k)) k hk

theorem bloom_no_false_negatives_witness :
    7 ∈ (node_scan bloom_bytes [7, 7, 9]).shared_nodes ∧
    bloom_contains (node_scan bloom_bytes [7, 7, 9]).bloom (34567891 * 8) 7 = true :=
  ⟨by decide, bloom_no_false_negatives [7, 7, 9] 7 (by decide)⟩

/-! ## `choose_first_zoom` -/

theorem merge_bbox_fold (readers : List bbox) (fb : bbox) :
    (readers.foldl merge_bbox fb).b0 = (readers.map (fun r => r.b0)).foldl min fb.b0 ∧
    (readers.foldl merge_bbox fb).b1 = (readers.map (fun r => r.b1)).foldl min fb.b1 ∧
    (readers.foldl merge_bbox fb).b2 = (readers.map (fun r => r.b2)).foldl max fb.b2 ∧
    (readers.foldl merge_bbox fb).b3 = (readers.map (fun r => r.b3)).foldl max fb.b3 := by
  induction readers generalizing fb with
  | nil => exact ⟨rfl, rfl, rfl, rfl⟩
  | cons r rest ih =>
    obtain ⟨h0, h1, h2, h3⟩ := ih (merge_bbox fb r)
    simp only [List.foldl_cons, List.map_cons]
    rw [h0, h1, h2, h3]
    have e0 : (merge_bbox fb r).b0 = min fb.b0 r.b0 := by
      show (if r.b0 < fb.b0 then r.b0 else fb.b0) = _
      split <;> omega
    have e1 : (merge_bbox fb r).b1 = min fb.b1 r.b1 := by
      show (if r.b1 < fb.b1 then r.b1 else fb.b1) = _
      split <;> omega
    have e2 : (merge_bbox fb r).b2 = max fb.b2 r.b2 := by
      show (if r.b2 > fb.b2 then r.b2 else fb.b2) = _
      split <;> omega
    have e3 : (merge_bbox fb r).b3 = max fb.b3 r.b3 := by
      show (if r.b3 > fb.b3 then r.b3 else fb.b3) = _
      split <;> omega
    rw [e0, e1, e2, e3]
    exact ⟨rfl, rfl, rfl, rfl⟩

theorem merge_bbox_fold_bounds (readers : List bbox) (fb : bbox) :
    (readers.foldl merge_bbox fb).b0 ≤ fb.b0 ∧ (readers.foldl merge_bbox fb).b1 ≤ fb.b1 ∧
    fb.b2 ≤ (readers.foldl merge_bbox fb).b2 ∧ fb.b3 ≤ (readers.foldl merge_bbox fb).b3 := by
  induction readers generalizing fb with
  | nil => exact ⟨le_refl _, le_refl _, le_refl _, le_refl _⟩
  | cons r rest ih =>
    obtain ⟨h0, h1, h2, h3⟩ := ih (merge_bbox fb r)
    simp only [List.foldl_cons]
    have e0 : (merge_bbox fb r).b0 ≤ fb.b0 := by
      show (if r.b0 < fb.b0 then r.b0 else fb.b0) ≤ _
      split <;> omega
    have e1 : (merge_bbox fb r).b1 ≤ fb.b1 := by
      show (if r.b1 < fb.b1 then r.b1 else fb.b1) ≤ _
      split <;> omega
    have e2 : fb.b2 ≤ (merge_bbox fb r).b2 := by
      show _ ≤ (if r.b2 > fb.b2 then r.b2 else fb.b2)
      split <;> omega
    have e3 : fb.b3 ≤ (merge_bbox fb r).b3 := by
      show _ ≤ (if r.b3 > fb.b3 then r.b3 else fb.b3)
      split <;> omega
    exact ⟨by omega, by omega, by omega, by omega⟩

theorem clamp_bbox_spec (b : bbox) :
    (b.b0 < 0 ∨ b.b2 > 2 ^ 32 - 1 → (clamp_bbox b).b0 = 0 ∧ (clamp_bbox b).b2 = 2 ^ 32 - 1) ∧
    (¬ (b.b0 < 0 ∨ b.b2 > 2 ^ 32 - 1) →
      (clamp_bbox b).b0 = b.b0 ∧ (clamp_bbox b).b2 = b.b2) ∧
    (clamp_bbox b).b1 = max b.b1 0 ∧
    (clamp_bbox b).b3 = min b.b3 (2 ^ 32 - 1) := by
  obtain ⟨b0, b1, b2, b3⟩ := b
  unfold clamp_bbox
  dsimp only
  refine ⟨?_, ?_, ?_, ?_⟩
  · intro h
    split_ifs <;> (try dsimp only at *) <;> constructor <;> omega
  · intro h
    split_ifs <;> (try dsimp only at *) <;> constructor <;> omega
  · split_ifs <;> (try dsimp only at *) <;> omega
  · split_ifs <;> (try dsimp only at *) <;> omega

/-- C16 (as stated): the merged box `(10, -5, 20, 30)` has `file_bbox[0] >= 0`
and `file_bbox[2] <= 2^32-1`, so the horizontal test does not fire, and yet
the box is not left unchanged: the vertical clamp, which is applied in every
case, raises `file_bbox[1]` from -5 to 0. -/
theorem vertical_clamp_without_horizontal :
    [(⟨10, -5, 20, 30⟩ : bbox)].foldl merge_bbox initial_bbox = ⟨10, -5, 20, 30⟩ ∧
    ¬ ((10 : Int) < 0 ∨ (20 : Int) > 2 ^ 32 - 1) ∧
    (choose_first_zoom initial_bbox [⟨10, -5, 20, 30⟩] (0, 0, 0) 14 5).1 = ⟨10, 0, 20, 30⟩ ∧
    (choose_first_zoom initial_bbox [⟨10, -5, 20, 30⟩] (0, 0, 0) 14 5).1 ≠
      [(⟨10, -5, 20, 30⟩ : bbox)].foldl merge_bbox initial_bbox := by
  decide

/-- C16 (amended): in `choose_first_zoom` the per-reader boxes are merged by
component-wise min of the mins and max of the maxes; then, if `file_bbox[0] < 0`
or `file_bbox[2] > 2^32-1`, the horizontal extent becomes exactly `[0, 2^32-1]`
and otherwise the horizontal extent is unchanged; the vertical extent is
clamped to `[0, 2^32-1]` in every case, whether or not the horizontal test
fires (`file_bbox[1]` becomes `max(file_bbox[1], 0)`, `file_bbox[3]` becomes
`min(file_bbox[3], 2^32-1)`), so the merged box is unchanged only if nothing
is out of range; and starting from the initial box
`{UINT_MAX, UINT_MAX, 0, 0}` all four results lie in `[0, 2^32-1]`. -/
theorem choose_first_zoom_bbox (file_bbox : bbox) (readers : List bbox)
    (out : Nat × Nat × Nat) (minzoom buffer : Int) :
    (choose_first_zoom file_bbox readers out minzoom buffer).1 =
      clamp_bbox (readers.foldl merge_bbox file_bbox) ∧
    ((readers.foldl merge_bbox file_bbox).b0 =
        (readers.map (fun r => r.b0)).foldl min file_bbox.b0 ∧
      (readers.foldl merge_bbox file_bbox).b1 =
        (readers.map (fun r => r.b1)).foldl min file_bbox.b1 ∧
      (readers.foldl merge_bbox file_bbox).b2 =
        (readers.map (fun r => r.b2)).foldl max file_bbox.b2 ∧
      (readers.foldl merge_bbox file_bbox).b3 =
        (readers.map (fun r => r.b3)).foldl max file_bbox.b3) ∧
    (∀ m : bbox, m = readers.foldl merge_bbox file_bbox →
      (m.b0 < 0 ∨ m.b2 > 2 ^ 32 - 1 →
        (clamp_bbox m).b0 = 0 ∧ (clamp_bbox m).b2 = 2 ^ 32 - 1) ∧
      (¬ (m.b0 < 0 ∨ m.b2 > 2 ^ 32 - 1) →
        (clamp_bbox m).b0 = m.b0 ∧ (clamp_bbox m).b2 = m.b2) ∧
      (clamp_bbox m).b1 = max m.b1 0 ∧
      (clamp_bbox m).b3 = min m.b3 (2 ^ 32 - 1) ∧
      (0 ≤ m.b0 → m.b2 ≤ 2 ^ 32 - 1 → 0 ≤ m.b1 → m.b3 ≤ 2 ^ 32 - 1 → clamp_bbox m = m)) ∧
    (file_bbox = initial_bbox →
      ∀ c : bbox, c = (choose_first_zoom file_bbox readers out minzoom buffer).1 →
        (0 ≤ c.b0 ∧ c.b0 ≤ 2 ^ 32 - 1) ∧ (0 ≤ c.b1 ∧ c.b1 ≤ 2 ^ 32 - 1) ∧
        (0 ≤ c.b2 ∧ c.b2 ≤ 2 ^ 32 - 1) ∧ (0 ≤ c.b3 ∧ c.b3 ≤ 2 ^ 32 - 1)) := by
  refine ⟨rfl, merge_bbox_fold readers file_bbox, ?_, ?_⟩
  · intro m _
    obtain ⟨h1, h2, h3, h4⟩ := clamp_bbox_spec m
    refine ⟨h1, h2, h3, h4, ?_⟩
    intro g0 g2 g1 g3
    have e := h2 (by omega)
    have : ∀ a b : bbox, a.b0 = b.b0 → a.b1 = b.b1 → a.b2 = b.b2 → a.b3 = b.b3 → a = b := by
      intro a b
      cases a
      cases b
      simp only [bbox.mk.injEq]
      exact fun p q r t => ⟨p, q, r, t⟩
    exact this _ _ e.1 (by rw [h3]; omega) e.2 (by rw [h4]; omega)
  · intro hinit c hc
    subst hinit
    obtain ⟨g0, g1, g2, g3⟩ := merge_bbox_fold_bounds readers initial_bbox
    have i0 : initial_bbox.b0 = 2 ^ 32 - 1 := rfl
    have i1 : initial_bbox.b1 = 2 ^ 32 - 1 := rfl
    have i2 : initial_bbox.b2 = 0 := rfl
    have i3 : initial_bbox.b3 = 0 := rfl
    rw [i0] at g0
    rw [i1] at g1
    rw [i2] at g2
    rw [i3] at g3
    have hc2 : c = clamp_bbox (readers.foldl merge_bbox initial_bbox) := hc
    obtain ⟨h1, h2, h3, h4⟩ := clamp_bbox_spec (readers.foldl merge_bbox initial_bbox)
    rw [← hc2] at h1 h2 h3 h4
    by_cases hx : (readers.foldl merge_bbox initial_bbox).b0 < 0 ∨
        (readers.foldl merge_bbox initial_bbox).b2 > 2 ^ 32 - 1
    · have e := h1 hx
      refine ⟨by omega, by omega, by omega, by omega⟩
    · have e := h2 hx
      refine ⟨by omega, by omega, by omega, by omega⟩

theorem choose_first_zoom_bbox_witness :
    (choose_first_zoom initial_bbox [⟨-5, 200, 400, 2 ^ 33⟩] (0, 0, 0) 14 5).1 =
      ⟨0, 200, 2 ^ 32 - 1, 2 ^ 32 - 1⟩ ∧
    (0 : Int) ≤ (choose_first_zoom initial_bbox [⟨-5, 200, 400, 2 ^ 33⟩] (0, 0, 0) 14 5).1.b0 :=
  ⟨by decide,
    ((choose_first_zoom_bbox initial_bbox [⟨-5, 200, 400, 2 ^ 33⟩] (0, 0, 0) 14 5).2.2.2
      rfl _ rfl).1.1⟩

theorem first_zoom_loop_none (b : bbox) (buffer : Int) (n : Nat) (out : Nat × Nat × Nat)
    (h : ∀ z, z < n → ¬ single_tile b buffer z) : first_zoom_loop b buffer n out = out := by
  induction n with
  | zero => rfl
  | succ n ih =>
    rw [first_zoom_loop, if_neg (h n (Nat.lt_succ_self n))]
    exact ih (fun z hz => h z (Nat.lt_succ_of_lt hz))

theorem first_zoom_loop_some (b : bbox) (buffer : Int) (n : Nat) (out : Nat × Nat × Nat)
    (z : Nat) (hz : z < n) (hs : single_tile b buffer z)
    (hmax : ∀ y, z < y → y < n → ¬ single_tile b buffer y) :
    first_zoom_loop b buffer n out =
      (z, (tile_low b.b0 buffer z % 2 ^ 32).toNat, (tile_low b.b1 buffer z % 2 ^ 32).toNat) := by
  induction n with
  | zero => omega
  | succ n ih =>
    rw [first_zoom_loop]
    by_cases hzn : z = n
    · subst hzn
      rw [if_pos hs]
    · rw [if_neg (hmax n (by omega) (Nat.lt_succ_self n))]
      exact ih (by omega) (fun y hy hyn => hmax y hy (Nat.lt_succ_of_lt hyn))

theorem tile_axis_contains (lo hi buffer : Int) (z : Nat) (hz : z ≤ 32) (hbuf : 0 ≤ buffer)
    (hlo : 0 ≤ lo) (hlo2 : lo ≤ 2 ^ 32 - 1) (hhi : 0 ≤ hi)
    (heq : tile_low lo buffer z = tile_high hi buffer z) :
    0 ≤ tile_low lo buffer z ∧ tile_low lo buffer z * 2 ^ (32 - z) ≤ lo ∧
    hi < (tile_low lo buffer z + 1) * 2 ^ (32 - z) ∧ tile_low lo buffer z < 2 ^ z := by
  have hS : (0 : Int) < 2 ^ (32 - z) := by positivity
  have hm : 0 ≤ Int.tdiv (buffer * 2 ^ (32 - z)) 256 :=
    Int.tdiv_nonneg (Int.mul_nonneg hbuf (le_of_lt hS)) (by decide)
  have hright : tile_high hi buffer z =
      (hi + Int.tdiv (buffer * 2 ^ (32 - z)) 256) / 2 ^ (32 - z) := by
    unfold tile_high
    exact Int.tdiv_eq_ediv (by omega) (le_of_lt hS)
  have hr0 : 0 ≤ tile_high hi buffer z := by
    rw [hright]
    exact Int.ediv_nonneg (by omega) (le_of_lt hS)
  have hr1 : hi < (tile_high hi buffer z + 1) * 2 ^ (32 - z) := by
    rw [hright]
    have := Int.lt_ediv_add_one_mul_self (hi + Int.tdiv (buffer * 2 ^ (32 - z)) 256) hS
    omega
  have hl1 : tile_low lo buffer z * 2 ^ (32 - z) ≤ lo := by
    by_cases hneg : 0 ≤ lo - Int.tdiv (buffer * 2 ^ (32 - z)) 256
    · have e : tile_low lo buffer z =
          (lo - Int.tdiv (buffer * 2 ^ (32 - z)) 256) / 2 ^ (32 - z) := by
        unfold tile_low
        exact Int.tdiv_eq_ediv hneg (le_of_lt hS)
      rw [e]
      have := Int.ediv_mul_le (lo - Int.tdiv (buffer * 2 ^ (32 - z)) 256) (ne_of_gt hS)
      omega
    · have e : tile_low lo buffer z ≤ 0 := by
        unfold tile_low
        have e1 : lo - Int.tdiv (buffer * 2 ^ (32 - z)) 256 =
            -(Int.tdiv (buffer * 2 ^ (32 - z)) 256 - lo) := by omega
        rw [e1, Int.neg_tdiv]
        have := Int.tdiv_nonneg (a := Int.tdiv (buffer * 2 ^ (32 - z)) 256 - lo)
          (b := 2 ^ (32 - z)) (by omega) (le_of_lt hS)
        omega
      have e0 : tile_low lo buffer z = 0 := by omega
      rw [e0]
      omega
  refine ⟨by omega, hl1, by rw [heq]; exact hr1, ?_⟩
  have hpow : (2 : Int) ^ z * 2 ^ (32 - z) = 2 ^ 32 := by
    rw [← pow_add]
    congr 1
    omega
  have hlt : tile_low lo buffer z * 2 ^ (32 - z) < 2 ^ z * 2 ^ (32 - z) := by
    rw [hpow]
    omega
  exact lt_of_mul_lt_mul_right hlt (le_of_lt hS)

theorem clamp_merge_bounds (file_bbox : bbox) (readers : List bbox)
    (h0 : file_bbox.b0 ≤ 2 ^ 32 - 1) (h1 : file_bbox.b1 ≤ 2 ^ 32 - 1)
    (h2 : 0 ≤ file_bbox.b2) (h3 : 0 ≤ file_bbox.b3) :
    (0 ≤ (clamp_bbox (readers.foldl merge_bbox file_bbox)).b0 ∧
      (clamp_bbox (readers.foldl merge_bbox file_bbox)).b0 ≤ 2 ^ 32 - 1) ∧
    (0 ≤ (clamp_bbox (readers.foldl merge_bbox file_bbox)).b1 ∧
      (clamp_bbox (readers.foldl merge_bbox file_bbox)).b1 ≤ 2 ^ 32 - 1) ∧
    (0 ≤ (clamp_bbox (readers.foldl merge_bbox file_bbox)).b2 ∧
      (clamp_bbox (readers.foldl merge_bbox file_bbox)).b2 ≤ 2 ^ 32 - 1) ∧
    (0 ≤ (clamp_bbox (readers.foldl merge_bbox file_bbox)).b3 ∧
      (clamp_bbox (readers.foldl merge_bbox file_bbox)).b3 ≤ 2 ^ 32 - 1) := by
  obtain ⟨g0, g1, g2, g3⟩ := merge_bbox_fold_bounds readers file_bbox
  obtain ⟨c1, c2, c3, c4⟩ := clamp_bbox_spec (readers.foldl merge_bbox file_bbox)
  by_cases hx : (readers.foldl merge_bbox file_bbox).b0 < 0 ∨
      (readers.foldl merge_bbox file_bbox).b2 > 2 ^ 32 - 1
  · have e := c1 hx
    refine ⟨by omega, by omega, by omega, by omega⟩
  · have e := c2 hx
    refine ⟨by omega, by omega, by omega, by omega⟩

/-- C15 (amended): for every buffer, `choose_first_zoom` selects the largest
`z` in `[0, minzoom]` at which the buffered bounding box falls in a single
tile (`left == right` and `top == bottom`) and outputs
`(iz, ix, iy) = (z, left, top)`; if no `z` qualifies, `iz`, `ix`, `iy` are
left unchanged; and for a buffer that is not negative, `minzoom <= 32` and an
incoming box with `file_bbox[0], file_bbox[1] <= 2^32-1` and
`file_bbox[2], file_bbox[3] >= 0` (as the initial box has), the selected tile
contains the whole clamped bounding box (`ix*2^(32-z) <= file_bbox[0]`,
`file_bbox[2] < (ix+1)*2^(32-z)`, likewise for y) and `ix, iy < 2^z`. -/
theorem choose_first_zoom_spec (file_bbox : bbox) (readers : List bbox)
    (out : Nat × Nat × Nat) (minzoom buffer : Int) (b : bbox)
    (hb : b = (choose_first_zoom file_bbox readers out minzoom buffer).1) :
    ((∀ z : Nat, (z : Int) ≤ minzoom → ¬ single_tile b buffer z) →
      (choose_first_zoom file_bbox readers out minzoom buffer).2 = out) ∧
    (∀ z : Nat, (z : Int) ≤ minzoom → single_tile b buffer z →
      (∀ y : Nat, z < y → (y : Int) ≤ minzoom → ¬ single_tile b buffer y) →
      (choose_first_zoom file_bbox readers out minzoom buffer).2 =
        (z, (tile_low b.b0 buffer z % 2 ^ 32).toNat, (tile_low b.b1 buffer z % 2 ^ 32).toNat) ∧
      (0 ≤ buffer → minzoom ≤ 32 → file_bbox.b0 ≤ 2 ^ 32 - 1 → file_bbox.b1 ≤ 2 ^ 32 - 1 →
        0 ≤ file_bbox.b2 → 0 ≤ file_bbox.b3 →
        ∀ ix iy : Nat, (choose_first_zoom file_bbox readers out minzoom buffer).2 = (z, ix, iy) →
          (ix : Int) = tile_low b.b0 buffer z ∧ (ix : Int) = tile_high b.b2 buffer z ∧
          (iy : Int) = tile_low b.b1 buffer z ∧ (iy : Int) = tile_high b.b3 buffer z ∧
          (ix : Int) * 2 ^ (32 - z) ≤ b.b0 ∧ b.b2 < ((ix : Int) + 1) * 2 ^ (32 - z) ∧
          (iy : Int) * 2 ^ (32 - z) ≤ b.b1 ∧ b.b3 < ((iy : Int) + 1) * 2 ^ (32 - z) ∧
          ix < 2 ^ z ∧ iy < 2 ^ z)) := by
  have hb2 : b = clamp_bbox (readers.foldl merge_bbox file_bbox) := hb
  have hr : (choose_first_zoom file_bbox readers out minzoom buffer).2 =
      first_zoom_loop b buffer (minzoom + 1).toNat out := by
    rw [hb2]
    rfl
  refine ⟨?_, ?_⟩
  · intro hnone
    rw [hr]
    exact first_zoom_loop_none b buffer _ out (fun z hz => hnone z (by omega))
  · intro z hz hs hmax
    have hsel := first_zoom_loop_some b buffer (minzoom + 1).toNat out z (by omega) hs
      (fun y hy hyn => hmax y hy (by omega))
    refine ⟨by rw [hr]; exact hsel, ?_⟩
    intro hbuf hmin h0 h1 h2 h3 ix iy hxy
    rw [hr, hsel] at hxy
    obtain ⟨⟨bx0, bx1⟩, ⟨by0, by1⟩, ⟨bx2, _⟩, ⟨by2, _⟩⟩ :=
      clamp_merge_bounds file_bbox readers h0 h1 h2 h3
    rw [← hb2] at bx0 bx1 by0 by1 bx2 by2
    have hz32 : z ≤ 32 := by omega
    obtain ⟨x0, x1, x2, x3⟩ := tile_axis_contains b.b0 b.b2 buffer z hz32 hbuf bx0 bx1 bx2 hs.1
    obtain ⟨y0, y1, y2, y3⟩ := tile_axis_contains b.b1 b.b3 buffer z hz32 hbuf by0 by1 by2 hs.2
    have hpz : (2 : Int) ^ z ≤ 2 ^ 32 := pow_le_pow_right₀ (by decide) hz32
    have ex : ((tile_low b.b0 buffer z % 2 ^ 32).toNat : Int) = tile_low b.b0 buffer z := by
      rw [Int.emod_eq_of_lt x0 (by omega)]
      exact Int.toNat_of_nonneg x0
    have ey : ((tile_low b.b1 buffer z % 2 ^ 32).toNat : Int) = tile_low b.b1 buffer z := by
      rw [Int.emod_eq_of_lt y0 (by omega)]
      exact Int.toNat_of_nonneg y0
    simp only [Prod.mk.injEq, true_and] at hxy
    obtain ⟨hx, hy⟩ := hxy
    have hix : (ix : Int) = tile_low b.b0 buffer z := by rw [← hx]; exact ex
    have hiy : (iy : Int) = tile_low b.b1 buffer z := by rw [← hy]; exact ey
    refine ⟨hix, by rw [hix]; exact hs.1, hiy, by rw [hiy]; exact hs.2, by rw [hix]; exact x1,
      by rw [hix]; exact x2, by rw [hiy]; exact y1, by rw [hiy]; exact y2, ?_, ?_⟩
    · have : (ix : Int) < 2 ^ z := by rw [hix]; exact x3
      exact_mod_cast this
    · have : (iy : Int) < 2 ^ z := by rw [hiy]; exact y3
      exact_mod_cast this

theorem choose_first_zoom_spec_witness :
    single_tile ⟨3221226472, 2000, 3221228472, 4000⟩ 5 1 ∧
    ¬ single_tile ⟨3221226472, 2000, 3221228472, 4000⟩ 5 2 ∧
    (choose_first_zoom initial_bbox [⟨3221226472, 2000, 3221228472, 4000⟩] (0, 0, 0) 2 5).2 =
      (1, 1, 0) ∧
    ((1 : Nat) : Int) * 2 ^ (32 - 1) ≤ 3221226472 ∧ 1 < 2 ^ 1 :=
  ⟨by decide, by decide,
    ((choose_first_zoom_spec initial_bbox [⟨3221226472, 2000, 3221228472, 4000⟩] (0, 0, 0) 2 5
      ⟨3221226472, 2000, 3221228472, 4000⟩ (by decide)).2 1 (by decide) (by decide)
      (fun y h1 h2 => by
        have e : y = 2 := by omega
        subst e
        decide)).1.trans (by decide),
    (((choose_first_zoom_spec initial_bbox [⟨3221226472, 2000, 3221228472, 4000⟩] (0, 0, 0) 2 5
      ⟨3221226472, 2000, 3221228472, 4000⟩ (by decide)).2 1 (by decide) (by decide)
      (fun y h1 h2 => by
        have e : y = 2 := by omega
        subst e
        decide)).2 (by decide) (by decide) (by decide) (by decide) (by decide) (by decide)
      1 0 (by decide)).2.2.2.2.1,
    (((choose_first_zoom_spec initial_bbox [⟨3221226472, 2000, 3221228472, 4000⟩] (0, 0, 0) 2 5
      ⟨3221226472, 2000, 3221228472, 4000⟩ (by decide)).2 1 (by decide) (by decide)
      (fun y h1 h2 => by
        have e : y = 2 := by omega
        subst e
        decide)).2 (by decide) (by decide) (by decide) (by decide) (by decide) (by decide)
      1 0 (by decide)).2.2.2.2.2.2.2.2.1⟩

/-! ## Guessing maxzoom -/

theorem limit_tile_count_le (exceeds : Nat → Bool) (maxzoom : Int) (n i : Nat)
    (h : (i : Int) + n ≤ maxzoom + 1) : limit_tile_count exceeds maxzoom n i ≤ maxzoom := by
  induction n generalizing i with
  | zero => exact le_refl _
  | succ n ih =>
    rw [limit_tile_count]
    split
    · push_cast at h
      omega
    · apply ih
      push_cast at h ⊢
      omega

theorem guess_maxzoom_finish_bounds (exceeds : Nat → Bool)
    (maxzoom full_detail low_detail minimum_maxzoom minzoom : Int) :
    minimum_maxzoom ≤
      guess_maxzoom_finish exceeds maxzoom full_detail low_detail minimum_maxzoom minzoom ∧
    minzoom ≤
      guess_maxzoom_finish exceeds maxzoom full_detail low_detail minimum_maxzoom minzoom ∧
    (∀ bound : Int, minimum_maxzoom ≤ bound → minzoom ≤ bound →
      (32 - full_detail ≤ bound ∨ 33 - low_detail ≤ bound ∨ (0 ≤ bound ∧ maxzoom ≤ bound)) →
      guess_maxzoom_finish exceeds maxzoom full_detail low_detail minimum_maxzoom minzoom
        ≤ bound) := by
  unfold guess_maxzoom_finish
  dsimp only
  set m1 : Int := if maxzoom < 0 then 0 else maxzoom with hm1
  set m2 : Int := if m1 > 32 - full_detail then 32 - full_detail else m1 with hm2
  set m3 : Int := if m2 > 33 - low_detail then 33 - low_detail else m2 with hm3
  have h4 : limit_tile_count exceeds m3 m3.toNat 1 ≤ m3 := by
    by_cases hneg : m3 < 0
    · have e : m3.toNat = 0 := by omega
      rw [e, limit_tile_count]
    · exact limit_tile_count_le exceeds m3 m3.toNat 1 (by push_cast; omega)
  set m4 : Int := limit_tile_count exceeds m3 m3.toNat 1 with hm4
  have b1 : m1 ≤ max maxzoom 0 := by rw [hm1]; split <;> omega
  have b2 : m2 ≤ 32 - full_detail ∧ m2 ≤ m1 := by rw [hm2]; split <;> omega
  have b3 : m3 ≤ 33 - low_detail ∧ m3 ≤ m2 := by rw [hm3]; split <;> omega
  refine ⟨?_, ?_, ?_⟩
  · split_ifs <;> omega
  · split_ifs <;> omega
  · intro bound g1 g2 g3
    split_ifs <;> omega

/-- C18 (as stated): with `full_detail = 12`, `low_detail = 12`,
`minimum_maxzoom = 22` and `minzoom = 0`, a guess of 14 ends as `maxzoom = 22`,
above `32 - full_detail = 20` and `33 - low_detail = 21`: the raise to
`minimum_maxzoom` comes after the clamps. -/
theorem guessed_maxzoom_above_detail_limit :
    guess_maxzoom_finish (fun _ => false) 14 12 12 22 0 = 22 ∧
    ¬ ((22 : Int) ≤ 32 - 12) ∧ ¬ ((22 : Int) ≤ 33 - 12) := by
  decide

/-- C18 (amended): whenever `read_input` guesses maxzoom, the value it finally
uses is at least `minimum_maxzoom` and at least `minzoom`; it is at most
`32 - full_detail` when `minimum_maxzoom` and `minzoom` are, at most
`33 - low_detail` when `minimum_maxzoom` and `minzoom` are, and at most
`MAX_ZOOM` when `minimum_maxzoom`, `minzoom` and one of the two detail limits
are. -/
theorem guessed_maxzoom_bounds (exceeds : Nat → Bool)
    (maxzoom full_detail low_detail minimum_maxzoom minzoom MAX_ZOOM : Int) :
    minimum_maxzoom ≤
      guess_maxzoom_finish exceeds maxzoom full_detail low_detail minimum_maxzoom minzoom ∧
    minzoom ≤
      guess_maxzoom_finish exceeds maxzoom full_detail low_detail minimum_maxzoom minzoom ∧
    (minimum_maxzoom ≤ 32 - full_detail → minzoom ≤ 32 - full_detail →
      guess_maxzoom_finish exceeds maxzoom full_detail low_detail minimum_maxzoom minzoom
        ≤ 32 - full_detail) ∧
    (minimum_maxzoom ≤ 33 - low_detail → minzoom ≤ 33 - low_detail →
      guess_maxzoom_finish exceeds maxzoom full_detail low_detail minimum_maxzoom minzoom
        ≤ 33 - low_detail) ∧
    (minimum_maxzoom ≤ MAX_ZOOM → minzoom ≤ MAX_ZOOM →
      (32 - full_detail ≤ MAX_ZOOM ∨ 33 - low_detail ≤ MAX_ZOOM) →
      guess_maxzoom_finish exceeds maxzoom full_detail low_detail minimum_maxzoom minzoom
        ≤ MAX_ZOOM) := by
  obtain ⟨h1, h2, h3⟩ :=
    guess_maxzoom_finish_bounds exceeds maxzoom full_detail low_detail minimum_maxzoom minzoom
  refine ⟨h1, h2, ?_, ?_, ?_⟩
  · intro a b
    exact h3 _ a b (Or.inl (le_refl _))
  · intro a b
    exact h3 _ a b (Or.inr (Or.inl (le_refl _)))
  · intro a b c
    rcases c with c | c
    · exact h3 _ a b (Or.inl c)
    · exact h3 _ a b (Or.inr (Or.inl c))

theorem guessed_maxzoom_bounds_witness :
    (3 : Int) ≤ 32 - 12 ∧ (0 : Int) ≤ 32 - 12 ∧
    guess_maxzoom_finish (fun i => decide (10 < i)) 27 12 12 3 0 ≤ 32 - 12 ∧
    guess_maxzoom_finish (fun i => decide (10 < i)) 27 12 12 3 0 = 10 :=
  ⟨by decide, by decide,
    (guessed_maxzoom_bounds (fun i => decide (10 < i)) 27 12 12 3 0 24).2.2.1
      (by decide) (by decide),
    by decide⟩

/-- C17 (as stated): with `count == 0`, `dist_count == 0` and
`minimum_maxzoom = 0` (a single feature, automatic droprate) the guess does
not fall back: the run ends with `EXIT_NODATA`. -/
theorem maxzoom_fallback_exits_at_zero :
    spacing_count [1311768467463790320] = 0 ∧
    guess_maxzoom intOps (spacing_count [1311768467463790320]) 0 0 24 (-1) (0, 0) 0
      (fun _ => false) 12 12 0 = maxzoom_guess.exit_nodata := by
  decide

/-- C17 (amended): when maxzoom is being guessed with `count == 0` and
`dist_count == 0`, the guess falls back for every `minimum_maxzoom` other than
0: the branch chooses `maxzoom = minimum_maxzoom` and sets a negative droprate
to 1 (any other droprate is kept), whatever the spacing statistics are, and
the run goes on; for `minimum_maxzoom > 0` the value finally used is the larger
of `minimum_maxzoom` and `minzoom`. -/
theorem maxzoom_fallback {F : Type} (ops : DoubleOps F) (minimum_maxzoom maxzoom : Int)
    (droprate : F) (spacing : Int × F) (mz : Int) (exceeds : Nat → Bool)
    (full_detail low_detail minzoom : Int) (h : minimum_maxzoom ≠ 0) :
    guess_maxzoom_start ops 0 0 minimum_maxzoom maxzoom droprate spacing mz =
      maxzoom_guess.guessed minimum_maxzoom
        (if ops.lt droprate ops.zero then ops.one else droprate) ∧
    guess_maxzoom ops 0 0 minimum_maxzoom maxzoom droprate spacing mz exceeds
        full_detail low_detail minzoom =
      maxzoom_guess.guessed
        (guess_maxzoom_finish exceeds minimum_maxzoom full_detail low_detail
          minimum_maxzoom minzoom)
        (if ops.lt droprate ops.zero then ops.one else droprate) ∧
    (0 < minimum_maxzoom →
      guess_maxzoom_finish exceeds minimum_maxzoom full_detail low_detail
        minimum_maxzoom minzoom = max minimum_maxzoom minzoom) := by
  have hs : guess_maxzoom_start ops 0 0 minimum_maxzoom maxzoom droprate spacing mz =
      maxzoom_guess.guessed minimum_maxzoom
        (if ops.lt droprate ops.zero then ops.one else droprate) := by
    unfold guess_maxzoom_start
    simp [h]
  refine ⟨hs, ?_, ?_⟩
  · unfold guess_maxzoom
    rw [hs]
  · obtain ⟨h1, h2, h3⟩ := guess_maxzoom_finish_bounds exceeds minimum_maxzoom full_detail
      low_detail minimum_maxzoom minzoom
    intro hpos
    have := h3 (max minimum_maxzoom minzoom) (le_max_left _ _) (le_max_right _ _)
      (Or.inr (Or.inr ⟨by omega, le_max_left _ _⟩))
    omega

theorem maxzoom_fallback_witness :
    (3 : Int) ≠ 0 ∧
    guess_maxzoom intOps (spacing_count [1311768467463790320]) 0 3 24 (-1) (0, 0) 0
      (fun _ => false) 12 12 0 = maxzoom_guess.guessed 3 1 :=
  ⟨by decide,
    (maxzoom_fallback intOps 3 24 (-1) (0, 0) 0 (fun _ => false) 12 12 0
      (by decide)).2.1.trans (by decide)⟩

/-! ## Choosing basezoom -/

theorem basezoom_loop_none (max_count : Nat → Int) (max_features : Int) (n : Nat)
    (basezoom : Int) (h : ∀ z, z < n → ¬ max_count z < max_features) :
    basezoom_loop max_count max_features n basezoom = basezoom := by
  induction n generalizing basezoom with
  | zero => rfl
  | succ n ih =>
    rw [basezoom_loop, if_neg (h n (Nat.lt_succ_self n))]
    exact ih basezoom (fun z hz => h z (Nat.lt_succ_of_lt hz))

theorem basezoom_loop_least (max_count : Nat → Int) (max_features : Int) (n : Nat)
    (basezoom : Int) (z : Nat) (hz : z < n) (hq : max_count z < max_features)
    (hleast : ∀ y, y < z → ¬ max_count y < max_features) :
    basezoom_loop max_count max_features n basezoom = z := by
  induction n generalizing basezoom with
  | zero => omega
  | succ n ih =>
    rw [basezoom_loop]
    by_cases hzn : z = n
    · subst hzn
      rw [if_pos hq]
      exact basezoom_loop_none max_count max_features z _ hleast
    · exact ih _ (by omega)

/-- C19 (as stated): with `max_features = 50000` and densest-tile counts
60000, 50000, 40000 at zooms 0, 1, 2 (and `maxzoom = 14`), the basezoom
chosen is 2, not 1: a count exactly equal to `max_features` does not qualify.
And the zoom picked this way is not always the basezoom: with counts 60000,
55000, 40000, `maxzoom = 1` and `P_BASEZOOM_ABOVE_MAXZOOM` set, the pick is 2
and the basezoom is 1. -/
theorem basezoom_equal_count_not_chosen :
    (∀ (zops : ZoomOps Int) (droprate : Int),
      choose_basezoom intOps zops 2
        (fun z => if z = 0 then 60000 else if z = 1 then 50000 else 40000)
        50000 (-2) 14 false droprate = 2) ∧
    basezoom_loop (fun z => if z = 0 then 60000 else if z = 1 then 55000 else 40000)
      50000 (2 + 1) 2 = 2 ∧
    (∀ (zops : ZoomOps Int) (droprate : Int),
      choose_basezoom intOps zops 2
        (fun z => if z = 0 then 60000 else if z = 1 then 55000 else 40000)
        50000 (-2) 1 true droprate = 1) :=
  ⟨fun _ _ => rfl, rfl, fun _ _ => rfl⟩

/-- C19 (amended): when `basezoom` is negative (to be chosen), the loop of
`read_input` picks the smallest `z` in `[0, MAX_ZOOM]` at which the densest
tile's feature count `max[z].count` is strictly less than `max_features`, and
`MAX_ZOOM` if no zoom qualifies.  This pick is the basezoom whenever it is
not above `maxzoom`; a pick above `maxzoom` is replaced, by `maxzoom` if
`P_BASEZOOM_ABOVE_MAXZOOM` is set, and otherwise by the result of the loop
that works from the other direction. -/
theorem choose_basezoom_spec {F : Type} (ops : DoubleOps F) (zops : ZoomOps F)
    (MAX_ZOOM : Nat) (max_count : Nat → Int) (max_features basezoom maxzoom : Int)
    (prevent_above : Bool) (droprate : F) (h : basezoom < 0) :
    ((∀ z, z ≤ MAX_ZOOM → ¬ max_count z < max_features) →
      basezoom_loop max_count max_features (MAX_ZOOM + 1) MAX_ZOOM = MAX_ZOOM) ∧
    (∀ z, z ≤ MAX_ZOOM → max_count z < max_features →
      (∀ y, y < z → ¬ max_count y < max_features) →
      basezoom_loop max_count max_features (MAX_ZOOM + 1) MAX_ZOOM = z) ∧
    (basezoom_loop max_count max_features (MAX_ZOOM + 1) MAX_ZOOM ≤ maxzoom →
      choose_basezoom ops zops MAX_ZOOM max_count max_features basezoom maxzoom prevent_above
        droprate = basezoom_loop max_count max_features (MAX_ZOOM + 1) MAX_ZOOM) ∧
    (basezoom_loop max_count max_features (MAX_ZOOM + 1) MAX_ZOOM > maxzoom →
      prevent_above = true →
      choose_basezoom ops zops MAX_ZOOM max_count max_features basezoom maxzoom prevent_above
        droprate = maxzoom) ∧
    (basezoom_loop max_count max_features (MAX_ZOOM + 1) MAX_ZOOM > maxzoom →
      prevent_above = false →
      choose_basezoom ops zops MAX_ZOOM max_count max_features basezoom maxzoom prevent_above
        droprate =
      other_direction_loop ops zops max_count max_features
        (other_direction_droprate ops zops max_count maxzoom droprate)
        (maxzoom + 1).toNat 0 0) := by
  refine ⟨?_, ?_, ?_, ?_, ?_⟩
  · intro hnone
    exact basezoom_loop_none _ _ _ _ (fun z hz => hnone z (by omega))
  · intro z hz hq hleast
    exact basezoom_loop_least _ _ _ _ z (by omega) hq hleast
  · intro hle
    have hc : ¬ (basezoom_loop max_count max_features (MAX_ZOOM + 1) MAX_ZOOM > maxzoom ∧
        prevent_above = true) := fun hc => absurd hc.1 (by omega)
    unfold choose_basezoom
    simp only [h, if_true, true_and, hc, if_false]
    rw [if_neg (by omega)]
  · intro hgt hp
    have hc : basezoom_loop max_count max_features (MAX_ZOOM + 1) MAX_ZOOM > maxzoom ∧
        prevent_above = true := ⟨hgt, hp⟩
    unfold choose_basezoom
    simp only [h, if_true, true_and, hc, and_self]
    rw [if_neg (by omega)]
  · intro hgt hp
    have hc : ¬ (basezoom_loop max_count max_features (MAX_ZOOM + 1) MAX_ZOOM > maxzoom ∧
        prevent_above = true) := fun hc => by rw [hp] at hc; exact absurd hc.2 (by decide)
    unfold choose_basezoom
    simp only [h, if_true, true_and, hc, if_false]
    rw [if_pos hgt]

theorem choose_basezoom_spec_witness :
    (-2 : Int) < 0 ∧
    ∀ (zops : ZoomOps Int) (droprate : Int),
      basezoom_loop (fun z => if z = 0 then 60000 else if z = 1 then 49999 else 40000)
        50000 (2 + 1) 2 = ((1 : Nat) : Int) ∧
      choose_basezoom intOps zops 2
        (fun z => if z = 0 then 60000 else if z = 1 then 49999 else 40000)
        50000 (-2) 14 false droprate = 1 :=
  ⟨by decide, fun zops droprate =>
    ⟨(choose_basezoom_spec intOps zops 2
        (fun z => if z = 0 then 60000 else if z = 1 then 49999 else 40000)
        50000 (-2) 14 false droprate (by decide)).2.1 1 (by decide) (by decide)
        (fun y hy => by
          have e : y = 0 := by omega
          subst e
          decide),
      ((choose_basezoom_spec intOps zops 2
        (fun z => if z = 0 then 60000 else if z = 1 then 49999 else 40000)
        50000 (-2) 14 false droprate (by decide)).2.2.1 (by decide)).trans (by decide)⟩⟩

/-! ## Exit code -/

/-- C20: when the tiler's written zoom equals `minzoom` and is less than the
requested `maxzoom` (here `maxzoom = 5`, `minzoom = 3`, `written = 3`),
`read_input` does not return `EXIT_INCOMPLETE` but exits with `EXIT_NODATA`;
with `written = 4` it returns `EXIT_INCOMPLETE`, and with `written = 5` it
returns `ret`. -/
theorem check_written_at_minzoom :
    check_written exit_code.EXIT_SUCCESS 5 3 3 = run_end.exits exit_code.EXIT_NODATA ∧
    check_written exit_code.EXIT_SUCCESS 5 3 4 =
      run_end.returns exit_code.EXIT_INCOMPLETE 4 ∧
    check_written exit_code.EXIT_SUCCESS 5 3 5 = run_end.returns exit_code.EXIT_SUCCESS 5 := by
  decide

/-! ## Shared nodes: what the two scans do guarantee -/

theorem node_scan_foldl_keep (size : Nat) (nodes : List Nat) (st : node_scan_state) (x : Nat)
    (hx : x ∈ st.shared_nodes) : x ∈ (nodes.foldl (node_scan_step size) st).shared_nodes := by
  induction nodes generalizing st with
  | nil => exact hx
  | cons a l ih =>
    rw [List.foldl_cons]
    apply ih
    unfold node_scan_step
    split
    · exact List.mem_append_left _ hx
    · exact hx

theorem node_scan_foldl_complete (size : Nat) (nodes : List Nat) (st : node_scan_state)
    (k : Nat) (hk : k ∈ nodes) :
    k ∈ (nodes.foldl (node_scan_step size) st).shared_nodes ∨ k = st.written := by
  induction nodes generalizing st with
  | nil => exact absurd hk (List.not_mem_nil k)
  | cons here rest ih =>
    rw [List.foldl_cons]
    by_cases hw : here ≠ st.written
    · have hstep : node_scan_step size st here =
          ⟨st.shared_nodes ++ [here], bloom_set st.bloom size here, here⟩ := by
        unfold node_scan_step
        rw [if_pos hw]
      have hin : here ∈ (node_scan_step size st here).shared_nodes := by
        rw [hstep]
        exact List.mem_append_right _ (List.mem_singleton_self here)
      left
      rcases List.mem_cons.mp hk with hkh | hkr
      · rw [hkh]
        exact node_scan_foldl_keep size rest _ here hin
      · rcases ih (node_scan_step size st here) hkr with h1 | h1
        · exact h1
        · rw [hstep] at h1
          rw [h1]
          exact node_scan_foldl_keep size rest _ here hin
    · have hstep : node_scan_step size st here = st := by
        unfold node_scan_step
        rw [if_neg hw]
      rw [hstep]
      rcases List.mem_cons.mp hk with hkh | hkr
      · right
        rw [hkh]
        exact not_not.mp hw
      · exact ih st hkr

theorem node_scan_foldl_sound (size : Nat) (nodes : List Nat) (st : node_scan_state) (k : Nat)
    (hk : k ∈ (nodes.foldl (node_scan_step size) st).shared_nodes) :
    k ∈ st.shared_nodes ∨ k ∈ nodes := by
  induction nodes generalizing st with
  | nil => exact Or.inl hk
  | cons here rest ih =>
    rw [List.foldl_cons] at hk
    rcases ih _ hk with h1 | h1
    · unfold node_scan_step at h1
      split at h1
      · rcases List.mem_append.mp h1 with h2 | h2
        · exact Or.inl h2
        · exact Or.inr (by rw [List.mem_singleton.mp h2]; exact List.mem_cons_self _ _)
      · exact Or.inl h1
    · exact Or.inr (List.mem_cons_of_mem _ h1)

theorem node_scan_foldl_increasing (size : Nat) (nodes : List Nat) (st : node_scan_state)
    (hsorted : nodes.Pairwise (fun a b => a ≤ b))
    (h1 : st.shared_nodes.Pairwise (fun a b => a < b))
    (h2 : ∀ x ∈ st.shared_nodes, x ≤ st.written)
    (h3 : st.shared_nodes ≠ [] → ∀ y ∈ nodes, st.written ≤ y) :
    (nodes.foldl (node_scan_step size) st).shared_nodes.Pairwise (fun a b => a < b) := by
  induction nodes generalizing st with
  | nil => exact h1
  | cons here rest ih =>
    rw [List.foldl_cons]
    obtain ⟨hhead, htail⟩ := List.pairwise_cons.mp hsorted
    by_cases hw : here ≠ st.written
    · have hstep : node_scan_step size st here =
          ⟨st.shared_nodes ++ [here], bloom_set st.bloom size here, here⟩ := by
        unfold node_scan_step
        rw [if_pos hw]
      have hlt : ∀ x ∈ st.shared_nodes, x < here := by
        intro x hx
        have a := h2 x hx
        have b := h3 (List.ne_nil_of_mem hx) here (List.mem_cons_self _ _)
        omega
      apply ih _ htail
      · rw [hstep]
        refine List.pairwise_append.mpr ⟨h1, List.pairwise_singleton _ _, ?_⟩
        intro x hx y hy
        rw [List.mem_singleton.mp hy]
        exact hlt x hx
      · rw [hstep]
        intro x hx
        rcases List.mem_append.mp hx with hx | hx
        · exact le_of_lt (hlt x hx)
        · rw [List.mem_singleton.mp hx]
      · rw [hstep]
        intro _ y hy
        exact hhead y hy
    · have hstep : node_scan_step size st here = st := by
        unfold node_scan_step
        rw [if_neg hw]
      rw [hstep]
      exact ih st htail h1 h2 (fun hne y hy => h3 hne y (List.mem_cons_of_mem _ hy))

/-- The node scan on a sorted input: the output is strictly increasing, holds
only values of the input, and holds every value of the input except possibly
`ULONG_MAX`. -/
theorem node_scan_sorted (size : Nat) (nodes : List Nat)
    (hsorted : nodes.Pairwise (fun a b => a ≤ b)) :
    (node_scan size nodes).shared_nodes.Pairwise (fun a b => a < b) ∧
    (∀ k ∈ (node_scan size nodes).shared_nodes, k ∈ nodes) ∧
    (∀ k ∈ nodes, k ≠ ULONG_MAX → k ∈ (node_scan size nodes).shared_nodes) := by
  refine ⟨?_, ?_, ?_⟩
  · exact node_scan_foldl_increasing size nodes _ hsorted List.Pairwise.nil
      (fun x hx => absurd hx (List.not_mem_nil x)) (fun hne => absurd rfl hne)
  · intro k hk
    rcases node_scan_foldl_sound size nodes _ k hk with h | h
    · exact absurd h (List.not_mem_nil k)
    · exact h
  · intro k hk hne
    rcases node_scan_foldl_complete size nodes ⟨[], fun _ => 0, ULONG_MAX⟩ k hk with h | h
    · exact h
    · exact absurd h hne

theorem vertex_scan_collision (geometry_scale : Nat) (encode_vertex : Nat → Nat → Nat)
    (pre post : List vertex) (a b prev : vertex) (hmid : b.mid = a.mid)
    (hctx : b.p1 ≠ a.p1 ∨ b.p2 ≠ a.p2) :
    encode_vertex ((b.mid.x * 2 ^ geometry_scale) % 2 ^ 32).toNat
        ((b.mid.y * 2 ^ geometry_scale) % 2 ^ 32).toNat ∈
      vertex_scan geometry_scale encode_vertex prev (pre ++ a :: b :: post) := by
  induction pre generalizing prev with
  | nil =>
    have hb : encode_vertex ((b.mid.x * 2 ^ geometry_scale) % 2 ^ 32).toNat
        ((b.mid.y * 2 ^ geometry_scale) % 2 ^ 32).toNat ∈
        vertex_scan geometry_scale encode_vertex a (b :: post) := by
      rw [vertex_scan, if_pos ⟨hmid, hctx⟩]
      exact List.mem_cons_self _ _
    rw [List.nil_append, vertex_scan]
    split
    · exact List.mem_cons_of_mem _ hb
    · exact hb
  | cons v pre ih =>
    rw [List.cons_append, vertex_scan]
    split
    · exact List.mem_cons_of_mem _ (ih v)
    · exact ih v

/-- The three scans in sequence: the key of a `mid` that two adjacent vertices
share with different neighbours reaches `shared_nodes`, unless that key is
`ULONG_MAX`. -/
theorem shared_nodes_of_collision (geometry_scale : Nat) (encode_vertex : Nat → Nat → Nat)
    (f : List Nat) (files : List (List Nat)) (pre post : List vertex) (a b : vertex)
    (hmid : b.mid = a.mid) (hctx : b.p1 ≠ a.p1 ∨ b.p2 ≠ a.p2)
    (hkey : encode_vertex ((b.mid.x * 2 ^ geometry_scale) % 2 ^ 32).toNat
        ((b.mid.y * 2 ^ geometry_scale) % 2 ^ 32).toNat ≠ ULONG_MAX) :
    encode_vertex ((b.mid.x * 2 ^ geometry_scale) % 2 ^ 32).toNat
        ((b.mid.y * 2 ^ geometry_scale) % 2 ^ 32).toNat ∈
      (shared_nodes_of geometry_scale encode_vertex (f :: files)
        (pre ++ a :: b :: post)).shared_nodes := by
  unfold shared_nodes_of
  have h1 := vertex_scan_collision geometry_scale encode_vertex pre post a b
    vertex_placeholder hmid hctx
  have h2 : encode_vertex ((b.mid.x * 2 ^ geometry_scale) % 2 ^ 32).toNat
      ((b.mid.y * 2 ^ geometry_scale) % 2 ^ 32).toNat ∈
      fqsort_nodes (write_nodes (f :: files)
        (vertex_scan geometry_scale encode_vertex vertex_placeholder
          (pre ++ a :: b :: post))) := by
    unfold fqsort_nodes write_nodes
    rw [(List.perm_insertionSort _ _).mem_iff, List.flatten_cons]
    exact List.mem_append_left _ (List.mem_append_right _ h1)
  rcases node_scan_foldl_complete bloom_bytes _ ⟨[], fun _ => 0, ULONG_MAX⟩ _ h2 with h | h
  · exact h
  · exact absurd h hkey

/-- C15 (as stated): with `buffer = -128`, which the command line accepts and
which shrinks the box instead of growing it, the clamped box `[200, 400]` in
both axes is given the tile `(iz, ix, iy) = (24, 1, 1)`, which starts at 256:
`ix * 2^(32-z) <= file_bbox[0]` does not hold, so the selected tile does not
contain the clamped bounding box. -/
theorem choose_first_zoom_shrinking_buffer :
    (choose_first_zoom initial_bbox [⟨200, 200, 400, 400⟩] (0, 0, 0) 24 (-128)).1 =
      ⟨200, 200, 400, 400⟩ ∧
    single_tile ⟨200, 200, 400, 400⟩ (-128) 24 ∧
    (choose_first_zoom initial_bbox [⟨200, 200, 400, 400⟩] (0, 0, 0) 24 (-128)).2 = (24, 1, 1) ∧
    ¬ (((1 : Nat) : Int) * 2 ^ (32 - 24) ≤ 200) := by
  decide

/-! ## GeoJSON features -/

/-- C21: `serialize_geojson_feature` returns 0 and never calls
`serialize_feature` whenever the geometry has no `type` member, the type is
not a string, the type is not one of the enumerated geometry names, or
`coordinates` is missing or not an array; in every other case it calls
`serialize_feature` exactly once and returns its result. -/
theorem serialize_geojson_feature_guard {D V : Type} (env : geojson_env D V) (segment : Nat)
    (seq : Int) (geometry properties id : Option json_object) (layer : Int)
    (tippecanoe : Option json_object) (layername : String) :
    (geometry_accepted env.geometry_names geometry = false →
      (serialize_geojson_feature env segment seq geometry properties id layer tippecanoe
        layername).ret = 0 ∧
      (serialize_geojson_feature env segment seq geometry properties id layer tippecanoe
        layername).calls = []) ∧
    (geometry_accepted env.geometry_names geometry = true →
      (serialize_geojson_feature env segment seq geometry properties id layer tippecanoe
        layername).calls.length = 1 ∧
      ∀ c ∈ (serialize_geojson_feature env segment seq geometry properties id layer tippecanoe
        layername).calls,
        (serialize_geojson_feature env segment seq geometry properties id layer tippecanoe
          layername).ret = env.serialize_feature c.1 c.2) := by
  unfold geometry_accepted serialize_geojson_feature
  cases ht : json_hash_get geometry "type" with
  | none => simp
  | some ty =>
    cases ty with
    | string type_name =>
      cases hc : json_hash_get geometry "coordinates" with
      | none => simp
      | some co =>
        cases co with
        | array coords =>
          by_cases hmem : type_name ∈ env.geometry_names
          · have hlt : ¬ env.geometry_names.indexOf type_name ≥ env.geometry_names.length :=
              not_le.mpr (List.indexOf_lt_length.mpr hmem)
            simp [hmem, hlt]
          · have hge : env.geometry_names.indexOf type_name ≥ env.geometry_names.length :=
              not_lt.mp (fun h => hmem (List.indexOf_lt_length.mp h))
            simp [hmem, hge]
        | null => simp
        | bool b => simp
        | number text => simp
        | string s => simp
        | hash members => simp
    | null => simp
    | bool b => simp
    | number text => simp
    | array a => simp
    | hash members => simp

theorem serialize_geojson_feature_guard_witness :
    geometry_accepted sample_geojson_env.geometry_names
      (some (json_object.hash [("type", json_object.string "Point"),
        ("coordinates", json_object.array [json_object.number "1", json_object.number "2"])]))
      = true ∧
    (serialize_geojson_feature sample_geojson_env 0 0
      (some (json_object.hash [("type", json_object.string "Point"),
        ("coordinates", json_object.array [json_object.number "1", json_object.number "2"])]))
      none none 0 none "layer").calls.length = 1 ∧
    geometry_accepted sample_geojson_env.geometry_names
      (some (json_object.hash [("type", json_object.string "Circle"),
        ("coordinates", json_object.array [])])) = false ∧
    (serialize_geojson_feature sample_geojson_env 0 0
      (some (json_object.hash [("type", json_object.string "Circle"),
        ("coordinates", json_object.array [])]))
      none none 0 none "layer").ret = 0 :=
  ⟨by decide,
    ((serialize_geojson_feature_guard sample_geojson_env 0 0 _ none none 0 none "layer").2
      (by decide)).1,
    by decide,
    ((serialize_geojson_feature_guard sample_geojson_env 0 0 _ none none 0 none "layer").1
      (by decide)).1⟩

/-! ## Opening a text source -/

/-- C22: with two sources that share the layer name `foo`, the plain file
`a.json` and the compressed file `b.json.gz`, `read_input` passes the name
`a.json` to `streamfdopen` when it reads `b.json.gz`, so the compressed source
is opened through `fdopen`, without decompression; read alone, the same file
is opened through `gzdopen`. -/
theorem gz_source_opened_without_gzip :
    stream_name [⟨"foo".toList, "a.json".toList, [], []⟩,
      ⟨"foo".toList, "b.json.gz".toList, [], []⟩] 1 = some "a.json".toList ∧
    open_text_source [⟨"foo".toList, "a.json".toList, [], []⟩,
      ⟨"foo".toList, "b.json.gz".toList, [], []⟩] 1 = some stream_kind.fp ∧
    streamfdopen "b.json.gz".toList = stream_kind.gz ∧
    open_text_source [⟨"foo".toList, "b.json.gz".toList, [], []⟩] 0 = some stream_kind.gz := by
  decide

/-! ## Gamma at ingest -/

/-- C23 (as stated): with `basezoom = -2` (to be guessed) and a positive
`gamma = 2`, the `gamma` passed to `read_input` is still 2, not 0. -/
theorem ingest_gamma_positive_kept : ingest_gamma intOps (-2) 2 2 = 2 := by
  decide

/-- C23 (amended): whenever basezoom or droprate is unknown at ingest
(`basezoom < 0` or `droprate < 0`), `main` replaces a negative `gamma` by 0
and passes every other `gamma` (in particular every `gamma > 0`) to
`read_input` unchanged. -/
theorem ingest_gamma_spec {F : Type} (ops : DoubleOps F) (basezoom : Int) (droprate gamma : F)
    (h : basezoom < 0 ∨ ops.lt droprate ops.zero = true) :
    (ops.lt gamma ops.zero = true → ingest_gamma ops basezoom droprate gamma = ops.zero) ∧
    (ops.lt gamma ops.zero = false → ingest_gamma ops basezoom droprate gamma = gamma) := by
  unfold ingest_gamma
  constructor
  · intro hg
    rw [if_pos ⟨h, hg⟩]
  · intro hg
    rw [if_neg (fun hc => by rw [hg] at hc; exact absurd hc.2 (by decide))]

theorem ingest_gamma_spec_witness :
    ((-2 : Int) < 0 ∨ intOps.lt 2 intOps.zero = true) ∧
    ingest_gamma intOps (-2) 2 (-1) = 0 ∧ ingest_gamma intOps (-2) 2 3 = 3 :=
  ⟨by decide,
    (ingest_gamma_spec intOps (-2) 2 (-1) (by decide)).1 (by decide),
    (ingest_gamma_spec intOps (-2) 2 3 (by decide)).2 (by decide)⟩

/-! ## Ingest statistics -/

/-- C29: for a flat-geobuf source read by two workers with area sums 3 and 4,
a running `area_sum` of 5 becomes 4 (the value of the last worker), not
5 + 3 + 4 = 12, while `dist_sum` and `dist_count` are accumulated; for a CSV
source the workers' sums are not added at all; for a geobuf or a text source
all three are accumulated. -/
theorem collect_stats_fgb_overwrites :
    collect_stats intOps source_format.fgb ⟨10, 1, 5⟩ [⟨1, 1, 3⟩, ⟨2, 1, 4⟩] = ⟨13, 3, 4⟩ ∧
    collect_stats intOps source_format.csv ⟨10, 1, 5⟩ [⟨1, 1, 3⟩, ⟨2, 1, 4⟩] = ⟨10, 1, 5⟩ ∧
    collect_stats intOps source_format.geobuf ⟨10, 1, 5⟩ [⟨1, 1, 3⟩, ⟨2, 1, 4⟩] = ⟨13, 3, 12⟩ ∧
    collect_stats intOps source_format.text ⟨10, 1, 5⟩ [⟨1, 1, 3⟩, ⟨2, 1, 4⟩] = ⟨13, 3, 12⟩ := by
  refine ⟨rfl, rfl, rfl, rfl⟩

/-! ## The bucket of an index entry -/

theorem bucket_of_eq (P S ix : Nat) (hPS : P + S ≤ 64) :
    bucket_of P S ix = (ix / 2 ^ (64 - P - S)) % 2 ^ S := by
  unfold bucket_of
  have h64 : (2 : Nat) ^ 64 = 2 ^ (64 - P) * 2 ^ P := by
    rw [← pow_add]
    congr 1
    omega
  have hS : (2 : Nat) ^ (64 - S) = 2 ^ P * 2 ^ (64 - P - S) := by
    rw [← pow_add]
    congr 1
    omega
  have hP : (2 : Nat) ^ (64 - P) = 2 ^ (64 - P - S) * 2 ^ S := by
    rw [← pow_add]
    congr 1
    omega
  rw [h64, Nat.mul_mod_mul_right, hS, Nat.mul_comm (ix % 2 ^ (64 - P)) (2 ^ P),
    Nat.mul_div_mul_left _ _ (by positivity), hP, Nat.mod_mul_right_div_self]

/-- C25: in `radix1`, for prefix `P` and `S = splitbits` with `P + S <= 64`
(in particular for `S >= 1`), the bucket of an entry with a 64-bit `ix` is
`((ix * 2^P) mod 2^64) / 2^(64-S) = (ix / 2^(64-P-S)) mod 2^S`, the `S` bits of
`ix` starting at bit position `P` from the most significant bit; it is less
than `2^S`, and among entries that agree on their top `P` bits it is
non-decreasing in `ix`. -/
theorem bucket_of_spec (P S ix : Nat) (hPS : P + S ≤ 64) :
    bucket_of P S ix = ((ix * 2 ^ P) % 2 ^ 64) / 2 ^ (64 - S) ∧
    bucket_of P S ix = (ix / 2 ^ (64 - P - S)) % 2 ^ S ∧
    bucket_of P S ix < 2 ^ S ∧
    (∀ ix2, ix / 2 ^ (64 - P) = ix2 / 2 ^ (64 - P) → ix ≤ ix2 →
      bucket_of P S ix ≤ bucket_of P S ix2) := by
  refine ⟨rfl, bucket_of_eq P S ix hPS, ?_, ?_⟩
  · rw [bucket_of_eq P S ix hPS]
    exact Nat.mod_lt _ (by positivity)
  · intro ix2 htop hle
    rw [bucket_of_eq P S ix hPS, bucket_of_eq P S ix2 hPS]
    have hP : (2 : Nat) ^ (64 - P) = 2 ^ (64 - P - S) * 2 ^ S := by
      rw [← pow_add]
      congr 1
      omega
    have hq : ix / 2 ^ (64 - P - S) / 2 ^ S = ix2 / 2 ^ (64 - P - S) / 2 ^ S := by
      rw [Nat.div_div_eq_div_mul, Nat.div_div_eq_div_mul, ← hP]
      exact htop
    have hle2 : ix / 2 ^ (64 - P - S) ≤ ix2 / 2 ^ (64 - P - S) := Nat.div_le_div_right hle
    have e1 := Nat.div_add_mod (ix / 2 ^ (64 - P - S)) (2 ^ S)
    have e2 := Nat.div_add_mod (ix2 / 2 ^ (64 - P - S)) (2 ^ S)
    rw [hq] at e1
    omega

theorem bucket_of_spec_witness :
    8 + 8 ≤ 64 ∧
    bucket_of 8 8 1311768467463790320 = 52 ∧
    bucket_of 8 8 1311768467463790320 < 2 ^ 8 :=
  ⟨by decide,
    (bucket_of_spec 8 8 1311768467463790320 (by decide)).2.1.trans (by decide),
    (bucket_of_spec 8 8 1311768467463790320 (by decide)).2.2.1⟩

/-! ## File descriptors and recursion of `radix1` -/

theorem split_inputs_length (inputs : List file_pair) (pfx splitbits : Nat) :
    (split_inputs inputs pfx splitbits).length = 2 ^ splitbits := by
  unfold split_inputs
  have hentry : ∀ (geommap : List Nat) (l : List index) (bs : List bucket),
      (l.foldl (split_entry geommap pfx splitbits) bs).length = bs.length := by
    intro geommap l
    induction l with
    | nil => intro bs; rfl
    | cons e l ih =>
      intro bs
      rw [List.foldl_cons, ih]
      unfold split_entry
      exact modify_at_length _ _ _
  have hfold : ∀ (l : List file_pair) (bs : List bucket),
      (l.foldl (fun bs inp => inp.index.foldl (split_entry inp.geom pfx splitbits) bs)
        bs).length = bs.length := by
    intro l
    induction l with
    | nil => intro bs; rfl
    | cons inp l ih =>
      intro bs
      rw [List.foldl_cons, ih, hentry]
  rw [hfold, List.length_replicate]

theorem radix_bucket_availfiles {F : Type} (env : sort_env F)
    (recurse : List file_pair → Nat → Int → sort_state F → Option (sort_state F))
    (hrec : ∀ inputs pfx splits st st', recurse inputs pfx splits st = some st' →
      st'.availfiles = st.availfiles + 2 * (inputs.length : Int))
    (pfx splitbits : Nat) (st st' : sort_state F) (b : bucket)
    (h : radix_bucket env recurse pfx splitbits st b = some st') :
    st'.availfiles = st.availfiles + 2 := by
  unfold radix_bucket at h
  split at h
  · split at h
    · injection h with h
      rw [← h]
    · split at h
      · injection h with h
        rw [← h]
      · have := hrec _ _ _ _ _ h
        simpa using this
  · injection h with h
    rw [← h]

theorem radix_buckets_availfiles {F : Type} (env : sort_env F)
    (recurse : List file_pair → Nat → Int → sort_state F → Option (sort_state F))
    (hrec : ∀ inputs pfx splits st st', recurse inputs pfx splits st = some st' →
      st'.availfiles = st.availfiles + 2 * (inputs.length : Int))
    (pfx splitbits : Nat) (buckets : List bucket) (st st' : sort_state F)
    (h : buckets.foldlM (radix_bucket env recurse pfx splitbits) st = some st') :
    st'.availfiles = st.availfiles + 2 * (buckets.length : Int) := by
  induction buckets generalizing st with
  | nil =>
    simp only [List.foldlM_nil] at h
    injection h with h
    rw [h]
    simp
  | cons b rest ih =>
    rw [List.foldlM_cons] at h
    cases hb : radix_bucket env recurse pfx splitbits st b with
    | none => rw [hb] at h; simp at h
    | some st1 =>
      rw [hb] at h
      have h1 := radix_bucket_availfiles env recurse hrec pfx splitbits st st1 b hb
      have h2 := ih st1 h
      rw [h2, h1, List.length_cons]
      push_cast
      omega

theorem radix1_availfiles {F : Type} (env : sort_env F) (fuel : Nat) :
    ∀ (inputs : List file_pair) (pfx : Nat) (splits : Int) (st st' : sort_state F),
      radix1 env fuel inputs pfx splits st = some st' →
      st'.availfiles = st.availfiles + 2 * (inputs.length : Int) := by
  induction fuel with
  | zero =>
    intro inputs pfx splits st st' h
    rw [radix1] at h
    exact absurd h (by simp)
  | succ fuel ih =>
    intro inputs pfx splits st st' h
    rw [radix1] at h
    split at h
    · exact absurd h (by simp)
    · split at h
      · exact absurd h (by simp)
      · have := radix_buckets_availfiles env (radix1 env fuel) ih pfx _ _ _ _ h
        rw [this, split_inputs_length]
        dsimp only
        omega

theorem radix1_fan_out_one {F : Type} (env : sort_env F) (fuel : Nat)
    (inputs : List file_pair) (pfx : Nat) (st : sort_state F)
    (h : inputs.any (fun inp => !inp.index.isEmpty) = true) :
    radix1 env fuel inputs pfx 1 st = none := by
  cases fuel with
  | zero => rw [radix1]
  | succ fuel =>
    rw [radix1, if_neg (by decide), if_pos ⟨Or.inl (by decide), h⟩]

theorem split_inputs_of_empty (inputs : List file_pair) (pfx splitbits : Nat)
    (h : inputs.any (fun inp => !inp.index.isEmpty) = false) :
    split_inputs inputs pfx splitbits = List.replicate (2 ^ splitbits) ⟨[], [], 0⟩ := by
  unfold split_inputs
  generalize List.replicate (2 ^ splitbits) (⟨[], [], 0⟩ : bucket) = bs
  induction inputs generalizing bs with
  | nil => rfl
  | cons inp rest ih =>
    rw [List.any_cons, Bool.or_eq_false_iff] at h
    have hnil : inp.index = [] := by
      cases hi : inp.index with
      | nil => rfl
      | cons a l =>
        have := h.1
        rw [hi] at this
        simp at this
    rw [List.foldl_cons, hnil, List.foldl_nil]
    exact ih h.2 bs

theorem radix_buckets_congr {F : Type} (env : sort_env F)
    (r1 r2 : List file_pair → Nat → Int → sort_state F → Option (sort_state F))
    (pfx splitbits : Nat) (buckets : List bucket)
    (h : (∀ b ∈ buckets, b.index = []) ∨
      (pfx + splitbits < 64 → ∀ inputs splits st,
        r1 inputs (pfx + splitbits) splits st = r2 inputs (pfx + splitbits) splits st))
    (st : sort_state F) :
    buckets.foldlM (radix_bucket env r1 pfx splitbits) st =
      buckets.foldlM (radix_bucket env r2 pfx splitbits) st := by
  induction buckets generalizing st with
  | nil => rfl
  | cons b rest ih =>
    have hb : radix_bucket env r1 pfx splitbits st b = radix_bucket env r2 pfx splitbits st b := by
      unfold radix_bucket
      split
      · split
        · rfl
        · split
          · rfl
          · rename_i hpos _ hpass
            rcases h with h | h
            · have := h b (List.mem_cons_self _ _)
              rw [this] at hpos
              simp at hpos
            · exact h (by omega) _ _ _
      · rfl
    have hrest : (∀ b ∈ rest, b.index = []) ∨
        (pfx + splitbits < 64 → ∀ inputs splits st,
          r1 inputs (pfx + splitbits) splits st = r2 inputs (pfx + splitbits) splits st) := by
      rcases h with h | h
      · exact Or.inl (fun b hb => h b (List.mem_cons_of_mem _ hb))
      · exact Or.inr h
    rw [List.foldlM_cons, List.foldlM_cons, hb]
    cases radix_bucket env r2 pfx splitbits st b with
    | none => rfl
    | some st1 => exact ih hrest st1

/-- The recursion bound of the model does not matter once it reaches
`65 - prefix`: every call that recurses has used at least one more key bit
than its caller, and no call recurses once 64 bits are used. -/
theorem radix1_fuel_stable {F : Type} (env : sort_env F) (f1 : Nat) :
    ∀ (f2 : Nat) (inputs : List file_pair) (pfx : Nat) (splits : Int) (st : sort_state F),
      64 ≤ pfx + f1 → 64 ≤ pfx + f2 →
      radix1 env (f1 + 1) inputs pfx splits st = radix1 env (f2 + 1) inputs pfx splits st := by
  induction f1 with
  | zero =>
    intro f2 inputs pfx splits st h1 h2
    rw [radix1, radix1]
    split
    · rfl
    · split
      · rfl
      · rename_i hcond
        apply radix_buckets_congr
        left
        have hany : inputs.any (fun inp => !inp.index.isEmpty) = false := by
          cases ha : inputs.any (fun inp => !inp.index.isEmpty) with
          | false => rfl
          | true => exact absurd ⟨Or.inr (Or.inr (by omega)), ha⟩ hcond
        rw [split_inputs_of_empty inputs pfx _ hany]
        intro b hb
        rw [(List.mem_replicate.mp hb).2]
  | succ f1 ih =>
    intro f2 inputs pfx splits st h1 h2
    rw [radix1, radix1]
    split
    · rfl
    · split
      · rfl
      · rename_i hcond
        apply radix_buckets_congr
        cases ha : inputs.any (fun inp => !inp.index.isEmpty) with
        | false =>
          left
          rw [split_inputs_of_empty inputs pfx _ ha]
          intro b hb
          rw [(List.mem_replicate.mp hb).2]
        | true =>
          right
          intro hlt inputs2 splits2 st2
          have hsb : ¬ (ilog2 64 splits.toNat = 0 ∨ 64 < ilog2 64 splits.toNat ∨ 64 ≤ pfx) :=
            fun hc => hcond ⟨hc, ha⟩
          cases f2 with
          | zero => omega
          | succ f2 => exact ih f2 inputs2 _ splits2 st2 (by omega) (by omega)

set_option maxRecDepth 100000 in
/-- C26 fails on the code when the descriptor budget runs low before the key
bits do.  Two records with the same key `ix = 0` (68 bytes with their
geometry) never fit in `mem = 64`; from 1486 available descriptors the
recursion reaches prefix 62 with 2 splits, and the bucket is handed on with
`*availfiles / 4 = 1` split at prefix 63: a call with fan-out 1
(`splitbits = 0`), which shifts a 64-bit value by 64 bits and would keep the
prefix.  Such a call has no defined result, so the sort has none, whatever
the recursion bound. -/
theorem radix1_recursion_fan_out_one :
    (∀ fuel, 65 ≤ fuel →
      radix1 (sample_env 64) fuel
        [⟨[7, 0, 9, 0], [⟨0, 2, 0, 0, 1, 0⟩, ⟨2, 4, 0, 0, 1, 1⟩]⟩]
        0 371 (sample_state 1486) = none) ∧
    (∀ recurse : List file_pair → Nat → Int → sort_state Int → Option (sort_state Int),
      radix_bucket (sample_env 64) recurse 62 1 (sample_state 6)
        ⟨[7, 0, 9, 0], [⟨0, 2, 0, 0, 1, 0⟩, ⟨2, 4, 0, 0, 1, 1⟩], 4⟩ =
      recurse [⟨[7, 0, 9, 0], [⟨0, 2, 0, 0, 1, 0⟩, ⟨2, 4, 0, 0, 1, 1⟩]⟩] 63 1
        (sample_state 6)) ∧
    (∀ fuel, radix1 (sample_env 64) fuel
        [⟨[7, 0, 9, 0], [⟨0, 2, 0, 0, 1, 0⟩, ⟨2, 4, 0, 0, 1, 1⟩]⟩] 63 1 (sample_state 6) =
      none) := by
  refine ⟨?_, ?_, ?_⟩
  · intro fuel hfuel
    have h65 : (radix1 (sample_env 64) 65
        [⟨[7, 0, 9, 0], [⟨0, 2, 0, 0, 1, 0⟩, ⟨2, 4, 0, 0, 1, 1⟩]⟩]
        0 371 (sample_state 1486)).isSome = false := by decide
    obtain ⟨f, rfl⟩ : ∃ f, fuel = f + 1 := ⟨fuel - 1, by omega⟩
    rw [radix1_fuel_stable (sample_env 64) f 64 _ 0 371 _ (by omega) (by omega)]
    cases hr : radix1 (sample_env 64) (64 + 1)
        [⟨[7, 0, 9, 0], [⟨0, 2, 0, 0, 1, 0⟩, ⟨2, 4, 0, 0, 1, 1⟩]⟩]
        0 371 (sample_state 1486) with
    | none => rfl
    | some st' =>
      rw [hr] at h65
      exact absurd h65 (by simp)
  · intro recurse
    rfl
  · intro fuel
    exact radix1_fan_out_one (sample_env 64) fuel _ 63 _ (by decide)

/-- File-descriptor accounting in the radix sort is exact wherever the sort
returns.  Every call of `radix1` that returns leaves `*availfiles` increased
by exactly `2 * inputs` relative to its value at entry (the 4 charged per
split are all returned, also through recursive calls), so the check for
miscounted available file descriptors in `radix` never fires: `radix` never
exits with the code `EXIT_IMPOSSIBLE`.  `radix1` does return whenever it is
given at least two splits and an input that is smaller than the memory
budget. -/
theorem radix_availfiles_exact {F : Type} (env : sort_env F) (fuel : Nat)
    (inputs : List file_pair) (pfx : Nat) (splits : Int) (st : sort_state F) :
    (∀ st', radix1 env fuel inputs pfx splits st = some st' →
      st'.availfiles = st.availfiles + 2 * (inputs.length : Int)) ∧
    (∀ (CPUS page memsize : Nat) (MAX_FILES : Int) (readers : List file_pair)
      (st0 : sort_state F) (maxzoom : Nat) (basezoom : Int) (droprate : F)
      (ds0 : Nat → drop_state F),
      radix env.ops env.cfg CPUS page memsize MAX_FILES readers st0 maxzoom basezoom
        droprate env.gamma ds0 ≠ radix_result.exit_impossible) ∧
    (2 ≤ splits → pfx < 64 → (total_size inputs : Int) < env.mem →
      ∃ st', radix1 env (fuel + 1) inputs pfx splits st = some st' ∧
        st'.availfiles = st.availfiles + 2 * (inputs.length : Int)) := by
  refine ⟨fun st' h => radix1_availfiles env fuel inputs pfx splits st st' h, ?_, ?_⟩
  · intro CPUS page memsize MAX_FILES readers st0 maxzoom basezoom droprate ds0 heq
    unfold radix at heq
    split at heq
    · exact absurd heq (by simp)
    · rename_i st1 h1
      have := radix1_availfiles _ _ _ _ _ _ st1 h1
      dsimp only at this
      split at heq
      · rename_i hne
        exact hne (by rw [this]; omega)
      · exact absurd heq (by simp)
  · intro h1 h2 h3
    obtain ⟨st', hst'⟩ := radix1_fits env fuel inputs pfx splits st h1 h2 h3
    exact ⟨st', hst', radix1_availfiles env (fuel + 1) inputs pfx splits st st' hst'⟩

set_option maxRecDepth 100000 in
theorem radix_availfiles_exact_witness :
    ∃ st', radix1 (sample_env 64) 65
        [⟨[7, 0], [⟨0, 2, 1311768467463790320, 0, 1, 10⟩]⟩,
         ⟨[9, 0], [⟨0, 2, 1311768467463790320, 1, 1, 3⟩]⟩]
        0 371 (sample_state 1486) = some st' ∧
      st'.availfiles = 1486 + 2 * 2 := by
  have hsome : (radix1 (sample_env 64) 65
        [⟨[7, 0], [⟨0, 2, 1311768467463790320, 0, 1, 10⟩]⟩,
         ⟨[9, 0], [⟨0, 2, 1311768467463790320, 1, 1, 3⟩]⟩]
        0 371 (sample_state 1486)).isSome = true := by decide
  obtain ⟨st', hst'⟩ := Option.isSome_iff_exists.mp hsome
  exact ⟨st', hst',
    (radix_availfiles_exact (sample_env 64) 65 _ 0 371 (sample_state 1486)).1 st' hst'⟩

/-! ## `merge` is a k-way merge -/

theorem indexcmp_le_iff (a b : index) : indexcmp a b ≤ 0 ↔ key_le a b := by
  unfold indexcmp key_le
  split_ifs <;> simp <;> omega

theorem indexcmp_gt_iff (a b : index) :
    indexcmp a b > 0 ↔ (b.ix < a.ix ∨ (a.ix = b.ix ∧ b.seq < a.seq)) := by
  unfold indexcmp
  split_ifs <;> simp <;> omega

theorem key_le_trans (a b c : index) (h1 : key_le a b) (h2 : key_le b c) : key_le a c := by
  unfold key_le at *
  omega

theorem key_le_of_not_gt (a b : index) (h : ¬ indexcmp a b > 0) : key_le a b := by
  rw [indexcmp_gt_iff] at h
  unfold key_le
  omega

theorem key_le_of_gt (a b : index) (h : indexcmp a b > 0) : key_le b a := by
  rw [indexcmp_gt_iff] at h
  unfold key_le
  omega

theorem insert_heads_sorted (m : List index) (head : List (List index)) (hm : m ≠ [])
    (hne : ∀ r ∈ head, r ≠ []) (hs : head.Pairwise heads_le) :
    (insert m head).Pairwise heads_le := by
  induction head with
  | nil => simp [insert]
  | cons h rest ih =>
    obtain ⟨hh, hrest⟩ := List.pairwise_cons.mp hs
    obtain ⟨a, m', rfl⟩ := List.exists_cons_of_ne_nil hm
    obtain ⟨b, h', rfl⟩ := List.exists_cons_of_ne_nil (hne _ (List.mem_cons_self _ _))
    rw [insert]
    split
    · rename_i hgt
      refine List.pairwise_cons.mpr ⟨?_, ih (fun r hr => hne r (List.mem_cons_of_mem _ hr)) hrest⟩
      intro r hr
      rcases mem_insert_run _ _ _ hr with h1 | h1
      · rw [h1]
        intro x hx y hy
        simp only [List.head?_cons, Option.mem_def, Option.some.injEq] at hx hy
        rw [← hx, ← hy]
        exact key_le_of_gt _ _ hgt
      · exact hh r h1
    · rename_i hgt
      have hab : key_le a b := key_le_of_not_gt _ _ hgt
      refine List.pairwise_cons.mpr ⟨?_, hs⟩
      intro r hr x hx y hy
      simp only [List.head?_cons, Option.mem_def, Option.some.injEq] at hx
      rw [← hx]
      rcases List.mem_cons.mp hr with h1 | h1
      · rw [h1] at hy
        simp only [List.head?_cons, Option.mem_def, Option.some.injEq] at hy
        rw [← hy]
        exact hab
      · exact key_le_trans _ _ _ hab (hh r h1 b (by simp) y hy)

theorem head_le_of_sorted (r : List index) (hs : r.Pairwise key_le) :
    ∀ a ∈ r.head?, ∀ y ∈ r, key_le a y := by
  intro a ha y hy
  cases r with
  | nil => simp at hy
  | cons b r =>
    simp only [List.head?_cons, Option.mem_def, Option.some.injEq] at ha
    rw [← ha]
    rcases List.mem_cons.mp hy with h1 | h1
    · rw [h1]
      unfold key_le
      omega
    · exact (List.pairwise_cons.mp hs).1 y h1

theorem merge_loop_ordered {F : Type} (env : sort_env F) (geom_map : List Nat) (n : Nat)
    (head : List (List index)) (st : sort_state F) (h : MergeOrdered head st.indexfile) :
    (merge_loop env geom_map n head st).indexfile.Pairwise key_le := by
  induction n generalizing head st with
  | zero =>
    rw [merge_loop]
    exact h.2.2.1
  | succ n ih =>
    obtain ⟨hruns, hheads, hout, hbound⟩ := h
    match head with
    | [] =>
      simp only [merge_loop]
      exact hout
    | [] :: rest => exact absurd rfl (hruns [] (List.mem_cons_self _ _)).1
    | (ix :: m) :: rest =>
      simp only [merge_loop]
      apply ih
      have hixm := (hruns _ (List.mem_cons_self _ _)).2
      obtain ⟨hix_m, hm_sorted⟩ := List.pairwise_cons.mp hixm
      obtain ⟨hix_rest, hrest_sorted⟩ := List.pairwise_cons.mp hheads
      have hrest_runs : ∀ r ∈ rest, r ≠ [] ∧ r.Pairwise key_le :=
        fun r hr => hruns r (List.mem_cons_of_mem _ hr)
      obtain ⟨e, hout', he1, he2⟩ : ∃ e : index,
          (merge_write env geom_map ix st).indexfile = st.indexfile ++ [e] ∧
          e.ix = ix.ix ∧ e.seq = ix.seq := ⟨_, rfl, rfl, rfl⟩
      have hkey : ∀ (x : index) (e : index), e.ix = ix.ix → e.seq = ix.seq →
          (key_le x ix → key_le x e) ∧ (key_le ix x → key_le e x) := by
        intro x e h1 h2
        unfold key_le
        rw [h1, h2]
        exact ⟨id, id⟩
      have hix_all : ∀ r ∈ (match m with | [] => rest | _ :: _ => insert m rest),
          ∀ y ∈ r, key_le ix y := by
        intro r hr y hy
        have hcase : r = m ∨ r ∈ rest := by
          cases m with
          | nil => exact Or.inr hr
          | cons a m => exact mem_insert_run _ _ _ hr
        rcases hcase with h1 | h1
        · rw [h1] at hy
          exact hix_m y hy
        · obtain ⟨b, r', rfl⟩ := List.exists_cons_of_ne_nil (hrest_runs r h1).1
          have h2 : key_le ix b := hix_rest _ h1 ix (by simp) b (by simp)
          exact key_le_trans _ _ _ h2
            (head_le_of_sorted _ (hrest_runs _ h1).2 b (by simp) y hy)
      refine ⟨?_, ?_, ?_, ?_⟩
      · intro r hr
        cases m with
        | nil => exact hrest_runs r hr
        | cons a m =>
          rcases mem_insert_run _ _ _ hr with h1 | h1
          · rw [h1]
            exact ⟨List.cons_ne_nil _ _, hm_sorted⟩
          · exact hrest_runs r h1
      · cases m with
        | nil => exact hrest_sorted
        | cons a m =>
          exact insert_heads_sorted _ _ (List.cons_ne_nil _ _)
            (fun r hr => (hrest_runs r hr).1) hrest_sorted
      · rw [hout']
        refine List.pairwise_append.mpr ⟨hout, List.pairwise_singleton _ _, ?_⟩
        intro x hx y hy
        rw [List.mem_singleton.mp hy]
        exact (hkey x e he1 he2).1 (hbound x hx _ (List.mem_cons_self _ _) ix
          (List.mem_cons_self _ _))
      · intro x hx r hr y hy
        rw [hout'] at hx
        rcases List.mem_append.mp hx with h1 | h1
        · have hcase : r = m ∨ r ∈ rest := by
            cases m with
            | nil => exact Or.inr hr
            | cons a m => exact mem_insert_run _ _ _ hr
          rcases hcase with h2 | h2
          · rw [h2] at hy
            exact hbound x h1 _ (List.mem_cons_self _ _) y (List.mem_cons_of_mem _ hy)
          · exact hbound x h1 r (List.mem_cons_of_mem _ h2) y hy
        · rw [List.mem_singleton.mp h1]
          exact (hkey y e he1 he2).2 (hix_all r hr y hy)

theorem merge_head_ordered (merges head : List (List index))
    (hm : ∀ r ∈ merges, r.Pairwise key_le)
    (hruns : ∀ r ∈ head, r ≠ [] ∧ r.Pairwise key_le) (hheads : head.Pairwise heads_le) :
    (∀ r ∈ merges.foldl (fun head m => match m with | [] => head | _ :: _ => insert m head)
        head, (r ≠ [] ∧ r.Pairwise key_le) ∧ (r ∈ head ∨ r ∈ merges)) ∧
    (merges.foldl (fun head m => match m with | [] => head | _ :: _ => insert m head)
      head).Pairwise heads_le := by
  induction merges generalizing head with
  | nil => exact ⟨fun r hr => ⟨hruns r hr, Or.inl hr⟩, hheads⟩
  | cons m rest ih =>
    rw [List.foldl_cons]
    have hm_rest : ∀ r ∈ rest, r.Pairwise key_le := fun r hr => hm r (List.mem_cons_of_mem _ hr)
    cases m with
    | nil =>
      obtain ⟨h1, h2⟩ := ih head hm_rest hruns hheads
      refine ⟨fun r hr => ⟨(h1 r hr).1, ?_⟩, h2⟩
      rcases (h1 r hr).2 with h3 | h3
      · exact Or.inl h3
      · exact Or.inr (List.mem_cons_of_mem _ h3)
    | cons a m =>
      have hruns2 : ∀ r ∈ insert (a :: m) head, r ≠ [] ∧ r.Pairwise key_le := by
        intro r hr
        rcases mem_insert_run _ _ _ hr with h3 | h3
        · rw [h3]
          exact ⟨List.cons_ne_nil _ _, hm _ (List.mem_cons_self _ _)⟩
        · exact hruns r h3
      obtain ⟨h1, h2⟩ := ih (insert (a :: m) head) hm_rest hruns2
        (insert_heads_sorted _ _ (List.cons_ne_nil _ _) (fun r hr => (hruns r hr).1) hheads)
      refine ⟨fun r hr => ⟨(h1 r hr).1, ?_⟩, h2⟩
      rcases (h1 r hr).2 with h3 | h3
      · rcases mem_insert_run _ _ _ h3 with h4 | h4
        · exact Or.inr (h4 ▸ List.mem_cons_self _ _)
        · exact Or.inl h4
      · exact Or.inr (List.mem_cons_of_mem _ h3)

theorem merge_loop_done {F : Type} (env : sort_env F) (geom_map : List Nat) (n k : Nat)
    (head : List (List index)) (st : sort_state F) (hn : head.flatten.length ≤ n)
    (hne : ∀ r ∈ head, r ≠ []) :
    merge_loop env geom_map (n + k) head st = merge_loop env geom_map n head st := by
  induction n generalizing head st with
  | zero =>
    have hnil : head = [] := by
      cases head with
      | nil => rfl
      | cons r rest =>
        obtain ⟨a, r', rfl⟩ := List.exists_cons_of_ne_nil (hne r (List.mem_cons_self _ _))
        simp at hn
    rw [hnil]
    cases k <;> simp [merge_loop]
  | succ n ih =>
    match head with
    | [] =>
      rw [show n + 1 + k = (n + k) + 1 by omega]
      simp [merge_loop]
    | [] :: rest => exact absurd rfl (hne [] (List.mem_cons_self _ _))
    | (ix :: m) :: rest =>
      rw [show n + 1 + k = (n + k) + 1 by omega]
      simp only [merge_loop]
      have hperm : List.Perm (match m with | [] => rest | _ :: _ => insert m rest).flatten
          (m ++ rest.flatten) := by
        cases m with
        | nil => simp
        | cons a m => exact insert_flatten_perm _ _
      have hlen : (match m with | [] => rest | _ :: _ => insert m rest).flatten.length ≤ n := by
        rw [hperm.length_eq]
        simp only [List.flatten_cons, List.length_append, List.length_cons] at hn
        rw [List.length_append]
        omega
      have hne2 : ∀ r ∈ (match m with | [] => rest | _ :: _ => insert m rest), r ≠ [] := by
        intro r hr
        cases m with
        | nil => exact hne r (List.mem_cons_of_mem _ hr)
        | cons a m =>
          rcases mem_insert_run _ _ _ hr with h1 | h1
          · rw [h1]; exact List.cons_ne_nil _ _
          · exact hne r (List.mem_cons_of_mem _ h1)
      exact ih _ _ hlen hne2

/-- C24: `merge` is a correct k-way merge.  Given runs that are each sorted by
`indexcmp` (and an output so far that is ordered and holds no record after a
record of the runs, for instance an empty one), the loop ends within as many
rounds as there are records (more rounds change nothing), it writes every
entry of every run exactly once, and the entries it has written are in
non-decreasing lexicographic `(ix, seq)` order; `insert` keeps the pending
list sorted by the key of each run's first entry and neither drops nor
duplicates a run. -/
theorem merge_is_k_way_merge {F : Type} (env : sort_env F) (merges : List (List index))
    (geom_map : List Nat) (st : sort_state F)
    (hsorted : ∀ r ∈ merges, r.Pairwise (fun a b => indexcmp a b ≤ 0))
    (hout : st.indexfile.Pairwise key_le)
    (hbound : ∀ x ∈ st.indexfile, ∀ r ∈ merges, ∀ y ∈ r, key_le x y) :
    (∀ k, merge_loop env geom_map ((merges.map List.length).sum + k)
        (merges.foldl (fun head m => match m with | [] => head | _ :: _ => insert m head) [])
        st = merge env merges geom_map st) ∧
    List.Perm ((merge env merges geom_map st).indexfile.map index_key)
      (st.indexfile.map index_key ++ merges.flatten.map index_key) ∧
    (merge env merges geom_map st).indexfile.Pairwise key_le ∧
    (∀ (m : List index) (head : List (List index)), m ≠ [] → (∀ r ∈ head, r ≠ []) →
      head.Pairwise heads_le →
      (insert m head).Pairwise heads_le ∧ List.Perm (insert m head).flatten (m ++ head.flatten)) := by
  have hm : ∀ r ∈ merges, r.Pairwise key_le := by
    intro r hr
    exact (hsorted r hr).imp (fun {a b} h => (indexcmp_le_iff a b).mp h)
  obtain ⟨h1, h2⟩ := merge_head_ordered merges [] hm (by simp) List.Pairwise.nil
  have hp := merge_head_perm merges []
  rw [List.flatten_nil, List.nil_append] at hp
  refine ⟨?_, merge_keys env merges geom_map st, ?_, ?_⟩
  · intro k
    unfold merge
    apply merge_loop_done
    · rw [hp.length_eq, List.length_flatten]
    · exact fun r hr => (h1 r hr).1.1
  · unfold merge
    apply merge_loop_ordered
    refine ⟨fun r hr => (h1 r hr).1, h2, hout, ?_⟩
    intro x hx r hr y hy
    rcases (h1 r hr).2 with h3 | h3
    · simp at h3
    · exact hbound x hx r h3 y hy
  · intro m head hmne hne hs
    exact ⟨insert_heads_sorted m head hmne hne hs, insert_flatten_perm m head⟩

theorem merge_is_k_way_merge_witness :
    (∀ r ∈ [[(⟨0, 2, 3, 0, 1, 1⟩ : index), ⟨2, 4, 9, 0, 1, 2⟩], [⟨4, 6, 3, 0, 1, 0⟩]],
      r.Pairwise (fun a b => indexcmp a b ≤ 0)) ∧
    (merge (sample_env 64) [[⟨0, 2, 3, 0, 1, 1⟩, ⟨2, 4, 9, 0, 1, 2⟩], [⟨4, 6, 3, 0, 1, 0⟩]]
      [7, 0, 8, 0, 9, 0] (sample_state 8)).indexfile.map (fun e => (e.ix, e.seq)) =
      [(3, 0), (3, 1), (9, 2)] ∧
    (merge (sample_env 64) [[⟨0, 2, 3, 0, 1, 1⟩, ⟨2, 4, 9, 0, 1, 2⟩], [⟨4, 6, 3, 0, 1, 0⟩]]
      [7, 0, 8, 0, 9, 0] (sample_state 8)).indexfile.Pairwise key_le :=
  ⟨by decide, by decide,
    (merge_is_k_way_merge (sample_env 64)
      [[⟨0, 2, 3, 0, 1, 1⟩, ⟨2, 4, 9, 0, 1, 2⟩], [⟨4, 6, 3, 0, 1, 0⟩]]
      [7, 0, 8, 0, 9, 0] (sample_state 8) (by decide) List.Pairwise.nil
      (fun x hx => absurd hx (List.not_mem_nil x))).2.2.1⟩

/-! ## Droprate and retained density -/

theorem calc_feature_minzoom_not_eligible {F : Type} (ops : DoubleOps F) (cfg : Settings)
    (ix : index) (ds : Nat → drop_state F) (maxzoom : Nat) (gamma : F)
    (h : eligible ops cfg ix gamma = false) :
    calc_feature_minzoom ops cfg ix ds maxzoom gamma = (0, ds) := by
  unfold calc_feature_minzoom
  rw [h]
  rfl

theorem dyadic53_of_grid (vI x : ℚ) (mI : Int) (k : Nat) (hm : |mI| < 2 ^ 53) (hk : k ≤ 1074)
    (hvI : vI = (mI : ℚ) / 2 ^ k) (j : Int) (hx : x = (j : ℚ) / 2 ^ k) (hb : |x| ≤ vI) :
    Dyadic53 x := by
  refine ⟨j, k, ?_, hk, hx⟩
  have hpos : (0 : ℚ) < 2 ^ k := by positivity
  have h1 : |(j : ℚ)| / 2 ^ k ≤ (mI : ℚ) / 2 ^ k := by
    have h0 := hb
    rw [hx, hvI, abs_div, abs_of_pos hpos] at h0
    exact h0
  have h2 : |(j : ℚ)| ≤ (mI : ℚ) := (div_le_div_iff_of_pos_right hpos).mp h1
  have h3 : ((|j| : Int) : ℚ) ≤ (mI : ℚ) := by
    rw [Int.cast_abs]
    exact h2
  have h4 : |j| ≤ mI := Int.cast_le.mp h3
  have h5 : mI ≤ |mI| := le_abs_self mI
  omega

theorem roundsExactly_intOps :
    RoundsExactly intOps (fun _ => True) (fun a => (a : ℚ)) := by
  refine ⟨⟨trivial, ?_⟩, ⟨trivial, ?_⟩, ?_, ?_, ?_, ?_⟩
  · simp [intOps]
  · simp [intOps]
  · intro a b _ _ _
    exact ⟨trivial, by simp [intOps]⟩
  · intro a b _ _ _
    exact ⟨trivial, by simp [intOps]⟩
  · intro a b _ _
    simp [intOps]
  · intro a _ h
    refine ⟨a, 0, ?_, by omega, by simp⟩
    have h1 : ((|a| : Int) : ℚ) < ((2 ^ 53 : Int) : ℚ) := by
      rw [Int.cast_abs]
      push_cast
      exact h
    exact Int.cast_lt.mp h1

theorem countsUp_fixedOps (explog : Int → Int → Int) : CountsUp (fixedOps explog) := by
  refine ⟨by simp [fixedOps], ?_, ?_⟩
  · intro x hx
    simp only [fixedOps, decide_eq_false_iff_not, not_lt] at hx ⊢
    have : (0 : Int) < 2 ^ 51 := by positivity
    omega
  · intro x
    simp [fixedOps]

theorem roundsExactly_fixedOps (explog : Int → Int → Int) :
    RoundsExactly (fixedOps explog) (fun a => Dyadic53 ((a : ℚ) / 2 ^ 51))
      (fun a => (a : ℚ) / 2 ^ 51) := by
  refine ⟨⟨?_, ?_⟩, ⟨?_, ?_⟩, ?_, ?_, ?_, ?_⟩
  · exact ⟨0, 0, by simp, by omega, by simp [fixedOps]⟩
  · simp [fixedOps]
  · exact ⟨1, 0, by simp, by omega, by norm_num [fixedOps]⟩
  · norm_num [fixedOps]
  · intro a b _ _ h
    have e : (((fixedOps explog).add a b : Int) : ℚ) / 2 ^ 51 =
        (a : ℚ) / 2 ^ 51 + (b : ℚ) / 2 ^ 51 := by
      simp only [fixedOps]
      push_cast
      ring
    dsimp only at h ⊢
    exact ⟨by rw [e]; exact h, e⟩
  · intro a b _ _ h
    have e : (((fixedOps explog).sub a b : Int) : ℚ) / 2 ^ 51 =
        (a : ℚ) / 2 ^ 51 - (b : ℚ) / 2 ^ 51 := by
      simp only [fixedOps]
      push_cast
      ring
    dsimp only at h ⊢
    exact ⟨by rw [e]; exact h, e⟩
  · intro a b _ _
    simp only [fixedOps, decide_eq_true_eq]
    rw [div_lt_div_iff_of_pos_right (by positivity)]
    exact Int.cast_lt.symm
  · intro a ha _
    exact ha

theorem calc_feature_minzoom_counter {F : Type} (ops : DoubleOps F) (fin : F → Prop)
    (val : F → ℚ) (hcu : CountsUp ops) (hex : RoundsExactly ops fin val) (cfg : Settings)
    (hD : cfg.preserve_point_density_threshold = 0)
    (ix : index) (gamma : F) (helig : eligible ops cfg ix gamma = true)
    (maxzoom basezoom : Nat) (hb1 : 1 ≤ basezoom) (hb2 : basezoom ≤ maxzoom)
    (ds : Nat → drop_state F) (I : F) (hfI : fin I) (hI : 1 ≤ val I)
    (mI : Int) (k : Nat) (hm : |mI| < 2 ^ 53) (hk : k ≤ 1074) (hvI : val I = (mI : ℚ) / 2 ^ k)
    (hhigh : ∀ z, basezoom ≤ z → z ≤ maxzoom →
      (ds z).interval = ops.zero ∧ ops.lt (ds z).seq ops.zero = false)
    (hint : (ds (basezoom - 1)).interval = I)
    (hfs : fin (ds (basezoom - 1)).seq)
    (hgrid : ∃ j : Int, val (ds (basezoom - 1)).seq = (j : ℚ) / 2 ^ k)
    (hlo : -val I ≤ val (ds (basezoom - 1)).seq) (hhi : val (ds (basezoom - 1)).seq ≤ 0) :
    (∀ z, basezoom ≤ z → z ≤ maxzoom →
      ((calc_feature_minzoom ops cfg ix ds maxzoom gamma).2 z).interval = ops.zero ∧
      ops.lt ((calc_feature_minzoom ops cfg ix ds maxzoom gamma).2 z).seq ops.zero = false) ∧
    ((calc_feature_minzoom ops cfg ix ds maxzoom gamma).2 (basezoom - 1)).interval = I ∧
    (((calc_feature_minzoom ops cfg ix ds maxzoom gamma).1 ≤ basezoom - 1 ∧
        val ((calc_feature_minzoom ops cfg ix ds maxzoom gamma).2 (basezoom - 1)).seq =
          val (ds (basezoom - 1)).seq + 1 - val I) ∨
      ((calc_feature_minzoom ops cfg ix ds maxzoom gamma).1 = basezoom ∧
        val ((calc_feature_minzoom ops cfg ix ds maxzoom gamma).2 (basezoom - 1)).seq =
          val (ds (basezoom - 1)).seq + 1)) ∧
    fin ((calc_feature_minzoom ops cfg ix ds maxzoom gamma).2 (basezoom - 1)).seq ∧
    (∃ j : Int, val ((calc_feature_minzoom ops cfg ix ds maxzoom gamma).2 (basezoom - 1)).seq =
      (j : ℚ) / 2 ^ k) ∧
    -val I ≤ val ((calc_feature_minzoom ops cfg ix ds maxzoom gamma).2 (basezoom - 1)).seq ∧
    val ((calc_feature_minzoom ops cfg ix ds maxzoom gamma).2 (basezoom - 1)).seq ≤ 0 := by
  obtain ⟨c0, cadd, csub⟩ := hcu
  obtain ⟨⟨f0, e0⟩, ⟨f1, e1⟩, eadd, esub, elt, _⟩ := hex
  obtain ⟨j, hj⟩ := hgrid
  have hpos : (0 : ℚ) < 2 ^ k := by positivity
  have hcalc : calc_feature_minzoom ops cfg ix ds maxzoom gamma =
      walk_zooms ops ix.ix maxzoom (maxzoom + 1) (incr_seqs ops (maxzoom + 1) ds) := by
    unfold calc_feature_minzoom
    rw [if_pos helig, hD]
    rfl
  rw [hcalc]
  obtain ⟨w1, w2, w3, w4, w5⟩ :=
    walk_zooms_spec ops ix.ix maxzoom (maxzoom + 1) (incr_seqs ops (maxzoom + 1) ds)
  have hseq1 : ∀ z, z ≤ maxzoom →
      (incr_seqs ops (maxzoom + 1) ds z).seq = ops.add (ds z).seq ops.one ∧
      (incr_seqs ops (maxzoom + 1) ds z).interval = (ds z).interval := by
    intro z hz
    rw [incr_seqs_apply, if_pos (by omega)]
    exact ⟨rfl, rfl⟩
  set w := walk_zooms ops ix.ix maxzoom (maxzoom + 1) (incr_seqs ops (maxzoom + 1) ds) with hw
  have hbz : basezoom - 1 ≤ maxzoom := by omega
  -- the counters at the zooms from `basezoom` up never become negative
  have hhigh1 : ∀ z, basezoom ≤ z → z ≤ maxzoom →
      ops.lt (incr_seqs ops (maxzoom + 1) ds z).seq ops.zero = false := by
    intro z hz1 hz2
    rw [(hseq1 z hz2).1]
    exact cadd _ (hhigh z hz1 hz2).2
  have hle : w.1 ≤ basezoom := by
    by_contra hc
    have hpos1 : 0 < w.1 := by omega
    have h1 := w3 hpos1
    rw [hhigh1 (w.1 - 1) (by omega) (by omega)] at h1
    exact absurd h1 (by decide)
  have hhigh' : ∀ z, basezoom ≤ z → z ≤ maxzoom →
      (w.2 z).interval = ops.zero ∧ ops.lt (w.2 z).seq ops.zero = false := by
    intro z hz1 hz2
    obtain ⟨i0, _⟩ := hhigh z hz1 hz2
    refine ⟨by rw [w5, (hseq1 z hz2).2, i0], ?_⟩
    rw [w4, if_pos ⟨by omega, by omega⟩, (hseq1 z hz2).2, i0, csub]
    exact hhigh1 z hz1 hz2
  have hint' : (w.2 (basezoom - 1)).interval = I := by
    rw [w5, (hseq1 _ hbz).2, hint]
  -- the increment of the counter below `basezoom` is exact
  have hd1 : Dyadic53 (val (ds (basezoom - 1)).seq + val ops.one) := by
    rw [e1]
    refine dyadic53_of_grid (val I) _ mI k hm hk hvI (j + 2 ^ k) ?_ ?_
    · rw [hj]
      push_cast
      field_simp
    · rw [abs_le]
      constructor <;> linarith
  obtain ⟨fs1, vs1⟩ := eadd _ _ hfs f1 hd1
  rw [e1] at vs1
  have hneg : ops.lt (incr_seqs ops (maxzoom + 1) ds (basezoom - 1)).seq ops.zero = true ↔
      val (ds (basezoom - 1)).seq + 1 < 0 := by
    rw [(hseq1 _ hbz).1, elt _ _ fs1 f0, vs1, e0]
  by_cases hs : val (ds (basezoom - 1)).seq + 1 < 0
  · have hw1 : w.1 = basezoom := by
      by_contra hc
      have h1 := w2 (basezoom - 1) (by omega) (by omega)
      have h2 := hneg.mpr hs
      rw [h1] at h2
      exact absurd h2 (by decide)
    have hseq : (w.2 (basezoom - 1)).seq = ops.add (ds (basezoom - 1)).seq ops.one := by
      rw [w4, if_neg (by omega), (hseq1 _ hbz).1]
    refine ⟨hhigh', hint', Or.inr ⟨hw1, by rw [hseq, vs1]⟩, by rw [hseq]; exact fs1, ?_, ?_, ?_⟩
    · refine ⟨j + 2 ^ k, ?_⟩
      rw [hseq, vs1, hj]
      push_cast
      field_simp
    · rw [hseq, vs1]; linarith
    · rw [hseq, vs1]; linarith
  · have hw1 : w.1 ≤ basezoom - 1 := by
      by_contra hc
      have hpos1 : 0 < w.1 := by omega
      have h1 := w3 hpos1
      have h2 : w.1 - 1 = basezoom - 1 := by omega
      rw [h2] at h1
      exact hs (hneg.mp h1)
    have hd2 : Dyadic53 (val (ops.add (ds (basezoom - 1)).seq ops.one) - val I) := by
      rw [vs1]
      refine dyadic53_of_grid (val I) _ mI k hm hk hvI (j + 2 ^ k - mI) ?_ ?_
      · rw [hj, hvI]
        push_cast
        field_simp
      · rw [abs_le]
        constructor <;> linarith [not_lt.mp hs]
    obtain ⟨fs2, vs2⟩ := esub _ _ fs1 hfI hd2
    rw [vs1] at vs2
    have hseq : (w.2 (basezoom - 1)).seq =
        ops.sub (ops.add (ds (basezoom - 1)).seq ops.one) I := by
      rw [w4, if_pos ⟨hw1, by omega⟩, (hseq1 _ hbz).1, (hseq1 _ hbz).2, hint]
    refine ⟨hhigh', hint', Or.inl ⟨hw1, by rw [hseq, vs2]⟩, by rw [hseq]; exact fs2, ?_, ?_, ?_⟩
    · refine ⟨j + 2 ^ k - mI, ?_⟩
      rw [hseq, vs2, hj, hvI]
      push_cast
      field_simp
    · rw [hseq, vs2]; linarith [not_lt.mp hs]
    · rw [hseq, vs2]; linarith

theorem feed_minzooms_counter {F : Type} (ops : DoubleOps F) (fin : F → Prop)
    (val : F → ℚ) (hcu : CountsUp ops) (hex : RoundsExactly ops fin val) (cfg : Settings)
    (hD : cfg.preserve_point_density_threshold = 0)
    (gamma : F) (maxzoom basezoom : Nat) (hb1 : 1 ≤ basezoom) (hb2 : basezoom ≤ maxzoom)
    (I : F) (hfI : fin I) (hI : 1 ≤ val I)
    (mI : Int) (k : Nat) (hm : |mI| < 2 ^ 53) (hk : k ≤ 1074) (hvI : val I = (mI : ℚ) / 2 ^ k)
    (l : List index) (hel : ∀ ix ∈ l, eligible ops cfg ix gamma = true)
    (ds : Nat → drop_state F)
    (hhigh : ∀ z, basezoom ≤ z → z ≤ maxzoom →
      (ds z).interval = ops.zero ∧ ops.lt (ds z).seq ops.zero = false)
    (hint : (ds (basezoom - 1)).interval = I)
    (hfs : fin (ds (basezoom - 1)).seq)
    (hgrid : ∃ j : Int, val (ds (basezoom - 1)).seq = (j : ℚ) / 2 ^ k)
    (hlo : -val I ≤ val (ds (basezoom - 1)).seq) (hhi : val (ds (basezoom - 1)).seq ≤ 0) :
    (∀ m ∈ feed_minzooms ops cfg maxzoom gamma ds l, m ≤ basezoom - 1 ∨ m = basezoom) ∧
    -val I ≤ val (ds (basezoom - 1)).seq + (l.length : ℚ) -
      ((feed_minzooms ops cfg maxzoom gamma ds l).countP
        (fun m => decide (m ≤ basezoom - 1)) : Nat) * val I ∧
    val (ds (basezoom - 1)).seq + (l.length : ℚ) -
      ((feed_minzooms ops cfg maxzoom gamma ds l).countP
        (fun m => decide (m ≤ basezoom - 1)) : Nat) * val I ≤ 0 := by
  induction l generalizing ds with
  | nil =>
    simp only [feed_minzooms, List.countP_nil, List.length_nil, Nat.cast_zero]
    refine ⟨fun m hm => absurd hm (List.not_mem_nil m), ?_, ?_⟩
    · linarith
    · linarith
  | cons ix rest ih =>
    obtain ⟨s1, s2, s3, s4, s5, s6, s7⟩ := calc_feature_minzoom_counter ops fin val hcu hex cfg
      hD ix gamma (hel ix (List.mem_cons_self _ _)) maxzoom basezoom hb1 hb2 ds I hfI hI mI k
      hm hk hvI hhigh hint hfs hgrid hlo hhi
    obtain ⟨i1, i2, i3⟩ := ih (fun x hx => hel x (List.mem_cons_of_mem _ hx))
      (calc_feature_minzoom ops cfg ix ds maxzoom gamma).2 s1 s2 s4 s5 s6 s7
    simp only [feed_minzooms, List.countP_cons, List.length_cons]
    refine ⟨?_, ?_, ?_⟩
    · intro m hm
      rcases List.mem_cons.mp hm with h | h
      · rw [h]
        rcases s3 with ⟨h1, _⟩ | ⟨h1, _⟩
        · exact Or.inl h1
        · exact Or.inr h1
      · exact i1 m h
    · rcases s3 with ⟨h1, h2⟩ | ⟨h1, h2⟩
      · rw [if_pos (by simpa using h1)]
        rw [h2] at i2
        push_cast
        linarith
      · rw [if_neg (by rw [h1]; simp; omega)]
        rw [h2] at i2
        push_cast
        linarith
    · rcases s3 with ⟨h1, h2⟩ | ⟨h1, h2⟩
      · rw [if_pos (by simpa using h1)]
        rw [h2] at i3
        push_cast
        linarith
      · rw [if_neg (by rw [h1]; simp; omega)]
        rw [h2] at i3
        push_cast
        linarith

/-- C27 (as stated): `I = interval[basezoom-1]` is not `droprate` but the
`double` that `std::exp(std::log(droprate) * 1)` returns.  For `droprate = 3`
that is `3 + 2^-51` (3.0000000000000004) in IEEE-754 arithmetic; with this
value (`maxzoom = basezoom = 1`, values held as multiples of `2^-51`) the
interval differs from the drop rate, and of six points the code retains the
first and the fourth at zoom 0, where an interval of exactly 3 would retain
the first, the third and the sixth. -/
theorem interval_is_not_droprate :
    (prep_drop_states (fixedOps (fun _ _ => 3 * 2 ^ 51 + 1)) (fun _ => ⟨0, 0, 0, 0⟩) 1 1
      (3 * 2 ^ 51) (1 - 1)).interval = 3 * 2 ^ 51 + 1 ∧
    (prep_drop_states (fixedOps (fun _ _ => 3 * 2 ^ 51 + 1)) (fun _ => ⟨0, 0, 0, 0⟩) 1 1
      (3 * 2 ^ 51) (1 - 1)).interval ≠ 3 * 2 ^ 51 ∧
    feed_minzooms (fixedOps (fun _ _ => 3 * 2 ^ 51 + 1)) ⟨false, false, 0, false⟩ 1 0
        (prep_drop_states (fixedOps (fun _ _ => 3 * 2 ^ 51 + 1)) (fun _ => ⟨0, 0, 0, 0⟩) 1 1
          (3 * 2 ^ 51))
        [⟨0, 2, 10, 0, 1, 0⟩, ⟨2, 4, 20, 0, 1, 1⟩, ⟨4, 6, 30, 0, 1, 2⟩, ⟨6, 8, 40, 0, 1, 3⟩,
          ⟨8, 10, 50, 0, 1, 4⟩, ⟨10, 12, 60, 0, 1, 5⟩] = [0, 1, 1, 0, 1, 1] ∧
    feed_minzooms (fixedOps (fun _ _ => 3 * 2 ^ 51)) ⟨false, false, 0, false⟩ 1 0
        (prep_drop_states (fixedOps (fun _ _ => 3 * 2 ^ 51)) (fun _ => ⟨0, 0, 0, 0⟩) 1 1
          (3 * 2 ^ 51))
        [⟨0, 2, 10, 0, 1, 0⟩, ⟨2, 4, 20, 0, 1, 1⟩, ⟨4, 6, 30, 0, 1, 2⟩, ⟨6, 8, 40, 0, 1, 3⟩,
          ⟨8, 10, 50, 0, 1, 4⟩, ⟨10, 12, 60, 0, 1, 5⟩] = [0, 1, 0, 1, 1, 0] := by
  decide

/-- C27 (amended): droprate controls retained density.  With
`1 <= basezoom <= maxzoom`, no density threshold, drop states from
`prep_drop_states` and `I = interval[basezoom-1]`, which is the `double` that
`std::exp(std::log(droprate) * 1)` returns (the drop rate up to rounding),
finite with `1 <= I < 2^53`: in `double` arithmetic, for every `n` the number
`c` of the first `n` eligible features to which `calc_feature_minzoom`
assigns `feature_minzoom <= basezoom - 1` satisfies `n <= c * I <= n + I`,
that is `n/I <= c <= n/I + 1`, and every other eligible feature gets
`feature_minzoom = basezoom`. -/
theorem droprate_controls_density {F : Type} (ops : DoubleOps F) (fin : F → Prop)
    (val : F → ℚ) (hcu : CountsUp ops) (hex : RoundsExactly ops fin val) (cfg : Settings)
    (hD : cfg.preserve_point_density_threshold = 0)
    (gamma droprate : F) (maxzoom basezoom : Nat) (hb1 : 1 ≤ basezoom)
    (hb2 : basezoom ≤ maxzoom) (ds0 : Nat → drop_state F)
    (hfI : fin (prep_drop_states ops ds0 maxzoom basezoom droprate (basezoom - 1)).interval)
    (hI : 1 ≤ val (prep_drop_states ops ds0 maxzoom basezoom droprate (basezoom - 1)).interval)
    (hI2 : val (prep_drop_states ops ds0 maxzoom basezoom droprate (basezoom - 1)).interval <
      2 ^ 53)
    (l : List index) (hel : ∀ ix ∈ l, eligible ops cfg ix gamma = true) :
    (prep_drop_states ops ds0 maxzoom basezoom droprate (basezoom - 1)).interval =
      ops.expLogMul droprate 1 ∧
    ((l.length : Nat) : ℚ) ≤
      ((feed_minzooms ops cfg maxzoom gamma
          (prep_drop_states ops ds0 maxzoom basezoom droprate) l).countP
        (fun m => decide (m ≤ basezoom - 1)) : Nat) *
      val (prep_drop_states ops ds0 maxzoom basezoom droprate (basezoom - 1)).interval ∧
    (((feed_minzooms ops cfg maxzoom gamma
          (prep_drop_states ops ds0 maxzoom basezoom droprate) l).countP
        (fun m => decide (m ≤ basezoom - 1)) : Nat) : ℚ) *
      val (prep_drop_states ops ds0 maxzoom basezoom droprate (basezoom - 1)).interval ≤
      ((l.length : Nat) : ℚ) +
        val (prep_drop_states ops ds0 maxzoom basezoom droprate (basezoom - 1)).interval ∧
    (∀ m ∈ feed_minzooms ops cfg maxzoom gamma
        (prep_drop_states ops ds0 maxzoom basezoom droprate) l,
      m ≤ basezoom - 1 ∨ m = basezoom) := by
  have hprep : ∀ z, z ≤ maxzoom →
      prep_drop_states ops ds0 maxzoom basezoom droprate z =
        prep_drop_state ops (basezoom : Int) droprate z := by
    intro z hz
    unfold prep_drop_states
    rw [prep_drop_states_loop_apply, if_pos (by omega)]
  have hbz : basezoom - 1 ≤ maxzoom := by omega
  have hint : (prep_drop_states ops ds0 maxzoom basezoom droprate (basezoom - 1)).interval =
      ops.expLogMul droprate 1 := by
    rw [hprep _ hbz]
    unfold prep_drop_state
    dsimp only
    rw [if_pos (by omega)]
    congr 1
    omega
  have hseq0 : (prep_drop_states ops ds0 maxzoom basezoom droprate (basezoom - 1)).seq =
      ops.zero := by
    rw [hprep _ hbz]
    rfl
  have hhigh : ∀ z, basezoom ≤ z → z ≤ maxzoom →
      (prep_drop_states ops ds0 maxzoom basezoom droprate z).interval = ops.zero ∧
      ops.lt (prep_drop_states ops ds0 maxzoom basezoom droprate z).seq ops.zero = false := by
    intro z hz1 hz2
    rw [hprep z hz2]
    unfold prep_drop_state
    dsimp only
    rw [if_neg (by omega)]
    exact ⟨rfl, hcu.1⟩
  have hv0 : val ops.zero = 0 := hex.1.2
  obtain ⟨mI, k, hm, hk, hvI⟩ := hex.2.2.2.2.2 _ hfI
    (by rw [abs_of_nonneg (by linarith)]; exact hI2)
  obtain ⟨r1, r2, r3⟩ := feed_minzooms_counter ops fin val hcu hex cfg hD gamma maxzoom
    basezoom hb1 hb2 _ hfI hI mI k hm hk hvI l hel
    (prep_drop_states ops ds0 maxzoom basezoom droprate) hhigh rfl
    (by rw [hseq0]; exact hex.1.1) ⟨0, by rw [hseq0, hv0]; simp⟩
    (by rw [hseq0, hv0]; linarith) (by rw [hseq0, hv0])
  rw [hseq0, hv0] at r2 r3
  refine ⟨hint, ?_, ?_, r1⟩
  · linarith
  · linarith

theorem droprate_controls_density_witness :
    (1 : ℚ) ≤ (((prep_drop_states (fixedOps (fun _ _ => 3 * 2 ^ 51 + 1))
      (fun _ => ⟨0, 0, 0, 0⟩) 1 1 (3 * 2 ^ 51) (1 - 1)).interval : Int) : ℚ) / 2 ^ 51 ∧
    feed_minzooms (fixedOps (fun _ _ => 3 * 2 ^ 51 + 1)) ⟨false, false, 0, false⟩ 1 0
        (prep_drop_states (fixedOps (fun _ _ => 3 * 2 ^ 51 + 1)) (fun _ => ⟨0, 0, 0, 0⟩) 1 1
          (3 * 2 ^ 51))
        [⟨0, 2, 10, 0, 1, 0⟩, ⟨2, 4, 20, 0, 1, 1⟩, ⟨4, 6, 30, 0, 1, 2⟩, ⟨6, 8, 40, 0, 1, 3⟩,
          ⟨8, 10, 50, 0, 1, 4⟩] = [0, 1, 1, 0, 1] ∧
    ∀ m ∈ feed_minzooms (fixedOps (fun _ _ => 3 * 2 ^ 51 + 1)) ⟨false, false, 0, false⟩ 1 0
        (prep_drop_states (fixedOps (fun _ _ => 3 * 2 ^ 51 + 1)) (fun _ => ⟨0, 0, 0, 0⟩) 1 1
          (3 * 2 ^ 51))
        [⟨0, 2, 10, 0, 1, 0⟩, ⟨2, 4, 20, 0, 1, 1⟩, ⟨4, 6, 30, 0, 1, 2⟩, ⟨6, 8, 40, 0, 1, 3⟩,
          ⟨8, 10, 50, 0, 1, 4⟩], m ≤ 1 - 1 ∨ m = 1 :=
  have hI : (prep_drop_states (fixedOps (fun _ _ => 3 * 2 ^ 51 + 1))
      (fun _ => ⟨0, 0, 0, 0⟩) 1 1 (3 * 2 ^ 51) (1 - 1)).interval = 3 * 2 ^ 51 + 1 := by decide
  have hJ : (prep_drop_states (fixedOps (fun _ _ => 3 * 2 ^ 51 + 1))
      (fun _ => ⟨0, 0, 0, 0⟩) 1 ((1 : Nat) : Int) (3 * 2 ^ 51) (1 - 1)).interval =
      3 * 2 ^ 51 + 1 := by decide
  have h1 : (1 : ℚ) ≤ (((prep_drop_states (fixedOps (fun _ _ => 3 * 2 ^ 51 + 1))
      (fun _ => ⟨0, 0, 0, 0⟩) 1 1 (3 * 2 ^ 51) (1 - 1)).interval : Int) : ℚ) / 2 ^ 51 := by
    rw [hI]
    norm_num
  ⟨h1, by decide,
    (droprate_controls_density (fixedOps (fun _ _ => 3 * 2 ^ 51 + 1))
      (fun a => Dyadic53 ((a : ℚ) / 2 ^ 51)) (fun a => (a : ℚ) / 2 ^ 51)
      (countsUp_fixedOps _) (roundsExactly_fixedOps _) ⟨false, false, 0, false⟩ rfl 0
      (3 * 2 ^ 51) 1 1 (by decide) (by decide) (fun _ => ⟨0, 0, 0, 0⟩)
      (by dsimp only; rw [hJ]; exact ⟨3 * 2 ^ 51 + 1, 51, by norm_num, by norm_num, rfl⟩)
      h1 (by dsimp only; rw [hJ]; norm_num)
      [⟨0, 2, 10, 0, 1, 0⟩, ⟨2, 4, 20, 0, 1, 1⟩, ⟨4, 6, 30, 0, 1, 2⟩, ⟨6, 8, 40, 0, 1, 3⟩,
        ⟨8, 10, 50, 0, 1, 4⟩] (by decide)).2.2.2⟩

/-! ## Drop-denser mode -/

set_option maxRecDepth 100000 in
/-- C30 fails on the code where the recursion of `radix1` does not come back
(see `radix1_recursion_fan_out_one`): with `MAX_FILES = 1498`, one reader and
a memory budget of 64 bytes, two records with the key `ix = 0` leave `radix`
without a result, so `radix1` has not ended with `*availfiles` increased by
`2 * inputs`; the same records with the key `ix = 5` are sorted, and the check
of `radix` passes. -/
theorem radix_no_result_low_budget :
    radix_done (radix intOps ⟨false, false, 0, false⟩ 2 4096 128 1498
      [⟨[7, 0, 9, 0], [⟨0, 2, 0, 0, 1, 0⟩, ⟨2, 4, 0, 0, 1, 1⟩]⟩] ⟨[], [], 24, 0, fun _ => ⟨0, 0, 0, 0⟩⟩
      2 2 2 0 (fun _ => ⟨0, 0, 0, 0⟩)) = false ∧
    radix_done (radix intOps ⟨false, false, 0, false⟩ 2 4096 128 1498
      [⟨[7, 0, 9, 0], [⟨0, 2, 5, 0, 1, 0⟩, ⟨2, 4, 5, 0, 1, 1⟩]⟩] ⟨[], [], 24, 0, fun _ => ⟨0, 0, 0, 0⟩⟩
      2 2 2 0 (fun _ => ⟨0, 0, 0, 0⟩)) = true := by
  decide

end Tippecanoe
